import Mathlib

/-!
Verification of the prompt-cache-engine core: a radix trie over token
sequences (`trie.py`), the cache manager built on it (`cache.py`), and the
configuration / result records (`models.py`).  Token sequences are embedded
as `List Int`, Python floats (timestamps, megabyte budgets) as `ℚ`, the
SHA-256 content-address derivation as an abstract key function
`ckey : List Int → String`, and Python dicts / OrderedDicts as association
lists in insertion order.
-/

set_option maxHeartbeats 1600000

namespace PCE

/-- First-match lookup in an association list (Python `dict.get` /
`key in dict`). -/
def assocFind {α β : Type} [DecidableEq α] (k : α) : List (α × β) → Option β
  | [] => none
  | (a, b) :: rest => if a = k then some b else assocFind k rest

/-- Python `dict[k] = v`: replace the first binding of `k` in place, or
append a fresh binding at the end. -/
def assocSet {α β : Type} [DecidableEq α] (k : α) (v : β) : List (α × β) → List (α × β)
  | [] => [(k, v)]
  | (a, b) :: rest => if a = k then (k, v) :: rest else (a, b) :: assocSet k v rest

/-- Python `dict.pop(k, None)` (the removal part): drop the first binding
of `k`, if any. -/
def assocErase {α β : Type} [DecidableEq α] (k : α) : List (α × β) → List (α × β)
  | [] => []
  | (a, b) :: rest => if a = k then rest else (a, b) :: assocErase k rest

theorem assocFind_assocSet_self {α β : Type} [DecidableEq α] (k : α) (v : β)
    (l : List (α × β)) : assocFind k (assocSet k v l) = some v := by
  induction l with
  | nil => simp [assocFind, assocSet]
  | cons p rest ih =>
    obtain ⟨a, b⟩ := p
    by_cases h : a = k <;> simp [assocFind, assocSet, h, ih]

theorem assocFind_assocSet_ne {α β : Type} [DecidableEq α] {k k' : α} (v : β)
    (l : List (α × β)) (h : k' ≠ k) :
    assocFind k' (assocSet k v l) = assocFind k' l := by
  induction l with
  | nil =>
    have h' : ¬k = k' := fun hh => h hh.symm
    simp [assocFind, assocSet, h']
  | cons p rest ih =>
    obtain ⟨a, b⟩ := p
    by_cases ha : a = k
    · subst ha
      have h' : ¬a = k' := fun hh => h hh.symm
      simp [assocFind, assocSet, h']
    · simp [assocFind, assocSet, ha, ih]

theorem assocFind_assocErase_ne {α β : Type} [DecidableEq α] {k k' : α}
    (l : List (α × β)) (h : k' ≠ k) :
    assocFind k' (assocErase k l) = assocFind k' l := by
  induction l with
  | nil => simp [assocErase]
  | cons p rest ih =>
    obtain ⟨a, b⟩ := p
    by_cases ha : a = k
    · subst ha
      have h' : ¬a = k' := fun hh => h hh.symm
      simp [assocFind, assocErase, h']
    · simp [assocFind, assocErase, ha, ih]

theorem assocErase_sublist {α β : Type} [DecidableEq α] (k : α)
    (l : List (α × β)) : (assocErase k l).Sublist l := by
  induction l with
  | nil => simp [assocErase]
  | cons p rest ih =>
    obtain ⟨a, b⟩ := p
    by_cases ha : a = k
    · simp only [assocErase, if_pos ha]
      exact List.sublist_cons_self (a, b) rest
    · simpa [assocErase, ha] using ih.cons₂ (a, b)

/-- Decompose a successful erase: the list splits around the first binding
of `k`, whose key does not occur earlier. -/
theorem assocErase_decomp {α β : Type} [DecidableEq α] {k : α} {v : β}
    {l : List (α × β)} (h : assocFind k l = some v) :
    ∃ l₁ l₂, l = l₁ ++ (k, v) :: l₂ ∧ assocErase k l = l₁ ++ l₂ ∧
      ∀ p ∈ l₁, p.1 ≠ k := by
  induction l with
  | nil => simp [assocFind] at h
  | cons p rest ih =>
    obtain ⟨a, b⟩ := p
    by_cases ha : a = k
    · subst ha
      simp [assocFind] at h
      exact ⟨[], rest, by simp [h, assocErase]⟩
    · simp [assocFind, ha] at h
      obtain ⟨l₁, l₂, h1, h2, h3⟩ := ih h
      refine ⟨(a, b) :: l₁, l₂, by simp [h1], by simp [assocErase, ha, h2], ?_⟩
      intro q hq
      rcases List.mem_cons.mp hq with hq | hq
      · simp [hq, ha]
      · exact h3 q hq

theorem assocFind_eq_none {α β : Type} [DecidableEq α] {k : α}
    {l : List (α × β)} (h : ∀ p ∈ l, p.1 ≠ k) : assocFind k l = none := by
  induction l with
  | nil => rfl
  | cons p rest ih =>
    obtain ⟨a, b⟩ := p
    have := h (a, b) (by simp)
    simp only [assocFind, if_neg this]
    exact ih fun q hq => h q (by simp [hq])

theorem assocFind_isSome_of_mem {α β : Type} [DecidableEq α] {k : α}
    {l : List (α × β)} (h : k ∈ l.map Prod.fst) : (assocFind k l).isSome := by
  induction l with
  | nil => simp at h
  | cons p rest ih =>
    obtain ⟨a, b⟩ := p
    by_cases ha : a = k
    · simp [assocFind, ha]
    · rcases List.mem_cons.mp h with h | h
      · exact absurd h.symm ha
      · simpa [assocFind, ha] using ih h

theorem assocSet_of_not_mem {α β : Type} [DecidableEq α] {k : α} (v : β)
    {l : List (α × β)} (h : k ∉ l.map Prod.fst) :
    assocSet k v l = l ++ [(k, v)] := by
  induction l with
  | nil => rfl
  | cons p rest ih =>
    obtain ⟨a, b⟩ := p
    have h1 : ¬a = k := fun hh => h (by simp [hh])
    have h2 : k ∉ rest.map Prod.fst := fun hh => h (by simp [hh])
    simp [assocSet, h1, ih h2]

/-- Length of the longest common prefix of two token lists.  This is the
`common_len` / `match_len` scanning loop shared by `RadixTrie.insert`,
`find_longest_prefix` and `remove` in `trie.py`. -/
def commonPrefixLen : List Int → List Int → Nat
  | a :: as, b :: bs => if a = b then commonPrefixLen as bs + 1 else 0
  | _, _ => 0

/-- Node of the radix trie (`TrieNode` in `trie.py`): an edge label, the
children keyed by the first token of their edge, an optional terminal
cache key, and the recorded depth. -/
inductive TrieNode : Type where
  | mk (tokens : List Int) (children : List (Int × TrieNode))
       (cacheKey : Option String) (depth : Nat) : TrieNode

def TrieNode.tokens : TrieNode → List Int
  | .mk ts _ _ _ => ts

def TrieNode.children : TrieNode → List (Int × TrieNode)
  | .mk _ cs _ _ => cs

def TrieNode.cacheKey : TrieNode → Option String
  | .mk _ _ ck _ => ck

def TrieNode.depth : TrieNode → Nat
  | .mk _ _ _ d => d

@[simp] theorem TrieNode.tokens_mk (ts cs ck d) :
    (TrieNode.mk ts cs ck d).tokens = ts := rfl

@[simp] theorem TrieNode.children_mk (ts cs ck d) :
    (TrieNode.mk ts cs ck d).children = cs := rfl

@[simp] theorem TrieNode.cacheKey_mk (ts cs ck d) :
    (TrieNode.mk ts cs ck d).cacheKey = ck := rfl

@[simp] theorem TrieNode.depth_mk (ts cs ck d) :
    (TrieNode.mk ts cs ck d).depth = d := rfl

/-- Replace the children of a node, keeping all other fields. -/
def TrieNode.withChildren : TrieNode → List (Int × TrieNode) → TrieNode
  | .mk ts _ ck d, cs => .mk ts cs ck d

/-- Replace the terminal marker of a node, keeping all other fields. -/
def TrieNode.withKey : TrieNode → Option String → TrieNode
  | .mk ts cs _ d, ck => .mk ts cs ck d

/-- Replace the edge label of a node, keeping all other fields
(`child.tokens = child_tokens[common_len:]` in the edge split). -/
def TrieNode.withTokens : TrieNode → List Int → TrieNode
  | .mk _ cs ck d, ts => .mk ts cs ck d

theorem TrieNode.sizeOf_children_lt (n : TrieNode) :
    sizeOf n.children < sizeOf n := by
  obtain ⟨ts, cs, ck, d⟩ := n
  simp [TrieNode.children]
  omega

theorem sizeOf_assocFind {k : Int} {l : List (Int × TrieNode)} {c : TrieNode}
    (h : assocFind k l = some c) : sizeOf c < sizeOf l := by
  induction l with
  | nil => simp [assocFind] at h
  | cons p rest ih =>
    obtain ⟨a, b⟩ := p
    by_cases ha : a = k
    · simp [assocFind, ha] at h
      subst h
      simp
      omega
    · simp [assocFind, ha] at h
      have := ih h
      simp
      omega

theorem sizeOf_child_lt {k : Int} {n c : TrieNode}
    (h : assocFind k n.children = some c) : sizeOf c < sizeOf n :=
  Nat.lt_trans (sizeOf_assocFind h) n.sizeOf_children_lt

/-- The edge-split step of `RadixTrie.insert` (`trie.py`): replace `child`
(whose edge label shares `commonPrefixLen child.tokens ts` tokens with the
remaining input `ts`) by an intermediate node carrying the common part,
with the original child re-parented under it and, when tokens remain, a new
terminal leaf for them; otherwise the intermediate node itself is marked. -/
def splitNode (k : String) (fullLen parentDepth : Nat) (child : TrieNode)
    (ts : List Int) : TrieNode :=
  let cl := commonPrefixLen child.tokens ts
  let moved := child.withTokens (child.tokens.drop cl)
  let rem := ts.drop cl
  let splitCs := assocSet (child.tokens.drop cl).headI moved []
  if rem.isEmpty then
    .mk (child.tokens.take cl) splitCs (some k) (parentDepth + cl)
  else
    .mk (child.tokens.take cl)
      (assocSet rem.headI (.mk rem [] (some k) fullLen) splitCs)
      none (parentDepth + cl)

/-- The body of `RadixTrie.insert` (`trie.py`): walk from `node` consuming
the remaining tokens `ts`; `fullLen` is the length of the whole inserted
sequence (used for the recorded depth of new leaves).  Returns the updated
node and whether `_size` was incremented. -/
def insertGo (k : String) (fullLen : Nat) (node : TrieNode) (ts : List Int) :
    TrieNode × Bool :=
  match ts with
  | [] =>
    -- reached the end of the tokens exactly at an existing node
    (node.withKey (some k), node.cacheKey.isNone)
  | t :: _ =>
    match hfc : assocFind t node.children with
    | none =>
      -- no matching child: attach a new leaf labelled with the whole suffix
      (node.withChildren (assocSet t (.mk ts [] (some k) fullLen) node.children), true)
    | some child =>
      let cl := commonPrefixLen child.tokens ts
      if cl = child.tokens.length then
        -- full match on the child edge: descend
        let r := insertGo k fullLen child (ts.drop cl)
        (node.withChildren (assocSet t r.1 node.children), r.2)
      else
        -- partial match: split the edge
        (node.withChildren (assocSet t (splitNode k fullLen node.depth child ts) node.children), true)
termination_by sizeOf node
decreasing_by exact sizeOf_child_lt hfc

/-- The scanning loop of `RadixTrie.find_longest_prefix`: `rem` is the
not-yet-consumed suffix, `pos` the number of consumed tokens, and
`(best, bkey)` the best terminal seen so far. -/
def findLongestGo (node : TrieNode) (rem : List Int) (pos best : Nat)
    (bkey : Option String) : Nat × Option String :=
  match rem with
  | [] => (best, bkey)
  | t :: _ =>
    match hfc : assocFind t node.children with
    | none => (best, bkey)
    | some child =>
      let ml := commonPrefixLen child.tokens rem
      if ml < child.tokens.length then (best, bkey)
      else
        match child.cacheKey with
        | some ck => findLongestGo child (rem.drop ml) (pos + ml) (pos + ml) (some ck)
        | none => findLongestGo child (rem.drop ml) (pos + ml) best bkey
termination_by sizeOf node
decreasing_by
  · exact sizeOf_child_lt hfc
  · exact sizeOf_child_lt hfc

/-- The walk of `RadixTrie.remove`: returns the updated node when an entry
for `ts` was found and its marker cleared, `none` otherwise. -/
def removeGo (node : TrieNode) (ts : List Int) : Option TrieNode :=
  match ts with
  | [] =>
    match node.cacheKey with
    | none => none
    | some _ => some (node.withKey none)
  | t :: _ =>
    match hfc : assocFind t node.children with
    | none => none
    | some child =>
      let ml := commonPrefixLen child.tokens ts
      if ml < child.tokens.length then none
      else
        match removeGo child (ts.drop ml) with
        | none => none
        | some child' => some (node.withChildren (assocSet t child' node.children))
termination_by sizeOf node
decreasing_by exact sizeOf_child_lt hfc

/-- The terminal marker stored at the node whose reconstructed path is
exactly `ts`, if the walk reaches such a node.  This is the semantic view
of the trie used throughout: a partial map from sequences to keys. -/
def exactMarker (node : TrieNode) (ts : List Int) : Option String :=
  match ts with
  | [] => node.cacheKey
  | t :: _ =>
    match hfc : assocFind t node.children with
    | none => none
    | some child =>
      let ml := commonPrefixLen child.tokens ts
      if ml < child.tokens.length then none
      else exactMarker child (ts.drop ml)
termination_by sizeOf node
decreasing_by exact sizeOf_child_lt hfc

mutual
/-- Number of terminal markers in the subtree rooted at a node. -/
def countTerminals : TrieNode → Nat
  | .mk _ cs ck _ => (if ck.isSome then 1 else 0) + countChildren cs

def countChildren : List (Int × TrieNode) → Nat
  | [] => 0
  | (_, c) :: rest => countTerminals c + countChildren rest
end

mutual
/-- Structural well-formedness of a trie node, as documented in the spec's
data model: children are keyed by pairwise-distinct first tokens, every
child's edge label is non-empty and starts with its key. -/
def nodeWF : TrieNode → Bool
  | .mk _ cs _ _ => ((cs.map Prod.fst).Nodup : Bool) && childrenWF cs

def childrenWF : List (Int × TrieNode) → Bool
  | [] => true
  | (t, c) :: rest =>
    (!c.tokens.isEmpty) && (c.tokens.headI == t) && nodeWF c && childrenWF rest
end

/-- The `RadixTrie` wrapper (`trie.py`): root node plus the `_size`
counter. -/
structure RadixTrie where
  root : TrieNode
  size : Int

def RadixTrie.empty : RadixTrie := ⟨.mk [] [] none 0, 0⟩

/-- `RadixTrie.insert(tokens, cache_key)`: no-op on the empty sequence. -/
def RadixTrie.insert (tr : RadixTrie) (ts : List Int) (k : String) : RadixTrie :=
  match ts with
  | [] => tr
  | _ :: _ =>
    let r := insertGo k ts.length tr.root ts
    ⟨r.1, tr.size + (if r.2 then 1 else 0)⟩

/-- `RadixTrie.find_longest_prefix(tokens)`. -/
def RadixTrie.findLongest (tr : RadixTrie) (ts : List Int) : Nat × Option String :=
  match ts with
  | [] => (0, none)
  | _ :: _ => findLongestGo tr.root ts 0 0 tr.root.cacheKey

/-- `RadixTrie.remove(tokens)`: returns the updated trie and whether an
entry was removed. -/
def RadixTrie.remove (tr : RadixTrie) (ts : List Int) : RadixTrie × Bool :=
  match ts with
  | [] => (tr, false)
  | _ :: _ =>
    match removeGo tr.root ts with
    | none => (tr, false)
    | some root' => (⟨root', tr.size - 1⟩, true)

/-- Well-formedness of the whole trie. -/
def trieWF (tr : RadixTrie) : Bool := nodeWF tr.root

@[simp] theorem TrieNode.withChildren_tokens (n : TrieNode) (cs) :
    (n.withChildren cs).tokens = n.tokens := by cases n; rfl

@[simp] theorem TrieNode.withChildren_children (n : TrieNode) (cs) :
    (n.withChildren cs).children = cs := by cases n; rfl

@[simp] theorem TrieNode.withChildren_cacheKey (n : TrieNode) (cs) :
    (n.withChildren cs).cacheKey = n.cacheKey := by cases n; rfl

@[simp] theorem TrieNode.withChildren_depth (n : TrieNode) (cs) :
    (n.withChildren cs).depth = n.depth := by cases n; rfl

@[simp] theorem TrieNode.withKey_tokens (n : TrieNode) (ck) :
    (n.withKey ck).tokens = n.tokens := by cases n; rfl

@[simp] theorem TrieNode.withKey_children (n : TrieNode) (ck) :
    (n.withKey ck).children = n.children := by cases n; rfl

@[simp] theorem TrieNode.withKey_cacheKey (n : TrieNode) (ck) :
    (n.withKey ck).cacheKey = ck := by cases n; rfl

@[simp] theorem TrieNode.withKey_depth (n : TrieNode) (ck) :
    (n.withKey ck).depth = n.depth := by cases n; rfl

@[simp] theorem TrieNode.withTokens_tokens (n : TrieNode) (ts) :
    (n.withTokens ts).tokens = ts := by cases n; rfl

@[simp] theorem TrieNode.withTokens_children (n : TrieNode) (ts) :
    (n.withTokens ts).children = n.children := by cases n; rfl

@[simp] theorem TrieNode.withTokens_cacheKey (n : TrieNode) (ts) :
    (n.withTokens ts).cacheKey = n.cacheKey := by cases n; rfl

theorem commonPrefixLen_le_left (xs ys : List Int) :
    commonPrefixLen xs ys ≤ xs.length := by
  induction xs generalizing ys with
  | nil => simp [commonPrefixLen]
  | cons a as ih =>
    cases ys with
    | nil => simp [commonPrefixLen]
    | cons b bs =>
      by_cases h : a = b <;> simp [commonPrefixLen, h]
      exact ih bs

theorem commonPrefixLen_le_right (xs ys : List Int) :
    commonPrefixLen xs ys ≤ ys.length := by
  induction xs generalizing ys with
  | nil => simp [commonPrefixLen]
  | cons a as ih =>
    cases ys with
    | nil => simp [commonPrefixLen]
    | cons b bs =>
      by_cases h : a = b <;> simp [commonPrefixLen, h]
      exact ih bs

theorem commonPrefixLen_self (xs : List Int) :
    commonPrefixLen xs xs = xs.length := by
  induction xs with
  | nil => rfl
  | cons a as ih => simp [commonPrefixLen, ih]

theorem take_eq_of_le_commonPrefixLen {j : Nat} {xs ys : List Int}
    (h : j ≤ commonPrefixLen xs ys) : xs.take j = ys.take j := by
  induction xs generalizing ys j with
  | nil =>
    simp [commonPrefixLen] at h
    simp [h]
  | cons a as ih =>
    cases ys with
    | nil => simp [commonPrefixLen] at h; simp [h]
    | cons b bs =>
      by_cases hab : a = b
      · cases j with
        | zero => simp
        | succ j' =>
          simp [commonPrefixLen, hab] at h
          simp [hab, ih (Nat.le_of_succ_le_succ (by simpa [Nat.succ_le_succ_iff] using h))]
      · simp [commonPrefixLen, hab] at h
        simp [h]

theorem commonPrefixLen_eq_left_of_take {cl : Nat} {xs ys : List Int}
    (h : cl = commonPrefixLen xs ys) :
    xs.take cl = ys.take cl :=
  take_eq_of_le_commonPrefixLen (le_of_eq h)

theorem prefix_of_commonPrefixLen_eq_length {xs ys : List Int}
    (h : commonPrefixLen xs ys = xs.length) : xs <+: ys := by
  have := take_eq_of_le_commonPrefixLen (le_of_eq h.symm)
  simp at this
  rw [this]
  exact List.take_prefix _ _

theorem commonPrefixLen_of_prefix {xs ys : List Int} (h : xs <+: ys) :
    commonPrefixLen xs ys = xs.length := by
  obtain ⟨zs, rfl⟩ := h
  induction xs with
  | nil => simp [commonPrefixLen]
  | cons a as ih => simpa [commonPrefixLen] using ih

theorem commonPrefixLen_append (p xs ys : List Int) :
    commonPrefixLen (p ++ xs) (p ++ ys) = p.length + commonPrefixLen xs ys := by
  induction p with
  | nil => simp
  | cons a as ih => simp [commonPrefixLen, ih]; omega

theorem commonPrefixLen_take_left (m : Nat) (xs ys : List Int) :
    commonPrefixLen (xs.take m) ys = min m (commonPrefixLen xs ys) := by
  induction xs generalizing ys m with
  | nil => simp [commonPrefixLen]
  | cons a as ih =>
    cases m with
    | zero => simp [commonPrefixLen]
    | succ m' =>
      cases ys with
      | nil => simp [commonPrefixLen]
      | cons b bs =>
        by_cases hab : a = b
        · simp [commonPrefixLen, hab, ih]
          omega
        · simp [commonPrefixLen, hab]

theorem one_le_commonPrefixLen_iff {xs ys : List Int}
    (hx : xs ≠ []) (hy : ys ≠ []) :
    1 ≤ commonPrefixLen xs ys ↔ xs.headI = ys.headI := by
  cases xs with
  | nil => simp at hx
  | cons a as =>
    cases ys with
    | nil => simp at hy
    | cons b bs =>
      by_cases hab : a = b <;> simp [commonPrefixLen, hab]

theorem headI_drop_ne_of_commonPrefixLen {xs ys : List Int}
    (h1 : commonPrefixLen xs ys < xs.length)
    (h2 : commonPrefixLen xs ys < ys.length) :
    (xs.drop (commonPrefixLen xs ys)).headI ≠ (ys.drop (commonPrefixLen xs ys)).headI := by
  induction xs generalizing ys with
  | nil => simp at h1
  | cons a as ih =>
    cases ys with
    | nil => simp at h2
    | cons b bs =>
      by_cases hab : a = b
      · simp [commonPrefixLen, hab] at h1 h2 ⊢
        exact ih h1 h2
      · simpa [commonPrefixLen, hab] using hab

theorem commonPrefixLen_comm (xs ys : List Int) :
    commonPrefixLen xs ys = commonPrefixLen ys xs := by
  induction xs generalizing ys with
  | nil => cases ys <;> rfl
  | cons a as ih =>
    cases ys with
    | nil => rfl
    | cons b bs =>
      by_cases hab : a = b
      · simp [commonPrefixLen, hab, ih]
      · have hba : ¬b = a := fun h => hab h.symm
        simp [commonPrefixLen, hab, hba]

theorem insertGo_nil (k : String) (fl : Nat) (node : TrieNode) :
    insertGo k fl node [] = (node.withKey (some k), node.cacheKey.isNone) := by
  simp only [insertGo]

theorem insertGo_cons_none {t : Int} {node : TrieNode} (k : String) (fl : Nat)
    (tail : List Int) (hfc : assocFind t node.children = none) :
    insertGo k fl node (t :: tail) =
      (node.withChildren
        (assocSet t (.mk (t :: tail) [] (some k) fl) node.children), true) := by
  simp only [insertGo]
  cases h2 : assocFind t node.children with
  | none => rfl
  | some c => rw [hfc] at h2; cases h2

theorem insertGo_cons_descend {t : Int} {node child : TrieNode} (k : String) (fl : Nat)
    (tail : List Int) (hfc : assocFind t node.children = some child)
    (hcl : commonPrefixLen child.tokens (t :: tail) = child.tokens.length) :
    insertGo k fl node (t :: tail) =
      (node.withChildren
        (assocSet t
          (insertGo k fl child ((t :: tail).drop (commonPrefixLen child.tokens (t :: tail)))).1
          node.children),
        (insertGo k fl child ((t :: tail).drop (commonPrefixLen child.tokens (t :: tail)))).2) := by
  simp only [insertGo]
  cases h2 : assocFind t node.children with
  | none => rw [hfc] at h2; cases h2
  | some c =>
    rw [hfc] at h2
    injection h2 with h3
    subst h3
    simp only [if_pos hcl]

theorem insertGo_cons_split {t : Int} {node child : TrieNode} (k : String) (fl : Nat)
    (tail : List Int) (hfc : assocFind t node.children = some child)
    (hcl : ¬commonPrefixLen child.tokens (t :: tail) = child.tokens.length) :
    insertGo k fl node (t :: tail) =
      (node.withChildren
        (assocSet t (splitNode k fl node.depth child (t :: tail)) node.children), true) := by
  simp only [insertGo]
  cases h2 : assocFind t node.children with
  | none => rw [hfc] at h2; cases h2
  | some c =>
    rw [hfc] at h2
    injection h2 with h3
    subst h3
    simp only [if_neg hcl]

theorem exactMarker_nil (node : TrieNode) : exactMarker node [] = node.cacheKey := by
  simp only [exactMarker]

theorem exactMarker_cons_none {t : Int} {node : TrieNode} (tail : List Int)
    (hfc : assocFind t node.children = none) :
    exactMarker node (t :: tail) = none := by
  simp only [exactMarker]
  cases h2 : assocFind t node.children with
  | none => rfl
  | some c => rw [hfc] at h2; cases h2

theorem exactMarker_cons_some {t : Int} {node child : TrieNode} (tail : List Int)
    (hfc : assocFind t node.children = some child) :
    exactMarker node (t :: tail) =
      if commonPrefixLen child.tokens (t :: tail) < child.tokens.length then none
      else exactMarker child ((t :: tail).drop (commonPrefixLen child.tokens (t :: tail))) := by
  simp only [exactMarker]
  cases h2 : assocFind t node.children with
  | none => rw [hfc] at h2; cases h2
  | some c =>
    rw [hfc] at h2
    injection h2 with h3
    subst h3
    rfl

theorem removeGo_nil (node : TrieNode) :
    removeGo node [] =
      match node.cacheKey with
      | none => none
      | some _ => some (node.withKey none) := by
  simp only [removeGo]

theorem removeGo_cons_none {t : Int} {node : TrieNode} (tail : List Int)
    (hfc : assocFind t node.children = none) :
    removeGo node (t :: tail) = none := by
  simp only [removeGo]
  cases h2 : assocFind t node.children with
  | none => rfl
  | some c => rw [hfc] at h2; cases h2

theorem removeGo_cons_some {t : Int} {node child : TrieNode} (tail : List Int)
    (hfc : assocFind t node.children = some child) :
    removeGo node (t :: tail) =
      (if commonPrefixLen child.tokens (t :: tail) < child.tokens.length then none
       else
        match removeGo child ((t :: tail).drop (commonPrefixLen child.tokens (t :: tail))) with
        | none => none
        | some child' => some (node.withChildren (assocSet t child' node.children))) := by
  simp only [removeGo]
  cases h2 : assocFind t node.children with
  | none => rw [hfc] at h2; cases h2
  | some c =>
    rw [hfc] at h2
    injection h2 with h3
    subst h3
    rfl

theorem findLongestGo_nil (node : TrieNode) (pos best : Nat) (bkey : Option String) :
    findLongestGo node [] pos best bkey = (best, bkey) := by
  simp only [findLongestGo]

theorem findLongestGo_cons_none {t : Int} {node : TrieNode} (tail : List Int)
    (pos best : Nat) (bkey : Option String)
    (hfc : assocFind t node.children = none) :
    findLongestGo node (t :: tail) pos best bkey = (best, bkey) := by
  simp only [findLongestGo]
  cases h2 : assocFind t node.children with
  | none => rfl
  | some c => rw [hfc] at h2; cases h2

theorem findLongestGo_cons_some {t : Int} {node child : TrieNode} (tail : List Int)
    (pos best : Nat) (bkey : Option String)
    (hfc : assocFind t node.children = some child) :
    findLongestGo node (t :: tail) pos best bkey =
      (if commonPrefixLen child.tokens (t :: tail) < child.tokens.length then (best, bkey)
       else
        match child.cacheKey with
        | some ck =>
          findLongestGo child ((t :: tail).drop (commonPrefixLen child.tokens (t :: tail)))
            (pos + commonPrefixLen child.tokens (t :: tail))
            (pos + commonPrefixLen child.tokens (t :: tail)) (some ck)
        | none =>
          findLongestGo child ((t :: tail).drop (commonPrefixLen child.tokens (t :: tail)))
            (pos + commonPrefixLen child.tokens (t :: tail)) best bkey) := by
  simp only [findLongestGo]
  cases h2 : assocFind t node.children with
  | none => rw [hfc] at h2; cases h2
  | some c =>
    rw [hfc] at h2
    injection h2 with h3
    subst h3
    rfl

theorem insertGo_tokens (k : String) (fl : Nat) (node : TrieNode) (ts : List Int) :
    (insertGo k fl node ts).1.tokens = node.tokens ∧
    (insertGo k fl node ts).1.depth = node.depth := by
  cases ts with
  | nil => simp [insertGo_nil]
  | cons t rest =>
    cases hfc : assocFind t node.children with
    | none => simp [insertGo_cons_none k fl rest hfc]
    | some child =>
      by_cases hcl : commonPrefixLen child.tokens (t :: rest) = child.tokens.length
      · simp [insertGo_cons_descend k fl rest hfc hcl]
      · simp [insertGo_cons_split k fl rest hfc hcl]

theorem splitNode_tokens (k : String) (fl pd : Nat) (child : TrieNode) (ts : List Int) :
    (splitNode k fl pd child ts).tokens =
      child.tokens.take (commonPrefixLen child.tokens ts) := by
  rw [splitNode]
  split <;> simp

/-- After the walk of `insert` updates a trie node, the exact marker at the
inserted sequence is the inserted key. -/
theorem exactMarker_insertGo_self (k : String) (fl : Nat) (node : TrieNode) (ts : List Int) :
    exactMarker (insertGo k fl node ts).1 ts = some k := by
  induction node, ts using insertGo.induct k fl with
  | case1 node => simp [insertGo_nil, exactMarker_nil]
  | case2 node t tail hfc =>
    rw [insertGo_cons_none k fl tail hfc]
    rw [exactMarker_cons_some tail (by
      rw [TrieNode.withChildren_children]
      exact assocFind_assocSet_self t _ _)]
    simp [commonPrefixLen_self, exactMarker_nil]
  | case3 node t tail child hfc cl hcl ih =>
    have hcl' : commonPrefixLen child.tokens (t :: tail) = child.tokens.length := hcl
    have ih' : exactMarker
        (insertGo k fl child ((t :: tail).drop (commonPrefixLen child.tokens (t :: tail)))).1
        ((t :: tail).drop (commonPrefixLen child.tokens (t :: tail))) = some k := ih
    rw [insertGo_cons_descend k fl tail hfc hcl']
    rw [exactMarker_cons_some tail (by
      rw [TrieNode.withChildren_children]
      exact assocFind_assocSet_self t _ _)]
    rw [(insertGo_tokens k fl child _).1]
    rw [hcl']
    simp only [lt_irrefl, if_false]
    rw [hcl'] at ih'
    exact ih'
  | case4 node t tail child hfc cl hcl =>
    have hcl' : ¬commonPrefixLen child.tokens (t :: tail) = child.tokens.length := hcl
    rw [insertGo_cons_split k fl tail hfc hcl']
    rw [exactMarker_cons_some tail (by
      rw [TrieNode.withChildren_children]
      exact assocFind_assocSet_self t _ _)]
    rw [splitNode_tokens]
    have hle : commonPrefixLen child.tokens (t :: tail) ≤ child.tokens.length :=
      commonPrefixLen_le_left _ _
    have hlt : commonPrefixLen child.tokens (t :: tail) < child.tokens.length :=
      lt_of_le_of_ne hle hcl'
    have hcl2 : commonPrefixLen child.tokens (t :: tail) ≤ (t :: tail).length :=
      commonPrefixLen_le_right _ _
    have hcpl2 : commonPrefixLen
        (child.tokens.take (commonPrefixLen child.tokens (t :: tail))) (t :: tail) =
        commonPrefixLen child.tokens (t :: tail) := by
      rw [commonPrefixLen_take_left]
      omega
    rw [hcpl2]
    have hlen2 : (child.tokens.take (commonPrefixLen child.tokens (t :: tail))).length =
        commonPrefixLen child.tokens (t :: tail) := by
      simp
      omega
    rw [hlen2]
    simp only [lt_irrefl, if_false]
    by_cases hrem : (t :: tail).drop (commonPrefixLen child.tokens (t :: tail)) = []
    · -- the inserted sequence ends exactly at the split node
      have hE : (List.drop (commonPrefixLen child.tokens (t :: tail)) (t :: tail)).isEmpty = true := by
        simp [hrem]
      rw [hrem, exactMarker_nil]
      simp only [splitNode, hE, if_true]
      simp
    · -- the leftover tokens go to the fresh leaf under the split node
      have hclt : commonPrefixLen child.tokens (t :: tail) < (t :: tail).length := by
        by_contra hcon
        push_neg at hcon
        exact hrem (List.drop_eq_nil_of_le hcon)
      have hne : (child.tokens.drop (commonPrefixLen child.tokens (t :: tail))).headI ≠
          ((t :: tail).drop (commonPrefixLen child.tokens (t :: tail))).headI :=
        headI_drop_ne_of_commonPrefixLen hlt hclt
      cases hdrop : (t :: tail).drop (commonPrefixLen child.tokens (t :: tail)) with
      | nil => exact absurd hdrop hrem
      | cons u us =>
        have hE : (List.drop (commonPrefixLen child.tokens (t :: tail)) (t :: tail)).isEmpty = false := by
          simp [hdrop]
        simp only [splitNode, hE, Bool.false_eq_true, if_false]
        rw [hdrop] at hne
        simp only [hdrop]
        have hvu : ¬(child.tokens.drop (commonPrefixLen child.tokens (t :: tail))).headI = u := by
          simpa using hne
        have hfind : assocFind u
            (assocSet (u :: us).headI (TrieNode.mk (u :: us) [] (some k) fl)
              (assocSet (child.tokens.drop (commonPrefixLen child.tokens (t :: tail))).headI
                (child.withTokens (child.tokens.drop (commonPrefixLen child.tokens (t :: tail)))) [])) =
            some (TrieNode.mk (u :: us) [] (some k) fl) := by
          simp [assocSet, assocFind, hvu]
        rw [exactMarker_cons_some us (by
          rw [TrieNode.children_mk]
          exact hfind)]
        simp [commonPrefixLen_self, exactMarker_nil]

/-- Two sequences that both extend a fully-matched edge and agree past it
are equal. -/
theorem eq_of_drop_eq_of_full_match {e xs ys : List Int}
    (hx : commonPrefixLen e xs = e.length) (hy : commonPrefixLen e ys = e.length)
    (hd : xs.drop e.length = ys.drop e.length) : xs = ys := by
  have hx1 : xs.take e.length = e := by
    have h := take_eq_of_le_commonPrefixLen (le_of_eq hx.symm)
    rw [List.take_length] at h
    exact h.symm
  have hy1 : ys.take e.length = e := by
    have h := take_eq_of_le_commonPrefixLen (le_of_eq hy.symm)
    rw [List.take_length] at h
    exact h.symm
  calc xs = xs.take e.length ++ xs.drop e.length := (List.take_append_drop _ _).symm
    _ = ys.take e.length ++ ys.drop e.length := by rw [hx1, hy1, hd]
    _ = ys := List.take_append_drop _ _

theorem splitNode_cacheKey_of_ne_nil {k : String} {fl pd : Nat} {child : TrieNode}
    {ts : List Int} (hrem : ts.drop (commonPrefixLen child.tokens ts) ≠ []) :
    (splitNode k fl pd child ts).cacheKey = none := by
  rw [splitNode]
  have hE : (ts.drop (commonPrefixLen child.tokens ts)).isEmpty = false := by
    cases h : ts.drop (commonPrefixLen child.tokens ts) with
    | nil => exact absurd h hrem
    | cons u us => simp
  simp only [hE, Bool.false_eq_true, if_false, TrieNode.cacheKey_mk]

theorem splitNode_children_of_nil {k : String} {fl pd : Nat} {child : TrieNode}
    {ts : List Int} (hrem : ts.drop (commonPrefixLen child.tokens ts) = []) :
    (splitNode k fl pd child ts).children =
      [((child.tokens.drop (commonPrefixLen child.tokens ts)).headI,
        child.withTokens (child.tokens.drop (commonPrefixLen child.tokens ts)))] := by
  rw [splitNode]
  have hE : (ts.drop (commonPrefixLen child.tokens ts)).isEmpty = true := by simp [hrem]
  simp only [hE, if_true, TrieNode.children_mk]
  rfl

theorem splitNode_children_of_ne_nil {k : String} {fl pd : Nat} {child : TrieNode}
    {ts : List Int}
    (hrem : ts.drop (commonPrefixLen child.tokens ts) ≠ [])
    (hvr : (child.tokens.drop (commonPrefixLen child.tokens ts)).headI ≠
           (ts.drop (commonPrefixLen child.tokens ts)).headI) :
    (splitNode k fl pd child ts).children =
      [((child.tokens.drop (commonPrefixLen child.tokens ts)).headI,
        child.withTokens (child.tokens.drop (commonPrefixLen child.tokens ts))),
       ((ts.drop (commonPrefixLen child.tokens ts)).headI,
        TrieNode.mk (ts.drop (commonPrefixLen child.tokens ts)) [] (some k) fl)] := by
  rw [splitNode]
  have hE : (ts.drop (commonPrefixLen child.tokens ts)).isEmpty = false := by
    cases h : ts.drop (commonPrefixLen child.tokens ts) with
    | nil => exact absurd h hrem
    | cons u us => simp
  simp only [hE, Bool.false_eq_true, if_false, TrieNode.children_mk]
  have hvr' : ¬(child.tokens.drop (commonPrefixLen child.tokens ts)).headI =
      (ts.drop (commonPrefixLen child.tokens ts)).headI := hvr
  simp [assocSet, hvr']

/-- `exactMarker` on a cons only consults the children lookup, so two nodes
agreeing there agree on the result. -/
theorem exactMarker_cons_congr {n₁ n₂ : TrieNode} (t' : Int) (rest' : List Int)
    (h : assocFind t' n₁.children = assocFind t' n₂.children) :
    exactMarker n₁ (t' :: rest') = exactMarker n₂ (t' :: rest') := by
  cases hfc : assocFind t' n₂.children with
  | none =>
    rw [exactMarker_cons_none rest' (h.trans hfc), exactMarker_cons_none rest' hfc]
  | some c =>
    rw [exactMarker_cons_some rest' (h.trans hfc), exactMarker_cons_some rest' hfc]

/-- `exactMarker` depends only on the children and the marker of the node,
not on its edge label or depth. -/
theorem exactMarker_congr {n₁ n₂ : TrieNode} (h1 : n₁.children = n₂.children)
    (h2 : n₁.cacheKey = n₂.cacheKey) (xs : List Int) :
    exactMarker n₁ xs = exactMarker n₂ xs := by
  cases xs with
  | nil => rw [exactMarker_nil, exactMarker_nil, h2]
  | cons t' rest' => exact exactMarker_cons_congr t' rest' (by rw [h1])

theorem commonPrefixLen_decomp {cl : Nat} {e ts' : List Int}
    (h1 : cl ≤ commonPrefixLen e ts') (h2 : cl ≤ e.length) :
    commonPrefixLen e ts' = cl + commonPrefixLen (e.drop cl) (ts'.drop cl) := by
  have htk : e.take cl = ts'.take cl := take_eq_of_le_commonPrefixLen h1
  have hlen : (e.take cl).length = cl := by simp; omega
  conv_lhs => rw [← List.take_append_drop cl e, ← List.take_append_drop cl ts']
  rw [← htk, commonPrefixLen_append, hlen]

/-- Inserting a sequence leaves the exact markers of all other sequences
unchanged. -/
theorem exactMarker_insertGo_ne (k : String) (fl : Nat) (node : TrieNode) (ts : List Int) :
    ∀ ts', ts' ≠ ts →
      exactMarker (insertGo k fl node ts).1 ts' = exactMarker node ts' := by
  induction node, ts using insertGo.induct k fl with
  | case1 node =>
    intro ts' hne
    rw [insertGo_nil]
    cases ts' with
    | nil => exact absurd rfl hne
    | cons t' rest' =>
      exact exactMarker_cons_congr t' rest' (by rw [TrieNode.withKey_children])
  | case2 node t tail hfc =>
    intro ts' hne
    rw [insertGo_cons_none k fl tail hfc]
    cases ts' with
    | nil => simp [exactMarker_nil]
    | cons t' rest' =>
      by_cases ht : t' = t
      · subst ht
        rw [exactMarker_cons_some rest' (by
          rw [TrieNode.withChildren_children]
          exact assocFind_assocSet_self _ _ _)]
        rw [exactMarker_cons_none rest' hfc]
        rw [TrieNode.tokens_mk]
        by_cases hml : commonPrefixLen (t' :: tail) (t' :: rest') < (t' :: tail).length
        · rw [if_pos hml]
        · rw [if_neg hml]
          push_neg at hml
          have hml' : commonPrefixLen (t' :: tail) (t' :: rest') = (t' :: tail).length :=
            le_antisymm (commonPrefixLen_le_left _ _) hml
          have hpre : (t' :: tail) <+: (t' :: rest') :=
            prefix_of_commonPrefixLen_eq_length hml'
          rw [hml']
          cases hdrop : (t' :: rest').drop (t' :: tail).length with
          | nil =>
            exfalso
            have hlen : (t' :: rest').length ≤ (t' :: tail).length :=
              List.drop_eq_nil_iff.mp hdrop
            exact hne (hpre.eq_of_length_le hlen).symm
          | cons u us =>
            rw [exactMarker_cons_none us (by rw [TrieNode.children_mk]; rfl)]
      · exact exactMarker_cons_congr t' rest' (by
          rw [TrieNode.withChildren_children]
          exact assocFind_assocSet_ne _ _ ht)
  | case3 node t tail child hfc cl0 hcl ih =>
    intro ts' hne
    have hcl' : commonPrefixLen child.tokens (t :: tail) = child.tokens.length := hcl
    have ih' : ∀ s', s' ≠ (t :: tail).drop (commonPrefixLen child.tokens (t :: tail)) →
        exactMarker (insertGo k fl child
          ((t :: tail).drop (commonPrefixLen child.tokens (t :: tail)))).1 s' =
        exactMarker child s' := ih
    rw [insertGo_cons_descend k fl tail hfc hcl']
    cases ts' with
    | nil => simp [exactMarker_nil]
    | cons t' rest' =>
      by_cases ht : t' = t
      · subst ht
        rw [exactMarker_cons_some rest' (by
          rw [TrieNode.withChildren_children]
          exact assocFind_assocSet_self _ _ _)]
        rw [exactMarker_cons_some rest' hfc]
        rw [(insertGo_tokens k fl child _).1]
        by_cases hml : commonPrefixLen child.tokens (t' :: rest') < child.tokens.length
        · rw [if_pos hml, if_pos hml]
        · rw [if_neg hml, if_neg hml]
          push_neg at hml
          have hml' : commonPrefixLen child.tokens (t' :: rest') = child.tokens.length :=
            le_antisymm (commonPrefixLen_le_left _ _) hml
          apply ih'
          rw [hml', hcl']
          intro heq
          exact hne (eq_of_drop_eq_of_full_match hml' hcl' heq)
      · exact exactMarker_cons_congr t' rest' (by
          rw [TrieNode.withChildren_children]
          exact assocFind_assocSet_ne _ _ ht)
  | case4 node t tail child hfc cl0 hcl =>
    intro ts' hne
    have hcl' : ¬commonPrefixLen child.tokens (t :: tail) = child.tokens.length := hcl
    have hle : commonPrefixLen child.tokens (t :: tail) ≤ child.tokens.length :=
      commonPrefixLen_le_left _ _
    have hlt : commonPrefixLen child.tokens (t :: tail) < child.tokens.length :=
      lt_of_le_of_ne hle hcl'
    rw [insertGo_cons_split k fl tail hfc hcl']
    cases ts' with
    | nil => simp [exactMarker_nil]
    | cons t' rest' =>
      by_cases ht : t' = t
      · subst ht
        rw [exactMarker_cons_some rest' (by
          rw [TrieNode.withChildren_children]
          exact assocFind_assocSet_self _ _ _)]
        rw [exactMarker_cons_some rest' hfc]
        rw [splitNode_tokens, commonPrefixLen_take_left]
        have hlentake : (child.tokens.take (commonPrefixLen child.tokens (t' :: tail))).length =
            commonPrefixLen child.tokens (t' :: tail) := by
          simp
          omega
        rw [hlentake]
        by_cases hAB : commonPrefixLen child.tokens (t' :: rest') <
            commonPrefixLen child.tokens (t' :: tail)
        · -- the query diverges strictly before the split point
          rw [if_pos (by omega), if_pos (by omega)]
        · push_neg at hAB
          rw [if_neg (by omega)]
          have hmin : min (commonPrefixLen child.tokens (t' :: tail))
              (commonPrefixLen child.tokens (t' :: rest')) =
              commonPrefixLen child.tokens (t' :: tail) := by omega
          rw [hmin]
          have hdecomp : commonPrefixLen child.tokens (t' :: rest') =
              commonPrefixLen child.tokens (t' :: tail) +
              commonPrefixLen
                (child.tokens.drop (commonPrefixLen child.tokens (t' :: tail)))
                ((t' :: rest').drop (commonPrefixLen child.tokens (t' :: tail))) :=
            commonPrefixLen_decomp hAB hle
          cases hdrop : (t' :: rest').drop (commonPrefixLen child.tokens (t' :: tail)) with
          | nil =>
            -- the query ends exactly at the split node, which carries no marker here
            rw [exactMarker_nil]
            have hc' : commonPrefixLen child.tokens (t' :: rest') =
                commonPrefixLen child.tokens (t' :: tail) := by
              have h1 : commonPrefixLen child.tokens (t' :: rest') ≤ (t' :: rest').length :=
                commonPrefixLen_le_right _ _
              have h2 : (t' :: rest').length ≤ commonPrefixLen child.tokens (t' :: tail) :=
                List.drop_eq_nil_iff.mp hdrop
              omega
            rw [if_pos (by omega)]
            have hremne : (t' :: tail).drop (commonPrefixLen child.tokens (t' :: tail)) ≠ [] := by
              intro hrem
              apply hne
              have hlts' : (t' :: rest').length ≤ commonPrefixLen child.tokens (t' :: tail) :=
                List.drop_eq_nil_iff.mp hdrop
              have hlts : (t' :: tail).length ≤ commonPrefixLen child.tokens (t' :: tail) :=
                List.drop_eq_nil_iff.mp hrem
              have htk1 : (t' :: rest').take (commonPrefixLen child.tokens (t' :: rest')) =
                  child.tokens.take (commonPrefixLen child.tokens (t' :: rest')) := by
                have := take_eq_of_le_commonPrefixLen
                  (le_refl (commonPrefixLen child.tokens (t' :: rest')))
                exact this.symm
              have htk2 : (t' :: tail).take (commonPrefixLen child.tokens (t' :: tail)) =
                  child.tokens.take (commonPrefixLen child.tokens (t' :: tail)) := by
                have := take_eq_of_le_commonPrefixLen
                  (le_refl (commonPrefixLen child.tokens (t' :: tail)))
                exact this.symm
              calc (t' :: rest')
                  = (t' :: rest').take (commonPrefixLen child.tokens (t' :: rest')) := by
                    rw [List.take_of_length_le (by omega)]
                _ = child.tokens.take (commonPrefixLen child.tokens (t' :: rest')) := htk1
                _ = child.tokens.take (commonPrefixLen child.tokens (t' :: tail)) := by rw [hc']
                _ = (t' :: tail).take (commonPrefixLen child.tokens (t' :: tail)) := htk2.symm
                _ = (t' :: tail) := List.take_of_length_le (by omega)
            rw [splitNode_cacheKey_of_ne_nil hremne]
          | cons u us =>
            -- the query continues below the split node
            by_cases hu1 : u = (child.tokens.drop (commonPrefixLen child.tokens (t' :: tail))).headI
            · -- it follows the re-parented original child
              have hfind : assocFind u (splitNode k fl node.depth child (t' :: tail)).children =
                  some (child.withTokens
                    (child.tokens.drop (commonPrefixLen child.tokens (t' :: tail)))) := by
                by_cases hrem : (t' :: tail).drop (commonPrefixLen child.tokens (t' :: tail)) = []
                · rw [splitNode_children_of_nil hrem]
                  simp [assocFind, hu1]
                · have hclt : commonPrefixLen child.tokens (t' :: tail) < (t' :: tail).length := by
                    by_contra hcon
                    push_neg at hcon
                    exact hrem (List.drop_eq_nil_of_le hcon)
                  rw [splitNode_children_of_ne_nil hrem
                    (headI_drop_ne_of_commonPrefixLen hlt hclt)]
                  simp [assocFind, hu1]
              rw [exactMarker_cons_some us hfind]
              rw [TrieNode.withTokens_tokens]
              rw [hdrop] at hdecomp
              have hlendrop :
                  (child.tokens.drop (commonPrefixLen child.tokens (t' :: tail))).length =
                  child.tokens.length - commonPrefixLen child.tokens (t' :: tail) := by
                simp
              by_cases hm4 : commonPrefixLen
                  (child.tokens.drop (commonPrefixLen child.tokens (t' :: tail))) (u :: us) <
                  (child.tokens.drop (commonPrefixLen child.tokens (t' :: tail))).length
              · rw [if_pos hm4, if_pos (by omega)]
              · rw [if_neg hm4, if_neg (by omega)]
                rw [exactMarker_congr (TrieNode.withTokens_children _ _)
                  (TrieNode.withTokens_cacheKey _ _) _]
                have hdd : (t' :: rest').drop (commonPrefixLen child.tokens (t' :: rest')) =
                    (u :: us).drop (commonPrefixLen
                      (child.tokens.drop (commonPrefixLen child.tokens (t' :: tail))) (u :: us)) := by
                  rw [hdecomp, ← List.drop_drop, hdrop]
                rw [hdd]
            · -- the walk dies: the query key matches neither new child
              have hcpl0 : commonPrefixLen
                  (child.tokens.drop (commonPrefixLen child.tokens (t' :: tail)))
                  ((t' :: rest').drop (commonPrefixLen child.tokens (t' :: tail))) = 0 := by
                rw [hdrop]
                by_contra hpos
                have h1 : 1 ≤ commonPrefixLen
                    (child.tokens.drop (commonPrefixLen child.tokens (t' :: tail))) (u :: us) := by
                  omega
                have hnonnil : child.tokens.drop (commonPrefixLen child.tokens (t' :: tail)) ≠ [] := by
                  intro hh
                  rw [hh] at h1
                  simp [commonPrefixLen] at h1
                have := (one_le_commonPrefixLen_iff hnonnil (by simp)).mp h1
                simp at this
                exact hu1 this.symm
              have hc' : commonPrefixLen child.tokens (t' :: rest') =
                  commonPrefixLen child.tokens (t' :: tail) := by omega
              rw [if_pos (by omega)]
              by_cases hrem : (t' :: tail).drop (commonPrefixLen child.tokens (t' :: tail)) = []
              · rw [exactMarker_cons_none us (by
                  rw [splitNode_children_of_nil hrem]
                  have hu1' : ¬(child.tokens.drop
                      (commonPrefixLen child.tokens (t' :: tail))).headI = u :=
                    fun hh => hu1 hh.symm
                  simp [assocFind, hu1'])]
              · have hclt : commonPrefixLen child.tokens (t' :: tail) < (t' :: tail).length := by
                  by_contra hcon
                  push_neg at hcon
                  exact hrem (List.drop_eq_nil_of_le hcon)
                have hvr := headI_drop_ne_of_commonPrefixLen hlt hclt
                by_cases hu2 : u = ((t' :: tail).drop
                    (commonPrefixLen child.tokens (t' :: tail))).headI
                · -- the query follows the fresh leaf of the *inserted* sequence
                  have hfind : assocFind u
                      (splitNode k fl node.depth child (t' :: tail)).children =
                      some (TrieNode.mk
                        ((t' :: tail).drop (commonPrefixLen child.tokens (t' :: tail)))
                        [] (some k) fl) := by
                    rw [splitNode_children_of_ne_nil hrem hvr]
                    have hu1' : ¬(child.tokens.drop
                        (commonPrefixLen child.tokens (t' :: tail))).headI = u :=
                      fun hh => hu1 hh.symm
                    have hu2' : ((t' :: tail).drop
                        (commonPrefixLen child.tokens (t' :: tail))).headI = u := hu2.symm
                    simp [assocFind, hu1', hu2']
                  rw [exactMarker_cons_some us hfind]
                  rw [TrieNode.tokens_mk]
                  by_cases hm5 : commonPrefixLen
                      ((t' :: tail).drop (commonPrefixLen child.tokens (t' :: tail))) (u :: us) <
                      ((t' :: tail).drop (commonPrefixLen child.tokens (t' :: tail))).length
                  · rw [if_pos hm5]
                  · rw [if_neg hm5]
                    push_neg at hm5
                    have hm5' : commonPrefixLen
                        ((t' :: tail).drop (commonPrefixLen child.tokens (t' :: tail))) (u :: us) =
                        ((t' :: tail).drop (commonPrefixLen child.tokens (t' :: tail))).length :=
                      le_antisymm (commonPrefixLen_le_left _ _) hm5
                    have hpre : (t' :: tail).drop (commonPrefixLen child.tokens (t' :: tail)) <+:
                        (u :: us) := prefix_of_commonPrefixLen_eq_length hm5'
                    rw [hm5']
                    cases hdrop2 : (u :: us).drop
                        ((t' :: tail).drop (commonPrefixLen child.tokens (t' :: tail))).length with
                    | nil =>
                      exfalso
                      apply hne
                      have hlen2 : (u :: us).length ≤
                          ((t' :: tail).drop (commonPrefixLen child.tokens (t' :: tail))).length :=
                        List.drop_eq_nil_iff.mp hdrop2
                      have hequ : (t' :: tail).drop (commonPrefixLen child.tokens (t' :: tail)) =
                          (u :: us) := hpre.eq_of_length_le hlen2
                      have htk1 : (t' :: rest').take (commonPrefixLen child.tokens (t' :: tail)) =
                          child.tokens.take (commonPrefixLen child.tokens (t' :: tail)) := by
                        have := take_eq_of_le_commonPrefixLen hAB
                        exact this.symm
                      have htk2 : (t' :: tail).take (commonPrefixLen child.tokens (t' :: tail)) =
                          child.tokens.take (commonPrefixLen child.tokens (t' :: tail)) := by
                        have := take_eq_of_le_commonPrefixLen
                          (le_refl (commonPrefixLen child.tokens (t' :: tail)))
                        exact this.symm
                      calc (t' :: rest')
                          = (t' :: rest').take (commonPrefixLen child.tokens (t' :: tail)) ++
                            (t' :: rest').drop (commonPrefixLen child.tokens (t' :: tail)) :=
                            (List.take_append_drop _ _).symm
                        _ = (t' :: tail).take (commonPrefixLen child.tokens (t' :: tail)) ++
                            (t' :: tail).drop (commonPrefixLen child.tokens (t' :: tail)) := by
                            rw [htk1, ← htk2, hdrop, hequ]
                        _ = (t' :: tail) := List.take_append_drop _ _
                    | cons w ws =>
                      rw [exactMarker_cons_none ws (by rw [TrieNode.children_mk]; rfl)]
                · -- the query key matches neither child of the split node
                  rw [exactMarker_cons_none us (by
                    rw [splitNode_children_of_ne_nil hrem hvr]
                    have hu1' : ¬(child.tokens.drop
                        (commonPrefixLen child.tokens (t' :: tail))).headI = u :=
                      fun hh => hu1 hh.symm
                    have hu2' : ¬((t' :: tail).drop
                        (commonPrefixLen child.tokens (t' :: tail))).headI = u :=
                      fun hh => hu2 hh.symm
                    simp [assocFind, hu1', hu2'])]
      · exact exactMarker_cons_congr t' rest' (by
          rw [TrieNode.withChildren_children]
          exact assocFind_assocSet_ne _ _ ht)

theorem assocFind_eq_none_iff {α β : Type} [DecidableEq α] {k : α}
    {l : List (α × β)} : assocFind k l = none ↔ k ∉ l.map Prod.fst := by
  constructor
  · intro h hmem
    have := assocFind_isSome_of_mem hmem
    rw [h] at this
    simp at this
  · intro h
    apply assocFind_eq_none
    intro p hp hk
    exact h (List.mem_map.mpr ⟨p, hp, hk⟩)

theorem assocFind_mem {α β : Type} [DecidableEq α] {k : α} {v : β}
    {l : List (α × β)} (h : assocFind k l = some v) : (k, v) ∈ l := by
  induction l with
  | nil => simp [assocFind] at h
  | cons p rest ih =>
    obtain ⟨a, b⟩ := p
    by_cases ha : a = k
    · subst ha
      simp [assocFind] at h
      subst h
      simp
    · simp [assocFind, ha] at h
      simp [ih h]

theorem mem_assocSet {α β : Type} [DecidableEq α] {k : α} {v : β} {p : α × β}
    {l : List (α × β)} (h : p ∈ assocSet k v l) : p = (k, v) ∨ p ∈ l := by
  induction l with
  | nil => simpa [assocSet] using h
  | cons q rest ih =>
    obtain ⟨a, b⟩ := q
    by_cases ha : a = k
    · rw [assocSet, if_pos ha] at h
      rcases List.mem_cons.mp h with h | h
      · exact Or.inl h
      · exact Or.inr (by simp [h])
    · rw [assocSet, if_neg ha] at h
      rcases List.mem_cons.mp h with h | h
      · exact Or.inr (by simp [h])
      · rcases ih h with h | h
        · exact Or.inl h
        · exact Or.inr (by simp [h])

theorem map_fst_assocSet_found {α β : Type} [DecidableEq α] {k : α} {c : β} (v : β)
    {l : List (α × β)} (h : assocFind k l = some c) :
    (assocSet k v l).map Prod.fst = l.map Prod.fst := by
  induction l with
  | nil => simp [assocFind] at h
  | cons q rest ih =>
    obtain ⟨a, b⟩ := q
    by_cases ha : a = k
    · subst ha
      simp [assocSet]
    · simp [assocFind, ha] at h
      simp [assocSet, ha, ih h]

theorem countTerminals_eq (n : TrieNode) :
    countTerminals n = (if n.cacheKey.isSome then 1 else 0) + countChildren n.children := by
  cases n
  rfl

@[simp] theorem countTerminals_withKey_none (n : TrieNode) :
    countTerminals (n.withKey none) = countChildren n.children := by
  cases n
  simp [TrieNode.withKey, countTerminals]

@[simp] theorem countTerminals_withTokens (n : TrieNode) (ts : List Int) :
    countTerminals (n.withTokens ts) = countTerminals n := by
  cases n
  simp [TrieNode.withTokens, countTerminals]

theorem countChildren_assocSet_none {t : Int} {cs : List (Int × TrieNode)}
    (c' : TrieNode) (h : assocFind t cs = none) :
    countChildren (assocSet t c' cs) = countChildren cs + countTerminals c' := by
  induction cs with
  | nil => simp [assocSet, countChildren]
  | cons q rest ih =>
    obtain ⟨a, b⟩ := q
    by_cases ha : a = t
    · simp [assocFind, ha] at h
    · simp [assocFind, ha] at h
      simp [assocSet, ha, countChildren, ih h]
      omega

theorem countChildren_assocSet_found {t : Int} {cs : List (Int × TrieNode)}
    {c : TrieNode} (c' : TrieNode) (h : assocFind t cs = some c) :
    countChildren (assocSet t c' cs) + countTerminals c =
      countChildren cs + countTerminals c' := by
  induction cs with
  | nil => simp [assocFind] at h
  | cons q rest ih =>
    obtain ⟨a, b⟩ := q
    by_cases ha : a = t
    · subst ha
      simp [assocFind] at h
      subst h
      simp [assocSet, countChildren]
      omega
    · simp [assocFind, ha] at h
      simp [assocSet, ha, countChildren]
      have := ih h
      omega

/-- The boolean returned by the insert walk is exactly "no marker was
present for this sequence before". -/
theorem insertGo_flag (k : String) (fl : Nat) (node : TrieNode) (ts : List Int) :
    (insertGo k fl node ts).2 = (exactMarker node ts).isNone := by
  induction node, ts using insertGo.induct k fl with
  | case1 node => simp [insertGo_nil, exactMarker_nil]
  | case2 node t tail hfc =>
    rw [insertGo_cons_none k fl tail hfc, exactMarker_cons_none tail hfc]
    rfl
  | case3 node t tail child hfc cl0 hcl ih =>
    have hcl' : commonPrefixLen child.tokens (t :: tail) = child.tokens.length := hcl
    have ih' : (insertGo k fl child
        ((t :: tail).drop (commonPrefixLen child.tokens (t :: tail)))).2 =
        (exactMarker child
          ((t :: tail).drop (commonPrefixLen child.tokens (t :: tail)))).isNone := ih
    rw [insertGo_cons_descend k fl tail hfc hcl', exactMarker_cons_some tail hfc]
    rw [hcl']
    simp only [lt_irrefl, if_false]
    rw [hcl'] at ih'
    exact ih'
  | case4 node t tail child hfc cl0 hcl =>
    have hcl' : ¬commonPrefixLen child.tokens (t :: tail) = child.tokens.length := hcl
    have hlt : commonPrefixLen child.tokens (t :: tail) < child.tokens.length :=
      lt_of_le_of_ne (commonPrefixLen_le_left _ _) hcl'
    rw [insertGo_cons_split k fl tail hfc hcl', exactMarker_cons_some tail hfc]
    rw [if_pos hlt]
    rfl

theorem countTerminals_splitNode (k : String) (fl pd : Nat) {child : TrieNode}
    {ts : List Int} (hcl : commonPrefixLen child.tokens ts < child.tokens.length) :
    countTerminals (splitNode k fl pd child ts) = countTerminals child + 1 := by
  rw [splitNode]
  by_cases hE : (ts.drop (commonPrefixLen child.tokens ts)).isEmpty = true
  · rw [if_pos hE]
    rw [countTerminals_eq]
    simp [countChildren, countTerminals_eq]
    omega
  · rw [if_neg hE]
    have hrem : ts.drop (commonPrefixLen child.tokens ts) ≠ [] := by
      intro hh
      rw [hh] at hE
      simp at hE
    have hclt : commonPrefixLen child.tokens ts < ts.length := by
      by_contra hcon
      push_neg at hcon
      exact hrem (List.drop_eq_nil_of_le hcon)
    have hsame := headI_drop_ne_of_commonPrefixLen hcl hclt
    rw [countTerminals_eq]
    simp only [TrieNode.cacheKey_mk, TrieNode.children_mk]
    rw [show assocSet (ts.drop (commonPrefixLen child.tokens ts)).headI
        (TrieNode.mk (ts.drop (commonPrefixLen child.tokens ts)) [] (some k) fl)
        (assocSet (child.tokens.drop (commonPrefixLen child.tokens ts)).headI
          (child.withTokens (child.tokens.drop (commonPrefixLen child.tokens ts))) []) =
        [((child.tokens.drop (commonPrefixLen child.tokens ts)).headI,
          child.withTokens (child.tokens.drop (commonPrefixLen child.tokens ts))),
         ((ts.drop (commonPrefixLen child.tokens ts)).headI,
          TrieNode.mk (ts.drop (commonPrefixLen child.tokens ts)) [] (some k) fl)] by
      simp [assocSet, hsame]]
    simp [countChildren, countTerminals_eq, countTerminals]

/-- Inserting bumps the terminal count exactly when the walk reports a new
entry (i.e. when no marker existed for the sequence). -/
theorem countTerminals_insertGo (k : String) (fl : Nat) (node : TrieNode) (ts : List Int) :
    countTerminals (insertGo k fl node ts).1 =
      countTerminals node + (if (insertGo k fl node ts).2 then 1 else 0) := by
  induction node, ts using insertGo.induct k fl with
  | case1 node =>
    rw [insertGo_nil]
    cases node with
    | mk nt cs ck d =>
      cases ck <;> simp [TrieNode.withKey, countTerminals] <;> omega
  | case2 node t tail hfc =>
    rw [insertGo_cons_none k fl tail hfc]
    dsimp only
    rw [countTerminals_eq]
    rw [TrieNode.withChildren_cacheKey, TrieNode.withChildren_children]
    rw [countChildren_assocSet_none _ hfc]
    have hn := countTerminals_eq node
    simp [countTerminals, countChildren]
    omega
  | case3 node t tail child hfc cl0 hcl ih =>
    have hcl' : commonPrefixLen child.tokens (t :: tail) = child.tokens.length := hcl
    have ih' : countTerminals (insertGo k fl child
        ((t :: tail).drop (commonPrefixLen child.tokens (t :: tail)))).1 =
        countTerminals child + (if (insertGo k fl child
          ((t :: tail).drop (commonPrefixLen child.tokens (t :: tail)))).2
          then 1 else 0) := ih
    rw [insertGo_cons_descend k fl tail hfc hcl']
    dsimp only
    rw [countTerminals_eq]
    rw [TrieNode.withChildren_cacheKey, TrieNode.withChildren_children]
    have hn := countTerminals_eq node
    have hcnt := countChildren_assocSet_found
      (insertGo k fl child ((t :: tail).drop (commonPrefixLen child.tokens (t :: tail)))).1 hfc
    omega
  | case4 node t tail child hfc cl0 hcl =>
    have hcl' : ¬commonPrefixLen child.tokens (t :: tail) = child.tokens.length := hcl
    have hlt : commonPrefixLen child.tokens (t :: tail) < child.tokens.length :=
      lt_of_le_of_ne (commonPrefixLen_le_left _ _) hcl'
    rw [insertGo_cons_split k fl tail hfc hcl']
    dsimp only
    rw [countTerminals_eq]
    rw [TrieNode.withChildren_cacheKey, TrieNode.withChildren_children]
    have hn := countTerminals_eq node
    have hcnt := countChildren_assocSet_found (splitNode k fl node.depth child (t :: tail)) hfc
    have hsp := countTerminals_splitNode k fl node.depth hlt
    simp only [eq_self_iff_true, if_true]
    omega

/-- If the exact walk finds a marker, the longest-prefix walk consumes the
whole query and reports that marker. -/
theorem findLongestGo_of_exactMarker {k : String} :
    ∀ (node : TrieNode) (rem : List Int), rem ≠ [] → exactMarker node rem = some k →
      ∀ (pos best : Nat) (bkey : Option String),
        findLongestGo node rem pos best bkey = (pos + rem.length, some k) := by
  intro node rem
  induction node, rem using exactMarker.induct with
  | case1 node =>
    intro hne
    exact absurd rfl hne
  | case2 node t tail hfc =>
    intro _ hm
    rw [exactMarker_cons_none tail hfc] at hm
    cases hm
  | case3 node t tail child hfc ml0 hml =>
    intro _ hm
    rw [exactMarker_cons_some tail hfc] at hm
    rw [if_pos hml] at hm
    cases hm
  | case4 node t tail child hfc ml0 hml ih =>
    intro _ hm
    rw [exactMarker_cons_some tail hfc] at hm
    rw [if_neg hml] at hm
    intro pos best bkey
    rw [findLongestGo_cons_some tail pos best bkey hfc]
    rw [if_neg hml]
    push_neg at hml
    have hml' : commonPrefixLen child.tokens (t :: tail) = child.tokens.length :=
      le_antisymm (commonPrefixLen_le_left _ _) hml
    have hlen : commonPrefixLen child.tokens (t :: tail) ≤ (t :: tail).length :=
      commonPrefixLen_le_right _ _
    have ih' : (t :: tail).drop (commonPrefixLen child.tokens (t :: tail)) ≠ [] →
        exactMarker child ((t :: tail).drop (commonPrefixLen child.tokens (t :: tail))) = some k →
        ∀ (pos best : Nat) (bkey : Option String),
          findLongestGo child ((t :: tail).drop (commonPrefixLen child.tokens (t :: tail)))
            pos best bkey =
          (pos + ((t :: tail).drop (commonPrefixLen child.tokens (t :: tail))).length, some k) := ih
    cases hdrop : (t :: tail).drop (commonPrefixLen child.tokens (t :: tail)) with
    | nil =>
      rw [hdrop] at hm
      rw [exactMarker_nil] at hm
      have hlen2 : (t :: tail).length ≤ commonPrefixLen child.tokens (t :: tail) :=
        List.drop_eq_nil_iff.mp hdrop
      have hlen3 : commonPrefixLen child.tokens (t :: tail) = (t :: tail).length := by omega
      rw [hm]
      dsimp only
      rw [findLongestGo_nil, hlen3]
    | cons u us =>
      rw [hdrop] at hm ih'
      have ihu := ih' (by simp) hm
      have hlt : commonPrefixLen child.tokens (t :: tail) < (t :: tail).length := by
        by_contra hcon
        push_neg at hcon
        have h0 := List.drop_eq_nil_of_le hcon
        rw [h0] at hdrop
        cases hdrop
      have hlu : (u :: us).length = (t :: tail).length - commonPrefixLen child.tokens (t :: tail) := by
        have h := congrArg List.length hdrop
        simp only [List.length_drop, List.length_cons] at h ⊢
        omega
      cases hck : child.cacheKey with
      | some ck =>
        dsimp only
        rw [ihu]
        rw [hlu]
        have hp : pos + commonPrefixLen child.tokens (t :: tail) +
            ((t :: tail).length - commonPrefixLen child.tokens (t :: tail)) =
            pos + (t :: tail).length := by omega
        rw [hp]
      | none =>
        dsimp only
        rw [ihu]
        rw [hlu]
        have hp : pos + commonPrefixLen child.tokens (t :: tail) +
            ((t :: tail).length - commonPrefixLen child.tokens (t :: tail)) =
            pos + (t :: tail).length := by omega
        rw [hp]

theorem removeGo_tokens (node : TrieNode) (ts : List Int) :
    ∀ n', removeGo node ts = some n' →
      n'.tokens = node.tokens ∧ n'.depth = node.depth := by
  induction node, ts using removeGo.induct with
  | case1 node hck =>
    intro n' h
    rw [removeGo_nil, hck] at h
    cases h
  | case2 node val hck =>
    intro n' h
    rw [removeGo_nil, hck] at h
    dsimp only at h
    injection h with h
    subst h
    simp
  | case3 node t tail hfc =>
    intro n' h
    rw [removeGo_cons_none tail hfc] at h
    cases h
  | case4 node t tail child hfc ml hml =>
    intro n' h
    have hml' : commonPrefixLen child.tokens (t :: tail) < child.tokens.length := hml
    rw [removeGo_cons_some tail hfc, if_pos hml'] at h
    cases h
  | case5 node t tail child hfc ml hml hrec ih =>
    intro n' h
    have hml' : ¬commonPrefixLen child.tokens (t :: tail) < child.tokens.length := hml
    have hrec' : removeGo child
        ((t :: tail).drop (commonPrefixLen child.tokens (t :: tail))) = none := hrec
    rw [removeGo_cons_some tail hfc, if_neg hml', hrec'] at h
    cases h
  | case6 node t tail child hfc child' ml hml hrec ih =>
    intro n' h
    have hml' : ¬commonPrefixLen child.tokens (t :: tail) < child.tokens.length := hml
    have hrec' : removeGo child
        ((t :: tail).drop (commonPrefixLen child.tokens (t :: tail))) = some child' := hrec
    rw [removeGo_cons_some tail hfc, if_neg hml', hrec'] at h
    dsimp only at h
    injection h with h
    subst h
    simp

/-- The remove walk succeeds exactly when the exact walk finds a marker. -/
theorem removeGo_none_iff (node : TrieNode) (ts : List Int) :
    removeGo node ts = none ↔ exactMarker node ts = none := by
  induction node, ts using removeGo.induct with
  | case1 node hck =>
    rw [removeGo_nil, exactMarker_nil, hck]
    simp
  | case2 node val hck =>
    rw [removeGo_nil, exactMarker_nil, hck]
    simp
  | case3 node t tail hfc =>
    rw [removeGo_cons_none tail hfc, exactMarker_cons_none tail hfc]
    simp
  | case4 node t tail child hfc ml hml =>
    have hml' : commonPrefixLen child.tokens (t :: tail) < child.tokens.length := hml
    rw [removeGo_cons_some tail hfc, if_pos hml',
      exactMarker_cons_some tail hfc, if_pos hml']
    simp
  | case5 node t tail child hfc ml hml hrec ih =>
    have hml' : ¬commonPrefixLen child.tokens (t :: tail) < child.tokens.length := hml
    have hrec' : removeGo child
        ((t :: tail).drop (commonPrefixLen child.tokens (t :: tail))) = none := hrec
    have ih' : (removeGo child ((t :: tail).drop (commonPrefixLen child.tokens (t :: tail))) = none)
        ↔ exactMarker child ((t :: tail).drop (commonPrefixLen child.tokens (t :: tail))) = none := ih
    rw [removeGo_cons_some tail hfc, if_neg hml',
      exactMarker_cons_some tail hfc, if_neg hml', hrec']
    simp [ih'.mp hrec']
  | case6 node t tail child hfc child' ml hml hrec ih =>
    have hml' : ¬commonPrefixLen child.tokens (t :: tail) < child.tokens.length := hml
    have hrec' : removeGo child
        ((t :: tail).drop (commonPrefixLen child.tokens (t :: tail))) = some child' := hrec
    have ih' : (removeGo child ((t :: tail).drop (commonPrefixLen child.tokens (t :: tail))) = none)
        ↔ exactMarker child ((t :: tail).drop (commonPrefixLen child.tokens (t :: tail))) = none := ih
    rw [removeGo_cons_some tail hfc, if_neg hml',
      exactMarker_cons_some tail hfc, if_neg hml', hrec']
    dsimp only
    constructor
    · intro h
      cases h
    · intro h
      have := ih'.mpr h
      rw [this] at hrec'
      cases hrec'

/-- Removing clears the marker at the removed sequence. -/
theorem removeGo_exactMarker_self (node : TrieNode) (ts : List Int) :
    ∀ n', removeGo node ts = some n' → exactMarker n' ts = none := by
  induction node, ts using removeGo.induct with
  | case1 node hck =>
    intro n' h
    rw [removeGo_nil, hck] at h
    cases h
  | case2 node val hck =>
    intro n' h
    rw [removeGo_nil, hck] at h
    dsimp only at h
    injection h with h
    subst h
    simp [exactMarker_nil]
  | case3 node t tail hfc =>
    intro n' h
    rw [removeGo_cons_none tail hfc] at h
    cases h
  | case4 node t tail child hfc ml hml =>
    intro n' h
    have hml' : commonPrefixLen child.tokens (t :: tail) < child.tokens.length := hml
    rw [removeGo_cons_some tail hfc, if_pos hml'] at h
    cases h
  | case5 node t tail child hfc ml hml hrec ih =>
    intro n' h
    have hml' : ¬commonPrefixLen child.tokens (t :: tail) < child.tokens.length := hml
    have hrec' : removeGo child
        ((t :: tail).drop (commonPrefixLen child.tokens (t :: tail))) = none := hrec
    rw [removeGo_cons_some tail hfc, if_neg hml', hrec'] at h
    cases h
  | case6 node t tail child hfc child' ml hml hrec ih =>
    intro n' h
    have hml' : ¬commonPrefixLen child.tokens (t :: tail) < child.tokens.length := hml
    have hrec' : removeGo child
        ((t :: tail).drop (commonPrefixLen child.tokens (t :: tail))) = some child' := hrec
    have ih' : ∀ n', removeGo child
        ((t :: tail).drop (commonPrefixLen child.tokens (t :: tail))) = some n' →
        exactMarker n' ((t :: tail).drop (commonPrefixLen child.tokens (t :: tail))) = none := ih
    rw [removeGo_cons_some tail hfc, if_neg hml', hrec'] at h
    dsimp only at h
    injection h with h
    subst h
    have htok := (removeGo_tokens child _ child' hrec').1
    rw [exactMarker_cons_some tail (by
      rw [TrieNode.withChildren_children]
      exact assocFind_assocSet_self _ _ _)]
    rw [htok, if_neg hml']
    exact ih' child' hrec'

/-- Removing one sequence leaves all other exact markers unchanged. -/
theorem removeGo_exactMarker_ne (node : TrieNode) (ts : List Int) :
    ∀ n', removeGo node ts = some n' →
      ∀ ts', ts' ≠ ts → exactMarker n' ts' = exactMarker node ts' := by
  induction node, ts using removeGo.induct with
  | case1 node hck =>
    intro n' h
    rw [removeGo_nil, hck] at h
    cases h
  | case2 node val hck =>
    intro n' h ts' hne
    rw [removeGo_nil, hck] at h
    dsimp only at h
    injection h with h
    subst h
    cases ts' with
    | nil => exact absurd rfl hne
    | cons t' rest' =>
      exact exactMarker_cons_congr t' rest' (by rw [TrieNode.withKey_children])
  | case3 node t tail hfc =>
    intro n' h
    rw [removeGo_cons_none tail hfc] at h
    cases h
  | case4 node t tail child hfc ml hml =>
    intro n' h
    have hml' : commonPrefixLen child.tokens (t :: tail) < child.tokens.length := hml
    rw [removeGo_cons_some tail hfc, if_pos hml'] at h
    cases h
  | case5 node t tail child hfc ml hml hrec ih =>
    intro n' h
    have hml' : ¬commonPrefixLen child.tokens (t :: tail) < child.tokens.length := hml
    have hrec' : removeGo child
        ((t :: tail).drop (commonPrefixLen child.tokens (t :: tail))) = none := hrec
    rw [removeGo_cons_some tail hfc, if_neg hml', hrec'] at h
    cases h
  | case6 node t tail child hfc child' ml hml hrec ih =>
    intro n' h ts' hne
    have hml' : ¬commonPrefixLen child.tokens (t :: tail) < child.tokens.length := hml
    have hmleq : commonPrefixLen child.tokens (t :: tail) = child.tokens.length := by
      have := commonPrefixLen_le_left child.tokens (t :: tail)
      omega
    have hrec' : removeGo child
        ((t :: tail).drop (commonPrefixLen child.tokens (t :: tail))) = some child' := hrec
    have ih' : ∀ n', removeGo child
        ((t :: tail).drop (commonPrefixLen child.tokens (t :: tail))) = some n' →
        ∀ s', s' ≠ (t :: tail).drop (commonPrefixLen child.tokens (t :: tail)) →
          exactMarker n' s' = exactMarker child s' := ih
    rw [removeGo_cons_some tail hfc, if_neg hml', hrec'] at h
    dsimp only at h
    injection h with h
    subst h
    have htok := (removeGo_tokens child _ child' hrec').1
    cases ts' with
    | nil => simp [exactMarker_nil]
    | cons t' rest' =>
      by_cases ht : t' = t
      · subst ht
        rw [exactMarker_cons_some rest' (by
          rw [TrieNode.withChildren_children]
          exact assocFind_assocSet_self _ _ _)]
        rw [exactMarker_cons_some rest' hfc]
        rw [htok]
        by_cases hq : commonPrefixLen child.tokens (t' :: rest') < child.tokens.length
        · rw [if_pos hq, if_pos hq]
        · rw [if_neg hq, if_neg hq]
          push_neg at hq
          have hq' : commonPrefixLen child.tokens (t' :: rest') = child.tokens.length :=
            le_antisymm (commonPrefixLen_le_left _ _) hq
          apply ih' child' hrec'
          rw [hq', hmleq]
          intro heq
          exact hne (eq_of_drop_eq_of_full_match hq' hmleq heq)
      · exact exactMarker_cons_congr t' rest' (by
          rw [TrieNode.withChildren_children]
          exact assocFind_assocSet_ne _ _ ht)

/-- Removing decrements the terminal count by one. -/
theorem removeGo_count (node : TrieNode) (ts : List Int) :
    ∀ n', removeGo node ts = some n' →
      countTerminals n' + 1 = countTerminals node := by
  induction node, ts using removeGo.induct with
  | case1 node hck =>
    intro n' h
    rw [removeGo_nil, hck] at h
    cases h
  | case2 node val hck =>
    intro n' h
    rw [removeGo_nil, hck] at h
    dsimp only at h
    injection h with h
    subst h
    rw [countTerminals_eq node, hck]
    simp
    omega
  | case3 node t tail hfc =>
    intro n' h
    rw [removeGo_cons_none tail hfc] at h
    cases h
  | case4 node t tail child hfc ml hml =>
    intro n' h
    have hml' : commonPrefixLen child.tokens (t :: tail) < child.tokens.length := hml
    rw [removeGo_cons_some tail hfc, if_pos hml'] at h
    cases h
  | case5 node t tail child hfc ml hml hrec ih =>
    intro n' h
    have hml' : ¬commonPrefixLen child.tokens (t :: tail) < child.tokens.length := hml
    have hrec' : removeGo child
        ((t :: tail).drop (commonPrefixLen child.tokens (t :: tail))) = none := hrec
    rw [removeGo_cons_some tail hfc, if_neg hml', hrec'] at h
    cases h
  | case6 node t tail child hfc child' ml hml hrec ih =>
    intro n' h
    have hml' : ¬commonPrefixLen child.tokens (t :: tail) < child.tokens.length := hml
    have hrec' : removeGo child
        ((t :: tail).drop (commonPrefixLen child.tokens (t :: tail))) = some child' := hrec
    have ih' : countTerminals child' + 1 = countTerminals child := ih child' hrec'
    rw [removeGo_cons_some tail hfc, if_neg hml', hrec'] at h
    dsimp only at h
    injection h with h
    subst h
    rw [countTerminals_eq]
    rw [TrieNode.withChildren_cacheKey, TrieNode.withChildren_children]
    have hn := countTerminals_eq node
    have hcnt := countChildren_assocSet_found child' hfc
    omega

theorem childrenWF_iff (cs : List (Int × TrieNode)) :
    childrenWF cs = true ↔
      ∀ p ∈ cs, p.2.tokens ≠ [] ∧ p.2.tokens.headI = p.1 ∧ nodeWF p.2 = true := by
  induction cs with
  | nil => simp [childrenWF]
  | cons q rest ih =>
    obtain ⟨a, c⟩ := q
    simp [childrenWF, ih, List.isEmpty_iff]
    tauto

theorem nodeWF_iff (n : TrieNode) :
    nodeWF n = true ↔
      (n.children.map Prod.fst).Nodup ∧
      ∀ p ∈ n.children, p.2.tokens ≠ [] ∧ p.2.tokens.headI = p.1 ∧ nodeWF p.2 = true := by
  cases n with
  | mk ts cs ck d =>
    simp [nodeWF, childrenWF_iff]

@[simp] theorem nodeWF_withKey (n : TrieNode) (ck : Option String) :
    nodeWF (n.withKey ck) = nodeWF n := by
  cases n
  rfl

@[simp] theorem nodeWF_withTokens (n : TrieNode) (ts : List Int) :
    nodeWF (n.withTokens ts) = nodeWF n := by
  cases n
  rfl

theorem nodeWF_withChildren_iff (n : TrieNode) (cs : List (Int × TrieNode)) :
    nodeWF (n.withChildren cs) = true ↔
      (cs.map Prod.fst).Nodup ∧
      ∀ p ∈ cs, p.2.tokens ≠ [] ∧ p.2.tokens.headI = p.1 ∧ nodeWF p.2 = true := by
  rw [nodeWF_iff]
  rw [TrieNode.withChildren_children]

theorem headI_take {cl : Nat} {xs : List Int} (h : 1 ≤ cl) :
    (xs.take cl).headI = xs.headI := by
  cases xs with
  | nil => simp
  | cons a as =>
    cases cl with
    | zero => omega
    | succ m => simp

/-- The insert walk preserves trie well-formedness. -/
theorem nodeWF_insertGo (k : String) (fl : Nat) (node : TrieNode) (ts : List Int) :
    nodeWF node = true → nodeWF (insertGo k fl node ts).1 = true := by
  induction node, ts using insertGo.induct k fl with
  | case1 node =>
    intro h
    rw [insertGo_nil]
    dsimp only
    rw [nodeWF_withKey]
    exact h
  | case2 node t tail hfc =>
    intro h
    rw [insertGo_cons_none k fl tail hfc]
    dsimp only
    rw [nodeWF_withChildren_iff]
    rw [nodeWF_iff] at h
    have hnotmem : t ∉ node.children.map Prod.fst := assocFind_eq_none_iff.mp hfc
    rw [assocSet_of_not_mem _ hnotmem]
    constructor
    · rw [List.map_append]
      simp only [List.map_cons, List.map_nil]
      rw [List.nodup_append]
      exact ⟨h.1, List.nodup_singleton t, by simpa using hnotmem⟩
    · intro p hp
      rcases List.mem_append.mp hp with hp | hp
      · exact h.2 p hp
      · simp at hp
        subst hp
        refine ⟨by simp, by simp, ?_⟩
        rw [nodeWF_iff]
        simp
  | case3 node t tail child hfc cl0 hcl ih =>
    intro h
    have hcl' : commonPrefixLen child.tokens (t :: tail) = child.tokens.length := hcl
    rw [insertGo_cons_descend k fl tail hfc hcl']
    dsimp only
    rw [nodeWF_withChildren_iff]
    rw [nodeWF_iff] at h
    have hmem := assocFind_mem hfc
    have hchild := h.2 (t, child) hmem
    constructor
    · rw [map_fst_assocSet_found _ hfc]
      exact h.1
    · intro p hp
      rcases mem_assocSet hp with hp | hp
      · subst hp
        have htok := (insertGo_tokens k fl child
          ((t :: tail).drop (commonPrefixLen child.tokens (t :: tail)))).1
        refine ⟨by rw [htok]; exact hchild.1, by rw [htok]; exact hchild.2.1, ih hchild.2.2⟩
      · exact h.2 p hp
  | case4 node t tail child hfc cl0 hcl =>
    intro h
    have hcl' : ¬commonPrefixLen child.tokens (t :: tail) = child.tokens.length := hcl
    have hlt : commonPrefixLen child.tokens (t :: tail) < child.tokens.length :=
      lt_of_le_of_ne (commonPrefixLen_le_left _ _) hcl'
    rw [insertGo_cons_split k fl tail hfc hcl']
    dsimp only
    rw [nodeWF_withChildren_iff]
    rw [nodeWF_iff] at h
    have hmem := assocFind_mem hfc
    have hchild := h.2 (t, child) hmem
    have hchildne : child.tokens ≠ [] := hchild.1
    have hchildhd : child.tokens.headI = t := hchild.2.1
    have hone : 1 ≤ commonPrefixLen child.tokens (t :: tail) := by
      rw [one_le_commonPrefixLen_iff hchildne (by simp)]
      simp [hchildhd]
    constructor
    · rw [map_fst_assocSet_found _ hfc]
      exact h.1
    · intro p hp
      rcases mem_assocSet hp with hp | hp
      · subst hp
        refine ⟨?_, ?_, ?_⟩
        · rw [splitNode_tokens]
          intro hh
          have h2 : (child.tokens.take (commonPrefixLen child.tokens (t :: tail))).length = 0 := by
            rw [hh]
            rfl
          rw [List.length_take] at h2
          omega
        · rw [splitNode_tokens]
          rw [headI_take hone]
          exact hchildhd
        · -- well-formedness of the split node itself
          rw [nodeWF_iff]
          have hdropne : child.tokens.drop (commonPrefixLen child.tokens (t :: tail)) ≠ [] := by
            intro hh
            have := List.drop_eq_nil_iff.mp hh
            omega
          by_cases hrem : (t :: tail).drop (commonPrefixLen child.tokens (t :: tail)) = []
          · rw [splitNode_children_of_nil hrem]
            refine ⟨by simp, ?_⟩
            intro p hp
            simp at hp
            subst hp
            refine ⟨by simpa using hdropne, by simp, by simpa using hchild.2.2⟩
          · have hclt : commonPrefixLen child.tokens (t :: tail) < (t :: tail).length := by
              by_contra hcon
              push_neg at hcon
              exact hrem (List.drop_eq_nil_of_le hcon)
            have hvr := headI_drop_ne_of_commonPrefixLen hlt hclt
            rw [splitNode_children_of_ne_nil hrem hvr]
            refine ⟨by simp [hvr], ?_⟩
            intro p hp
            rcases List.mem_cons.mp hp with hp | hp
            · subst hp
              refine ⟨by simpa using hdropne, by simp, by simpa using hchild.2.2⟩
            · simp at hp
              subst hp
              refine ⟨by simpa using hrem, by simp, ?_⟩
              rw [nodeWF_iff]
              simp
      · exact h.2 p hp

/-- The remove walk preserves trie well-formedness. -/
theorem nodeWF_removeGo (node : TrieNode) (ts : List Int) :
    ∀ n', removeGo node ts = some n' → nodeWF node = true → nodeWF n' = true := by
  induction node, ts using removeGo.induct with
  | case1 node hck =>
    intro n' h
    rw [removeGo_nil, hck] at h
    cases h
  | case2 node val hck =>
    intro n' h hwf
    rw [removeGo_nil, hck] at h
    dsimp only at h
    injection h with h
    subst h
    rw [nodeWF_withKey]
    exact hwf
  | case3 node t tail hfc =>
    intro n' h
    rw [removeGo_cons_none tail hfc] at h
    cases h
  | case4 node t tail child hfc ml hml =>
    intro n' h
    have hml' : commonPrefixLen child.tokens (t :: tail) < child.tokens.length := hml
    rw [removeGo_cons_some tail hfc, if_pos hml'] at h
    cases h
  | case5 node t tail child hfc ml hml hrec ih =>
    intro n' h
    have hml' : ¬commonPrefixLen child.tokens (t :: tail) < child.tokens.length := hml
    have hrec' : removeGo child
        ((t :: tail).drop (commonPrefixLen child.tokens (t :: tail))) = none := hrec
    rw [removeGo_cons_some tail hfc, if_neg hml', hrec'] at h
    cases h
  | case6 node t tail child hfc child' ml hml hrec ih =>
    intro n' h hwf
    have hml' : ¬commonPrefixLen child.tokens (t :: tail) < child.tokens.length := hml
    have hrec' : removeGo child
        ((t :: tail).drop (commonPrefixLen child.tokens (t :: tail))) = some child' := hrec
    have ih' : nodeWF child = true → nodeWF child' = true := ih child' hrec'
    rw [removeGo_cons_some tail hfc, if_neg hml', hrec'] at h
    dsimp only at h
    injection h with h
    subst h
    rw [nodeWF_withChildren_iff]
    rw [nodeWF_iff] at hwf
    have hmem := assocFind_mem hfc
    have hchild := hwf.2 (t, child) hmem
    have htok := (removeGo_tokens child _ child' hrec').1
    constructor
    · rw [map_fst_assocSet_found _ hfc]
      exact hwf.1
    · intro p hp
      rcases mem_assocSet hp with hp | hp
      · subst hp
        refine ⟨by rw [htok]; exact hchild.1, by rw [htok]; exact hchild.2.1,
          ih' hchild.2.2⟩
      · exact hwf.2 p hp

theorem exactMarker_take {t : Int} {node child : TrieNode} {tail : List Int}
    (hfc : assocFind t node.children = some child)
    (hml : commonPrefixLen child.tokens (t :: tail) = child.tokens.length)
    (hlen1 : 1 ≤ child.tokens.length) {j : Nat} (hj : child.tokens.length ≤ j) :
    exactMarker node ((t :: tail).take j) =
      exactMarker child
        (((t :: tail).drop child.tokens.length).take (j - child.tokens.length)) := by
  cases j with
  | zero => omega
  | succ j' =>
    have htake : (t :: tail).take (j' + 1) = t :: tail.take j' := by simp
    rw [htake]
    rw [exactMarker_cons_some (tail.take j') hfc]
    have hcm : commonPrefixLen child.tokens (t :: tail.take j') =
        child.tokens.length := by
      rw [← htake]
      rw [commonPrefixLen_comm, commonPrefixLen_take_left, commonPrefixLen_comm, hml]
      omega
    rw [hcm]
    simp only [lt_irrefl, if_false]
    congr 1
    rw [← htake, List.drop_take]

/-- Characterization of the longest-prefix walk on a well-formed trie: the
result is either the incoming best pair, or the marker of some non-empty
matched prefix of the query of the reported length. -/
theorem findLongestGo_spec (node : TrieNode) (rem : List Int) (pos best : Nat)
    (bkey : Option String) :
    nodeWF node = true → ∀ r ko, findLongestGo node rem pos best bkey = (r, ko) →
      (r = best ∧ ko = bkey) ∨
      (∃ j, 0 < j ∧ j ≤ rem.length ∧ r = pos + j ∧
        ko = exactMarker node (rem.take j) ∧ ko.isSome = true) := by
  induction node, rem, pos, best, bkey using findLongestGo.induct with
  | case1 node pos best bkey =>
    intro _ r ko h
    rw [findLongestGo_nil] at h
    injection h with h1 h2
    exact Or.inl ⟨h1.symm, h2.symm⟩
  | case2 node pos best bkey t tail hfc =>
    intro _ r ko h
    rw [findLongestGo_cons_none tail pos best bkey hfc] at h
    injection h with h1 h2
    exact Or.inl ⟨h1.symm, h2.symm⟩
  | case3 node pos best bkey t tail child hfc ml0 hml =>
    intro _ r ko h
    have hml' : commonPrefixLen child.tokens (t :: tail) < child.tokens.length := hml
    rw [findLongestGo_cons_some tail pos best bkey hfc, if_pos hml'] at h
    injection h with h1 h2
    exact Or.inl ⟨h1.symm, h2.symm⟩
  | case4 node pos best bkey t tail child hfc ck hck ml0 hml ih =>
    intro hwf r ko h
    have hml' : ¬commonPrefixLen child.tokens (t :: tail) < child.tokens.length := hml
    have hmleq : commonPrefixLen child.tokens (t :: tail) = child.tokens.length := by
      have := commonPrefixLen_le_left child.tokens (t :: tail)
      omega
    have hck' : child.cacheKey = some ck := hck
    have hchild := (nodeWF_iff node).mp hwf |>.2 (t, child) (assocFind_mem hfc)
    have hwfc : nodeWF child = true := hchild.2.2
    have hlen1 : 1 ≤ child.tokens.length := by
      cases hct : child.tokens with
      | nil => exact absurd hct hchild.1
      | cons a as => simp
    have ih' : nodeWF child = true → ∀ r ko,
        findLongestGo child ((t :: tail).drop (commonPrefixLen child.tokens (t :: tail)))
          (pos + commonPrefixLen child.tokens (t :: tail))
          (pos + commonPrefixLen child.tokens (t :: tail)) (some ck) = (r, ko) →
        (r = pos + commonPrefixLen child.tokens (t :: tail) ∧ ko = some ck) ∨
        (∃ j, 0 < j ∧
          j ≤ ((t :: tail).drop (commonPrefixLen child.tokens (t :: tail))).length ∧
          r = pos + commonPrefixLen child.tokens (t :: tail) + j ∧
          ko = exactMarker child
            (((t :: tail).drop (commonPrefixLen child.tokens (t :: tail))).take j) ∧
          ko.isSome = true) := ih
    rw [findLongestGo_cons_some tail pos best bkey hfc, if_neg hml', hck'] at h
    dsimp only at h
    have hle2 : commonPrefixLen child.tokens (t :: tail) ≤ (t :: tail).length :=
      commonPrefixLen_le_right _ _
    rcases ih' hwfc r ko h with ⟨h1, h2⟩ | ⟨j, hj0, hjle, hr, hko, hsome⟩
    · right
      refine ⟨commonPrefixLen child.tokens (t :: tail), by omega, hle2, h1, ?_, by simp [h2]⟩
      rw [h2]
      rw [exactMarker_take hfc hmleq hlen1 (le_of_eq hmleq.symm)]
      rw [hmleq]
      simp only [Nat.sub_self, List.take_zero]
      rw [exactMarker_nil, hck']
    · right
      refine ⟨commonPrefixLen child.tokens (t :: tail) + j, by omega, ?_, by omega, ?_, hsome⟩
      · rw [List.length_drop] at hjle
        omega
      · rw [hko]
        rw [exactMarker_take hfc hmleq hlen1 (by omega)]
        rw [hmleq]
        congr 1
        congr 1
        omega
  | case5 node pos best bkey t tail child hfc hck ml0 hml ih =>
    intro hwf r ko h
    have hml' : ¬commonPrefixLen child.tokens (t :: tail) < child.tokens.length := hml
    have hmleq : commonPrefixLen child.tokens (t :: tail) = child.tokens.length := by
      have := commonPrefixLen_le_left child.tokens (t :: tail)
      omega
    have hck' : child.cacheKey = none := hck
    have hchild := (nodeWF_iff node).mp hwf |>.2 (t, child) (assocFind_mem hfc)
    have hwfc : nodeWF child = true := hchild.2.2
    have hlen1 : 1 ≤ child.tokens.length := by
      cases hct : child.tokens with
      | nil => exact absurd hct hchild.1
      | cons a as => simp
    have ih' : nodeWF child = true → ∀ r ko,
        findLongestGo child ((t :: tail).drop (commonPrefixLen child.tokens (t :: tail)))
          (pos + commonPrefixLen child.tokens (t :: tail)) best bkey = (r, ko) →
        (r = best ∧ ko = bkey) ∨
        (∃ j, 0 < j ∧
          j ≤ ((t :: tail).drop (commonPrefixLen child.tokens (t :: tail))).length ∧
          r = pos + commonPrefixLen child.tokens (t :: tail) + j ∧
          ko = exactMarker child
            (((t :: tail).drop (commonPrefixLen child.tokens (t :: tail))).take j) ∧
          ko.isSome = true) := ih
    rw [findLongestGo_cons_some tail pos best bkey hfc, if_neg hml', hck'] at h
    dsimp only at h
    have hle2 : commonPrefixLen child.tokens (t :: tail) ≤ (t :: tail).length :=
      commonPrefixLen_le_right _ _
    rcases ih' hwfc r ko h with ⟨h1, h2⟩ | ⟨j, hj0, hjle, hr, hko, hsome⟩
    · exact Or.inl ⟨h1, h2⟩
    · right
      refine ⟨commonPrefixLen child.tokens (t :: tail) + j, by omega, ?_, by omega, ?_, hsome⟩
      · rw [List.length_drop] at hjle
        omega
      · rw [hko]
        rw [exactMarker_take hfc hmleq hlen1 (by omega)]
        rw [hmleq]
        congr 1
        congr 1
        omega

/-- Estimated bytes per token (`BYTES_PER_TOKEN_DEFAULT` in `cache.py`). -/
def BYTES_PER_TOKEN_DEFAULT : Int := 2048

/-- `CacheConfig` (`models.py`).  Numeric fields keep Python's types:
ints as `Int`, floats as `ℚ`. -/
structure CacheConfig where
  max_entries : Int := 10000
  max_memory_mb : Rat := 1024
  default_ttl_seconds : Rat := 0
  eviction_policy : String := "lru"
  min_prefix_length : Int := 4
deriving DecidableEq

/-- Constructing a `CacheConfig` runs `__post_init__` (`models.py`), which
raises `ValueError` on the first violated bound.  An `Except` result models
the construction-time error. -/
def CacheConfig.validate (me : Int) (mm : Rat) (ttl : Rat) (pol : String)
    (minp : Int) : Except String CacheConfig :=
  if me < 1 then .error "max_entries must be >= 1"
  else if mm ≤ 0 then .error "max_memory_mb must be > 0"
  else if ¬(pol = "lru" ∨ pol = "lfu") then .error "eviction_policy must be lru or lfu"
  else if minp < 1 then .error "min_prefix_length must be >= 1"
  else .ok ⟨me, mm, ttl, pol, minp⟩

/-- Boolean form of the documented configuration constraints. -/
def CacheConfig.valid (cfg : CacheConfig) : Bool :=
  decide (1 ≤ cfg.max_entries) && decide (0 < cfg.max_memory_mb) &&
  (cfg.eviction_policy == "lru" || cfg.eviction_policy == "lfu") &&
  decide (1 ≤ cfg.min_prefix_length)

/-- `PrefixMatch` (`models.py`). -/
structure PrefixMatch where
  matched_tokens : List Int := []
  matched_length : Nat := 0
  total_length : Nat := 0
  cache_key : String := ""
  remaining_tokens : List Int := []
  hit : Bool := false
deriving DecidableEq

/-- `CacheStats` (`models.py`). -/
structure CacheStats where
  total_lookups : Nat := 0
  cache_hits : Nat := 0
  cache_misses : Nat := 0
  total_tokens_served : Nat := 0
  total_tokens_requested : Nat := 0
  entries_count : Nat := 0
  memory_used_mb : Rat := 0
  evictions : Nat := 0
deriving DecidableEq

/-- `BatchAnalysis` (`models.py`); `shared_prefix_groups` is a dict in
insertion order. -/
structure BatchAnalysis where
  batch_size : Nat := 0
  unique_prefixes : Nat := 0
  shared_prefix_groups : List (String × List Nat) := []
  potential_savings_tokens : Int := 0
  total_tokens : Nat := 0
deriving DecidableEq

/-- `CacheEntry` (`cache.py`).  `kv_data` is an opaque payload never
interpreted by the manager. -/
structure CacheEntry where
  cache_key : String
  tokens : List Int
  kv_data : Option Unit := none
  token_count : Nat := 0
  memory_bytes : Int := 0
  created_at : Rat := 0
  last_accessed : Rat := 0
  access_count : Nat := 0
deriving DecidableEq

/-- `CacheEntry.__post_init__` (`cache.py`): fill falsy fields, with
`time.time()` modelled by the supplied `now`. -/
def CacheEntry.postInit (e : CacheEntry) (now : Rat) : CacheEntry :=
  let tc := if e.token_count = 0 then e.tokens.length else e.token_count
  let mb := if e.memory_bytes = 0 then (tc : Int) * BYTES_PER_TOKEN_DEFAULT else e.memory_bytes
  let ca := if e.created_at = 0 then now else e.created_at
  let la := if e.last_accessed = 0 then ca else e.last_accessed
  { e with token_count := tc, memory_bytes := mb, created_at := ca, last_accessed := la }

/-- The exception taxonomy of `exceptions.py`. -/
inductive CacheError where
  | cacheFullError (msg : String)
  | evictionError (msg : String)
  | tokenizationError (msg : String)
deriving DecidableEq

/-- Python `int(...)`: truncation of a float toward zero, on exact
rationals. -/
def pyInt (q : Rat) : Int := Int.tdiv q.num (q.den : Int)

/-- State of a `CacheManager` (`cache.py`): the trie index, the
recency-ordered entry map (least recently used first), the statistics
record, and the running byte total. -/
structure CacheManager where
  config : CacheConfig
  trie : RadixTrie
  entries : List (String × CacheEntry)
  stats : CacheStats
  total_memory_bytes : Int

/-- `CacheManager.__init__` with a validated config. -/
def CacheManager.init (cfg : CacheConfig) : CacheManager :=
  ⟨cfg, RadixTrie.empty, [], {}, 0⟩

/-- `max_memory_bytes = int(self.config.max_memory_mb * 1024 * 1024)`. -/
def maxMemoryBytes (cfg : CacheConfig) : Int := pyInt (cfg.max_memory_mb * (1024 * 1024))

/-- The `stats` property: a snapshot with live `entries_count` and
`memory_used_mb` filled in. -/
def CacheManager.statsOf (st : CacheManager) : CacheStats :=
  { st.stats with
      entries_count := st.entries.length,
      memory_used_mb := (st.total_memory_bytes : Rat) / (1024 * 1024) }

/-- `CacheManager._is_expired`. -/
def CacheManager.isExpired (st : CacheManager) (now : Rat) (e : CacheEntry) : Bool :=
  if st.config.default_ttl_seconds ≤ 0 then false
  else decide (now - e.created_at > st.config.default_ttl_seconds)

/-- `CacheManager._evict_entry`. -/
def CacheManager.evictEntry (st : CacheManager) (ck : String) : CacheManager × Bool :=
  match assocFind ck st.entries with
  | none => (st, false)
  | some e =>
    ({ st with
        entries := assocErase ck st.entries,
        trie := (st.trie.remove e.tokens).1,
        total_memory_bytes := st.total_memory_bytes - e.memory_bytes,
        stats := { st.stats with evictions := st.stats.evictions + 1 } }, true)

/-- `CacheManager.lookup`, with `time.time()` modelled by `now`. -/
def CacheManager.lookup (st : CacheManager) (now : Rat) (tokens : List Int) :
    CacheManager × PrefixMatch :=
  let st1 : CacheManager :=
    { st with stats :=
        { st.stats with
            total_lookups := st.stats.total_lookups + 1,
            total_tokens_requested := st.stats.total_tokens_requested + tokens.length } }
  let fl := st.trie.findLongest tokens
  let matchedLen := fl.1
  let missAt : CacheManager → CacheManager × PrefixMatch := fun s =>
    ({ s with stats := { s.stats with cache_misses := s.stats.cache_misses + 1 } },
     { total_length := tokens.length, hit := false })
  match fl.2 with
  | none => missAt st1
  | some ck =>
    if (matchedLen : Int) < st.config.min_prefix_length then missAt st1
    else
      match assocFind ck st1.entries with
      | none => missAt st1
      | some entry =>
        if st1.isExpired now entry then missAt (st1.evictEntry ck).1
        else
          let entry' : CacheEntry :=
            { entry with last_accessed := now, access_count := entry.access_count + 1 }
          let st2 : CacheManager :=
            { st1 with
                entries := assocErase ck st1.entries ++ [(ck, entry')],
                stats :=
                  { st1.stats with
                      cache_hits := st1.stats.cache_hits + 1,
                      total_tokens_served := st1.stats.total_tokens_served + matchedLen } }
          (st2,
           { matched_tokens := tokens.take matchedLen,
             matched_length := matchedLen,
             total_length := tokens.length,
             cache_key := ck,
             remaining_tokens := tokens.drop matchedLen,
             hit := true })

/-- `CacheManager._evict_one`: under `lru` drop the least recently used
entry (the first of the ordered map), under `lfu` the first entry with the
minimum access count; any other policy does nothing. -/
def lfuMinKey (bk : String) (bc : Nat) : List (String × CacheEntry) → String
  | [] => bk
  | (k, e) :: rest =>
    if e.access_count < bc then lfuMinKey k e.access_count rest
    else lfuMinKey bk bc rest

def CacheManager.evictOne (st : CacheManager) : CacheManager :=
  match st.entries with
  | [] => st
  | (k0, e0) :: rest =>
    if st.config.eviction_policy = "lru" then (st.evictEntry k0).1
    else if st.config.eviction_policy = "lfu" then
      (st.evictEntry (lfuMinKey k0 e0.access_count rest)).1
    else st

/-- The loop of `CacheManager._ensure_capacity`.  Python counts performed
evictions upward and raises once `eviction_attempts > max_attempts`; here
`remaining = max_attempts - eviction_attempts` counts the same sentinel
downward, so the error fires exactly when the loop body runs with
`remaining = 0`. -/
def ensureCapacityGo (needed maxBytes maxEntries : Int) :
    Nat → CacheManager → Except CacheError CacheManager
  | remaining, st =>
    if (decide ((st.entries.length : Int) ≥ maxEntries) ||
        decide (st.total_memory_bytes + needed > maxBytes)) && !st.entries.isEmpty then
      match remaining with
      | 0 => .error (.cacheFullError "Cannot free enough space")
      | r + 1 => ensureCapacityGo needed maxBytes maxEntries r st.evictOne
    else .ok st

/-- `CacheManager._ensure_capacity`: the sentinel `max_attempts` is
`len(self._entries) + 1`, computed before the loop. -/
def CacheManager.ensureCapacity (st : CacheManager) (needed : Int) :
    Except CacheError CacheManager :=
  ensureCapacityGo needed (maxMemoryBytes st.config) st.config.max_entries
    (st.entries.length + 1) st

/-- `CacheManager.store`, with the content-address derivation abstracted
as `ckey` and `time.time()` by `now`. -/
def CacheManager.store (ckey : List Int → String) (st : CacheManager) (now : Rat)
    (tokens : List Int) (kv : Option Unit) (memory_bytes : Int) :
    Except CacheError (CacheManager × String) :=
  if (tokens.length : Int) < st.config.min_prefix_length then .ok (st, "")
  else
    let cache_key := ckey tokens
    match assocFind cache_key st.entries with
    | some entry =>
      let entry' : CacheEntry :=
        { entry with last_accessed := now, access_count := entry.access_count + 1 }
      .ok ({ st with entries := assocErase cache_key st.entries ++ [(cache_key, entry')] },
           cache_key)
    | none =>
      let entry := CacheEntry.postInit
        { cache_key := cache_key, tokens := tokens, kv_data := kv,
          memory_bytes :=
            if memory_bytes = 0 then (tokens.length : Int) * BYTES_PER_TOKEN_DEFAULT
            else memory_bytes } now
      match st.ensureCapacity entry.memory_bytes with
      | .error e => .error e
      | .ok st2 =>
        .ok ({ st2 with
                entries := st2.entries ++ [(cache_key, entry)],
                trie := st2.trie.insert tokens cache_key,
                total_memory_bytes := st2.total_memory_bytes + entry.memory_bytes },
             cache_key)

/-- `CacheManager.evict` (public). -/
def CacheManager.evict (st : CacheManager) (ck : String) : CacheManager × Bool :=
  st.evictEntry ck

/-- `CacheManager.clear`: entries and byte total reset, fresh trie,
historical counters preserved. -/
def CacheManager.clear (st : CacheManager) : CacheManager :=
  { st with entries := [], trie := RadixTrie.empty, total_memory_bytes := 0 }

/-- `CacheManager.get_entry`. -/
def CacheManager.getEntry (st : CacheManager) (ck : String) : Option CacheEntry :=
  assocFind ck st.entries

/-- The candidate lengths `range(len(tokens), min_prefix_length - 1, -1)`
of `analyze_batch`: `hi, hi-1, …, lo` (empty when `hi < lo`). -/
def descLengths (hi lo : Nat) : List Nat := (List.range' lo (hi + 1 - lo)).reverse

/-- One `analysis_trie.setdefault(prefix, []).append(idx)` step. -/
def mmAdd (q : List Int) (i : Nat) (mm : List (List Int × List Nat)) :
    List (List Int × List Nat) :=
  match assocFind q mm with
  | none => mm ++ [(q, [i])]
  | some l => assocSet q (l ++ [i]) mm

/-- Record all candidate prefixes of one sequence in the multimap. -/
def mmAddSeq (L : Nat) (idx : Nat) (tokens : List Int)
    (mm : List (List Int × List Nat)) : List (List Int × List Nat) :=
  (descLengths tokens.length L).foldl (fun acc l => mmAdd (tokens.take l) idx acc) mm

/-- The multimap-building pass of `analyze_batch` over the enumerated
batch. -/
def buildMMGo (L : Nat) : Nat → List (List Int) → List (List Int × List Nat) →
    List (List Int × List Nat)
  | _, [], mm => mm
  | idx, s :: ss, mm => buildMMGo L (idx + 1) ss (mmAddSeq L idx s mm)

/-- Stable insertion into a list sorted by decreasing length (equal
lengths keep their relative order, matching Python's stable `sorted`). -/
def insertByLenDesc (p : List Int) : List (List Int) → List (List Int)
  | [] => [p]
  | q :: qs => if q.length > p.length then q :: insertByLenDesc p qs else p :: q :: qs

/-- `sorted(analysis_trie.keys(), key=len, reverse=True)`. -/
def sortByLenDesc : List (List Int) → List (List Int)
  | [] => []
  | p :: ps => insertByLenDesc p (sortByLenDesc ps)

/-- The grouping pass of `analyze_batch`: walk the candidate prefixes in
decreasing length order, open a group for every prefix shared by at least
two not-yet-assigned indices, and record each member's assigned length. -/
def passGo (ckey : List Int → String) (mm : List (List Int × List Nat)) :
    List (List Int) → List (String × List Nat) → List (Nat × Nat) →
    List (String × List Nat) × List (Nat × Nat)
  | [], gs, asg => (gs, asg)
  | p :: rest, gs, asg =>
    let indices := (assocFind p mm).getD []
    if indices.length < 2 then passGo ckey mm rest gs asg
    else
      let unassigned := indices.filter (fun i => (assocFind i asg).isNone)
      if unassigned.length < 2 then passGo ckey mm rest gs asg
      else
        let pk := (ckey p).take 8
        passGo ckey mm rest (assocSet pk unassigned gs)
          (unassigned.foldl (fun a i => assocSet i p.length a) asg)

/-- `assigned.get(i, 0)`. -/
def asgGet (asg : List (Nat × Nat)) (i : Nat) : Nat := (assocFind i asg).getD 0

/-- `CacheManager.analyze_batch` as a pure function of the batch and
`min_prefix_length` (the method reads nothing else from the manager and
mutates nothing). -/
def analyzeBatchPure (ckey : List Int → String) (L : Nat)
    (seqs : List (List Int)) : BatchAnalysis :=
  match seqs with
  | [] => {}
  | _ :: _ =>
    let mm := buildMMGo L 0 seqs []
    let sorted := sortByLenDesc (mm.map Prod.fst)
    let pa := passGo ckey mm sorted [] []
    let gs := pa.1
    let asg := pa.2
    let total := (seqs.map List.length).sum
    let savings0 : Int := ((List.range seqs.length).map (fun i => (asgGet asg i : Int))).sum
    let savings : Int := gs.foldl (fun s g =>
        if g.2.isEmpty then s
        else s - (g.2.map (fun i => (asgGet asg i : Int))).foldl max 0) savings0
    { batch_size := seqs.length,
      unique_prefixes := gs.length,
      shared_prefix_groups := gs,
      potential_savings_tokens := max 0 savings,
      total_tokens := total }

/-- `CacheManager.analyze_batch`: state passes through untouched. -/
def CacheManager.analyzeBatch (ckey : List Int → String) (st : CacheManager)
    (seqs : List (List Int)) : CacheManager × BatchAnalysis :=
  (st, analyzeBatchPure ckey st.config.min_prefix_length.toNat seqs)

/-- A public cache operation, with its wall-clock instant where the Python
method reads `time.time()`. -/
inductive Op where
  | store (tokens : List Int) (kv : Option Unit) (memoryBytes : Int) (now : Rat)
  | lookup (tokens : List Int) (now : Rat)
  | evict (cacheKey : String)
  | clear

/-- One public operation applied to the store.  A `CacheFullError` from
`store` leaves the state unchanged here; the error branch is unreachable
for validated configurations. -/
def CacheManager.step (ckey : List Int → String) (st : CacheManager) : Op → CacheManager
  | .store ts kv mb now =>
    match CacheManager.store ckey st now ts kv mb with
    | .ok r => r.1
    | .error _ => st
  | .lookup ts now => (st.lookup now ts).1
  | .evict ck => (st.evictEntry ck).1
  | .clear => st.clear

/-- A sequence of public operations from a starting state. -/
def CacheManager.run (ckey : List Int → String) (st : CacheManager) (ops : List Op) :
    CacheManager :=
  ops.foldl (CacheManager.step ckey) st

/-- A concrete content-address function for witnesses (the SHA-256
derivation is abstracted as a parameter throughout). -/
def tokKey : List Int → String := fun ts => toString ts

@[simp] theorem postInit_memory_bytes (e : CacheEntry) (now : Rat) :
    (e.postInit now).memory_bytes =
      if e.memory_bytes = 0 then
        (((if e.token_count = 0 then e.tokens.length else e.token_count : Nat)) : Int) *
          BYTES_PER_TOKEN_DEFAULT
      else e.memory_bytes := rfl

@[simp] theorem postInit_tokens (e : CacheEntry) (now : Rat) :
    (e.postInit now).tokens = e.tokens := rfl

@[simp] theorem postInit_cache_key (e : CacheEntry) (now : Rat) :
    (e.postInit now).cache_key = e.cache_key := rfl

@[simp] theorem postInit_token_count (e : CacheEntry) (now : Rat) :
    (e.postInit now).token_count =
      (if e.token_count = 0 then e.tokens.length else e.token_count) := rfl

@[simp] theorem postInit_created_at (e : CacheEntry) (now : Rat) :
    (e.postInit now).created_at = (if e.created_at = 0 then now else e.created_at) := rfl

/-- C2 counterexample: constructing a configuration with
`default_ttl_seconds = -1` succeeds — `__post_init__` never checks this
field, contradicting the claim that construction fails for
`default_ttl_seconds < 0`. -/
theorem C2_counterexample :
    (CacheConfig.validate 10000 1024 (-1) "lru" 4).toOption =
      some { max_entries := 10000, max_memory_mb := 1024,
             default_ttl_seconds := -1, eviction_policy := "lru",
             min_prefix_length := 4 } := by
  decide

/-- C2 (amended): construction validates `max_entries ≥ 1`,
`max_memory_mb > 0`, the eviction policy, and `min_prefix_length ≥ 1`,
failing (so no store is created) exactly when one of these is violated;
`default_ttl_seconds` is not validated, and on success the configuration
holds the given field values. -/
theorem C2_config_validation (me : Int) (mm ttl : Rat) (pol : String) (minp : Int) :
    ((∃ c, CacheConfig.validate me mm ttl pol minp = Except.ok c) ↔
      (1 ≤ me ∧ 0 < mm ∧ (pol = "lru" ∨ pol = "lfu") ∧ 1 ≤ minp)) ∧
    (∀ c, CacheConfig.validate me mm ttl pol minp = Except.ok c →
      c = ⟨me, mm, ttl, pol, minp⟩) := by
  rw [CacheConfig.validate]
  constructor
  · constructor
    · intro ⟨c, hc⟩
      split_ifs at hc <;> try cases hc
      refine ⟨by omega, by linarith, by tauto, by omega⟩
    · intro ⟨h1, h2, h3, h4⟩
      rw [if_neg (by omega), if_neg (by push_neg; linarith), if_neg (by simp; tauto),
        if_neg (by omega)]
      exact ⟨_, rfl⟩
  · intro c hc
    split_ifs at hc <;> try cases hc
    rfl

theorem C2_config_validation_witness :
    (∃ c, CacheConfig.validate 10000 1024 0 "lru" 4 = Except.ok c) ∧
    ¬(∃ c, CacheConfig.validate 0 1024 0 "lru" 4 = Except.ok c) := by
  constructor
  · exact (C2_config_validation 10000 1024 0 "lru" 4).1.mpr
      (by refine ⟨by norm_num, by norm_num, Or.inl rfl, by norm_num⟩)
  · intro h
    have := (C2_config_validation 0 1024 0 "lru" 4).1.mp h
    have h1 := this.1
    omega

/-- C3 counterexample: a store with a *negative* caller-supplied byte
footprint keeps that negative value (Python's `or` tests truthiness, not
positivity), so the stored entry's `memory_bytes` is `-5`, not
`4 × 2048`, and the documented `byte_footprint > 0` invariant fails. -/
theorem C3_counterexample :
    ((CacheManager.store tokKey
        (CacheManager.init { min_prefix_length := 1 }) 1 [1, 2, 3, 4] none (-5)).toOption.map
      (fun r => r.1.entries.map (fun p => p.2.memory_bytes))) =
      some [-5] := by
  simp only [CacheManager.store, CacheManager.init, CacheManager.ensureCapacity,
    ensureCapacityGo, CacheEntry.postInit, BYTES_PER_TOKEN_DEFAULT, assocFind,
    Except.toOption, List.isEmpty_nil, Bool.not_true, Bool.and_false, List.length_nil]
  norm_num

/-- C3 (amended): an admitted entry's byte footprint equals the
caller-supplied value whenever that value is nonzero (negative values
included), and `length(tokens) × 2048` when it is zero; the footprint is
therefore positive whenever the caller-supplied value is nonnegative. -/
theorem C3_store_footprint (ckey : List Int → String) (st : CacheManager)
    (now : Rat) (ts : List Int) (kv : Option Unit) (mb : Int)
    (hmin : 1 ≤ st.config.min_prefix_length)
    (hlen : ¬((ts.length : Int) < st.config.min_prefix_length))
    (hnew : assocFind (ckey ts) st.entries = none) :
    ∀ st' k, CacheManager.store ckey st now ts kv mb = Except.ok (st', k) →
      ∃ e, st'.entries.getLast? = some (k, e) ∧
        e.memory_bytes = (if mb = 0 then (ts.length : Int) * 2048 else mb) ∧
        (0 ≤ mb → 0 < e.memory_bytes) := by
  intro st' k h
  rw [CacheManager.store, if_neg hlen] at h
  dsimp only at h
  rw [hnew] at h
  dsimp only at h
  have hlen1 : 1 ≤ ts.length := by omega
  have hlz : (ts.length : Int) ≠ 0 := by omega
  have hmbval : (CacheEntry.postInit
      { cache_key := ckey ts, tokens := ts, kv_data := kv,
        memory_bytes :=
          if mb = 0 then (ts.length : Int) * BYTES_PER_TOKEN_DEFAULT else mb } now).memory_bytes =
      (if mb = 0 then (ts.length : Int) * 2048 else mb) := by
    by_cases hmb : mb = 0
    · subst hmb
      simp [CacheEntry.postInit, BYTES_PER_TOKEN_DEFAULT, Int.mul_eq_zero, hlz]
    · simp [CacheEntry.postInit, BYTES_PER_TOKEN_DEFAULT, hmb]
  cases hcap : CacheManager.ensureCapacity st
      (CacheEntry.postInit
        { cache_key := ckey ts, tokens := ts, kv_data := kv,
          memory_bytes :=
            if mb = 0 then (ts.length : Int) * BYTES_PER_TOKEN_DEFAULT else mb } now).memory_bytes
      with
  | error e =>
    rw [hcap] at h
    cases h
  | ok st2 =>
    rw [hcap] at h
    dsimp only at h
    injection h with h
    injection h with h1 h2
    subst h1
    subst h2
    refine ⟨_, by simp, hmbval, ?_⟩
    intro hmb0
    rw [hmbval]
    by_cases hmb : mb = 0
    · rw [if_pos hmb]
      omega
    · rw [if_neg hmb]
      omega

theorem C3_store_footprint_witness :
    ((CacheManager.store tokKey (CacheManager.init { min_prefix_length := 1 })
        1 [1, 2] none 7).toOption.map
      (fun r => r.1.entries.getLast?.map (fun p => p.2.memory_bytes))) =
      some (some 7) := by
  have hsome : (CacheManager.store tokKey (CacheManager.init { min_prefix_length := 1 })
      1 [1, 2] none 7).toOption.isSome = true := by
    simp only [CacheManager.store, CacheManager.init, CacheManager.ensureCapacity,
      ensureCapacityGo, CacheEntry.postInit, BYTES_PER_TOKEN_DEFAULT, assocFind,
      Except.toOption, List.isEmpty_nil, Bool.not_true, Bool.and_false, List.length_nil]
    norm_num
  cases hst : CacheManager.store tokKey (CacheManager.init { min_prefix_length := 1 })
      1 [1, 2] none 7 with
  | error err =>
    rw [hst] at hsome
    simp [Except.toOption] at hsome
  | ok r =>
    obtain ⟨e, he1, he2, he3⟩ := C3_store_footprint tokKey
      (CacheManager.init { min_prefix_length := 1 }) 1 [1, 2] none 7
      (by decide) (by decide) (by decide) r.1 r.2 (by rw [hst])
    simp only [Except.toOption]
    simp [he1, he2]

/-- C6: an entry is expired iff the TTL is positive and strictly exceeded
by the age since creation — `last_accessed` plays no role and a
non-positive TTL disables expiry — and a lookup that meets an expired
entry evicts it (map, index, byte accounting, eviction counter) and
returns the miss result. -/
theorem C6_ttl_lazy_expiry :
    (∀ (st : CacheManager) (now : Rat) (e : CacheEntry),
      st.isExpired now e = true ↔
        (0 < st.config.default_ttl_seconds ∧
         st.config.default_ttl_seconds < now - e.created_at)) ∧
    (∀ (st : CacheManager) (now : Rat) (e : CacheEntry) (la : Rat),
      st.isExpired now { e with last_accessed := la } = st.isExpired now e) ∧
    (∀ (st : CacheManager) (now : Rat) (ts : List Int) (ml : Nat) (ck : String)
       (e : CacheEntry),
      st.trie.findLongest ts = (ml, some ck) →
      ¬((ml : Int) < st.config.min_prefix_length) →
      assocFind ck st.entries = some e →
      st.isExpired now e = true →
      (st.lookup now ts).2 = { total_length := ts.length } ∧
      (st.lookup now ts).1.entries = assocErase ck st.entries ∧
      (st.lookup now ts).1.trie = (st.trie.remove e.tokens).1 ∧
      (st.lookup now ts).1.total_memory_bytes = st.total_memory_bytes - e.memory_bytes ∧
      (st.lookup now ts).1.stats.evictions = st.stats.evictions + 1 ∧
      (st.lookup now ts).1.stats.cache_misses = st.stats.cache_misses + 1) := by
  refine ⟨?_, ?_, ?_⟩
  · intro st now e
    rw [CacheManager.isExpired]
    by_cases h : st.config.default_ttl_seconds ≤ 0
    · rw [if_pos h]
      constructor
      · intro hh
        cases hh
      · intro ⟨h1, h2⟩
        linarith
    · rw [if_neg h]
      push_neg at h
      simp only [decide_eq_true_eq]
      constructor
      · intro hh
        exact ⟨h, hh⟩
      · intro ⟨h1, h2⟩
        exact h2
  · intro st now e la
    rfl
  · intro st now ts ml ck e hfl hml hfind hexp
    rw [CacheManager.lookup]
    rw [hfl]
    dsimp only
    rw [if_neg hml]
    rw [hfind]
    dsimp only
    split
    · rw [CacheManager.evictEntry]
      dsimp only
      rw [hfind]
      dsimp only
      refine ⟨rfl, rfl, rfl, rfl, rfl, rfl⟩
    · next hcond =>
        exact absurd hexp hcond

def wEntry : CacheEntry :=
  { cache_key := "K", tokens := [1, 2], token_count := 2, memory_bytes := 4096,
    created_at := 1, last_accessed := 1, access_count := 0 }

def wTrie : RadixTrie := ⟨TrieNode.mk [] [(1, TrieNode.mk [1, 2] [] (some "K") 2)] none 0, 1⟩

def wSt : CacheManager :=
  ⟨{ default_ttl_seconds := 5, min_prefix_length := 2 }, wTrie, [("K", wEntry)], {}, 4096⟩

theorem wSt_find : wSt.trie.findLongest [1, 2] = (2, some "K") := by
  show wTrie.findLongest [1, 2] = (2, some "K")
  rw [wTrie, RadixTrie.findLongest]
  dsimp only
  simp only [TrieNode.cacheKey_mk]
  rw [@findLongestGo_cons_some 1 (TrieNode.mk [] [(1, TrieNode.mk [1, 2] [] (some "K") 2)] none 0)
    (TrieNode.mk [1, 2] [] (some "K") 2) [2] 0 0 none (by rfl)]
  rw [show commonPrefixLen (TrieNode.mk [1, 2] [] (some "K") 2).tokens [1, 2] = 2 from by decide]
  rw [if_neg (by decide)]
  simp only [TrieNode.cacheKey_mk]
  rw [show List.drop 2 [1, 2] = ([] : List Int) from by decide]
  rw [findLongestGo_nil]

theorem C6_ttl_lazy_expiry_witness :
    (wSt.lookup 10 [1, 2]).2 = { total_length := 2 } ∧
    (wSt.lookup 10 [1, 2]).1.entries = [] ∧
    (wSt.lookup 10 [1, 2]).1.stats.evictions = 1 := by
  have h := C6_ttl_lazy_expiry.2.2 wSt 10 [1, 2] 2 "K" wEntry wSt_find
    (by decide) (by decide)
    (by
      rw [CacheManager.isExpired]
      rw [if_neg (by norm_num [wSt])]
      simp only [decide_eq_true_eq]
      norm_num [wSt, wEntry])
  refine ⟨h.1, ?_, ?_⟩
  · rw [h.2.1]
    decide
  · rw [h.2.2.2.2.1]
    decide

/-- C7: after `insert(s, k)` with `s` non-empty, `find_longest(s)` returns
`(length(s), k)`; insert of the empty sequence leaves the trie unchanged. -/
theorem C7_insert_roundtrip :
    (∀ (tr : RadixTrie) (s : List Int) (k : String), s ≠ [] →
      (tr.insert s k).findLongest s = (s.length, some k)) ∧
    (∀ (tr : RadixTrie) (k : String), tr.insert [] k = tr) := by
  constructor
  · intro tr s k hs
    cases s with
    | nil => exact absurd rfl hs
    | cons a as =>
      have hm : exactMarker (tr.insert (a :: as) k).root (a :: as) = some k :=
        exactMarker_insertGo_self k (a :: as).length tr.root (a :: as)
      have h := findLongestGo_of_exactMarker (tr.insert (a :: as) k).root (a :: as)
        (by simp) hm 0 0 (tr.insert (a :: as) k).root.cacheKey
      show findLongestGo (tr.insert (a :: as) k).root (a :: as) 0 0
        (tr.insert (a :: as) k).root.cacheKey = ((a :: as).length, some k)
      rw [h]
      simp
  · intro tr k
    rfl

/-- C7 witness at a concrete trie. -/
theorem C7_insert_roundtrip_witness :
    (RadixTrie.empty.insert [1, 2] "A").findLongest [1, 2] = (2, some "A") ∧
    RadixTrie.empty.insert [] "A" = RadixTrie.empty :=
  ⟨C7_insert_roundtrip.1 RadixTrie.empty [1, 2] "A" (by decide),
   C7_insert_roundtrip.2 RadixTrie.empty "A"⟩

/-- C8: removing `s` right after `insert(s, k)` succeeds (returns `true`),
clears the terminal marker at `s`, preserves every other terminal marker,
and any subsequent `find_longest(s)` never reports `k` (given `k` was not
already stored elsewhere); removing a sequence with no terminal marker
returns `false` and leaves the trie unchanged. -/
theorem C8_remove_spec :
    ∀ (tr : RadixTrie) (s : List Int) (k : String), s ≠ [] →
      ((tr.insert s k).remove s).2 = true ∧
      exactMarker ((tr.insert s k).remove s).1.root s = none ∧
      (∀ p, p ≠ s →
        exactMarker ((tr.insert s k).remove s).1.root p = exactMarker tr.root p) ∧
      (trieWF tr = true → (∀ p, exactMarker tr.root p ≠ some k) →
        ∀ r ko, ((tr.insert s k).remove s).1.findLongest s = (r, ko) → ko ≠ some k) ∧
      (∀ (p : List Int), exactMarker tr.root p = none → tr.remove p = (tr, false)) := by
  intro tr s k hs
  cases s with
  | nil => exact absurd rfl hs
  | cons a as =>
    have hm : exactMarker (tr.insert (a :: as) k).root (a :: as) = some k :=
      exactMarker_insertGo_self k (a :: as).length tr.root (a :: as)
    have hrm : removeGo (tr.insert (a :: as) k).root (a :: as) ≠ none := by
      intro hnone
      rw [removeGo_none_iff] at hnone
      rw [hm] at hnone
      cases hnone
    obtain ⟨root', hroot'⟩ : ∃ n', removeGo (tr.insert (a :: as) k).root (a :: as) = some n' := by
      cases h : removeGo (tr.insert (a :: as) k).root (a :: as) with
      | none => exact absurd h hrm
      | some n' => exact ⟨n', rfl⟩
    have hrw : (tr.insert (a :: as) k).remove (a :: as) =
        (⟨root', (tr.insert (a :: as) k).size - 1⟩, true) := by
      rw [RadixTrie.remove]
      rw [hroot']
    have hins_ne : ∀ p, p ≠ (a :: as) →
        exactMarker (tr.insert (a :: as) k).root p = exactMarker tr.root p :=
      fun p hp => exactMarker_insertGo_ne k (a :: as).length tr.root (a :: as) p hp
    refine ⟨by rw [hrw], ?_, ?_, ?_, ?_⟩
    · rw [hrw]
      exact removeGo_exactMarker_self _ _ root' hroot'
    · intro p hp
      rw [hrw]
      show exactMarker root' p = exactMarker tr.root p
      rw [removeGo_exactMarker_ne _ _ root' hroot' p hp]
      exact hins_ne p hp
    · intro hWF hfresh r ko hflk
      rw [hrw] at hflk
      have hwf' : nodeWF root' = true :=
        nodeWF_removeGo _ _ root' hroot'
          (nodeWF_insertGo k (a :: as).length tr.root (a :: as) hWF)
      have hflk' : findLongestGo root' (a :: as) 0 0 root'.cacheKey = (r, ko) := hflk
      rcases findLongestGo_spec root' (a :: as) 0 0 root'.cacheKey hwf' r ko hflk' with
        ⟨h1, h2⟩ | ⟨j, hj0, hjle, hr, hko, hsome⟩
      · have hnil : ([] : List Int) ≠ (a :: as) := by simp
        have : exactMarker root' [] = exactMarker tr.root [] := by
          rw [removeGo_exactMarker_ne _ _ root' hroot' [] hnil]
          exact hins_ne [] hnil
        rw [h2, ← exactMarker_nil root', this]
        exact hfresh []
      · by_cases htake : (a :: as).take j = (a :: as)
        · rw [htake] at hko
          rw [removeGo_exactMarker_self _ _ root' hroot'] at hko
          rw [hko]
          simp
        · rw [removeGo_exactMarker_ne _ _ root' hroot' _ htake] at hko
          rw [hins_ne _ htake] at hko
          rw [hko]
          exact hfresh _
    · intro p hp
      cases p with
      | nil => rfl
      | cons b bs =>
        rw [RadixTrie.remove]
        rw [(removeGo_none_iff tr.root (b :: bs)).mpr hp]

theorem exactMarker_emptyRoot (p : List Int) :
    exactMarker RadixTrie.empty.root p = none := by
  cases p with
  | nil => rw [exactMarker_nil]; rfl
  | cons a as => exact exactMarker_cons_none as rfl

/-- C8 witness at a concrete trie. -/
theorem C8_remove_spec_witness :
    ((RadixTrie.empty.insert [1, 2] "A").remove [1, 2]).2 = true ∧
    (((RadixTrie.empty.insert [1, 2] "A").remove [1, 2]).1.findLongest [1, 2]).2 ≠ some "A" ∧
    RadixTrie.empty.remove [3] = (RadixTrie.empty, false) := by
  have h := C8_remove_spec RadixTrie.empty [1, 2] "A" (by decide)
  refine ⟨h.1, ?_, ?_⟩
  · exact h.2.2.2.1 (by decide)
      (fun p => by rw [exactMarker_emptyRoot]; simp) _ _ rfl
  · exact h.2.2.2.2 [3] (exactMarker_emptyRoot [3])

theorem assocErase_length {α β : Type} [DecidableEq α] {k : α} {v : β}
    {l : List (α × β)} (h : assocFind k l = some v) :
    (assocErase k l).length + 1 = l.length := by
  obtain ⟨l1, l2, he, hr, _⟩ := assocErase_decomp h
  subst he
  rw [hr]
  simp only [List.length_append, List.length_cons]
  omega

theorem lfuMinKey_mem (l : List (String × CacheEntry)) :
    ∀ bk bc, lfuMinKey bk bc l = bk ∨ (lfuMinKey bk bc l) ∈ l.map Prod.fst := by
  induction l with
  | nil =>
    intro bk bc
    left
    rfl
  | cons p rest ih =>
    intro bk bc
    obtain ⟨k, e⟩ := p
    rw [lfuMinKey]
    by_cases hlt : e.access_count < bc
    · rw [if_pos hlt]
      rcases ih k e.access_count with h | h
      · right
        rw [h]
        simp
      · right
        simp only [List.map_cons, List.mem_cons]
        exact Or.inr h
    · rw [if_neg hlt]
      rcases ih bk bc with h | h
      · left
        exact h
      · right
        simp only [List.map_cons, List.mem_cons]
        exact Or.inr h

theorem evictEntry_len_cfg (st : CacheManager) (ck : String) (e : CacheEntry)
    (h : assocFind ck st.entries = some e) :
    ((st.evictEntry ck).1.entries).length + 1 = st.entries.length ∧
    (st.evictEntry ck).1.config = st.config := by
  simp only [CacheManager.evictEntry, h]
  exact ⟨assocErase_length h, trivial⟩

theorem evictOne_spec (st : CacheManager)
    (hpol : st.config.eviction_policy = "lru" ∨ st.config.eviction_policy = "lfu")
    (hne : st.entries ≠ []) :
    st.evictOne.entries.length + 1 = st.entries.length ∧ st.evictOne.config = st.config := by
  cases hent : st.entries with
  | nil => exact absurd hent hne
  | cons p rest =>
    obtain ⟨k0, e0⟩ := p
    have hfind0 : assocFind k0 st.entries = some e0 := by
      rw [hent]
      simp [assocFind]
    rw [CacheManager.evictOne, hent]
    dsimp only
    rcases hpol with hp | hp
    · rw [if_pos hp]
      have := evictEntry_len_cfg st k0 e0 hfind0
      rw [hent] at this
      exact this
    · have hnl : ¬ st.config.eviction_policy = "lru" := by
        rw [hp]
        decide
      rw [if_neg hnl, if_pos hp]
      have hmem : ∃ e', assocFind (lfuMinKey k0 e0.access_count rest) st.entries = some e' := by
        rcases lfuMinKey_mem rest k0 e0.access_count with h | h
        · rw [h]
          exact ⟨e0, hfind0⟩
        · have hmem' : (lfuMinKey k0 e0.access_count rest) ∈ st.entries.map Prod.fst := by
            rw [hent]
            simp only [List.map_cons, List.mem_cons]
            exact Or.inr h
          have hs := assocFind_isSome_of_mem hmem'
          cases hf : assocFind (lfuMinKey k0 e0.access_count rest) st.entries with
          | none => rw [hf] at hs; cases hs
          | some e' => exact ⟨e', rfl⟩
      obtain ⟨e', hf⟩ := hmem
      have := evictEntry_len_cfg st (lfuMinKey k0 e0.access_count rest) e' hf
      rw [hent] at this
      exact this

theorem ensureCapacityGo_ok (needed maxBytes maxEntries : Int) :
    ∀ (remaining : Nat) (st : CacheManager),
      (st.config.eviction_policy = "lru" ∨ st.config.eviction_policy = "lfu") →
      st.entries.length < remaining →
      ∃ st', ensureCapacityGo needed maxBytes maxEntries remaining st = .ok st' := by
  intro remaining
  induction remaining with
  | zero =>
    intro st _ hlt
    exact absurd hlt (Nat.not_lt_zero _)
  | succ r ih =>
    intro st hpol hlt
    rw [ensureCapacityGo]
    by_cases hcond : ((decide ((st.entries.length : Int) ≥ maxEntries) ||
        decide (st.total_memory_bytes + needed > maxBytes)) && !st.entries.isEmpty) = true
    · rw [if_pos hcond]
      have hne : st.entries ≠ [] := by
        intro h0
        rw [h0] at hcond
        simp at hcond
      obtain ⟨hlen, hcfg⟩ := evictOne_spec st hpol hne
      have hpol' : st.evictOne.config.eviction_policy = "lru" ∨
          st.evictOne.config.eviction_policy = "lfu" := by
        rw [hcfg]
        exact hpol
      exact ih st.evictOne hpol' (by omega)
    · rw [if_neg hcond]
      exact ⟨st, rfl⟩

theorem ensureCapacity_ok (st : CacheManager) (needed : Int)
    (hpol : st.config.eviction_policy = "lru" ∨ st.config.eviction_policy = "lfu") :
    ∃ st', st.ensureCapacity needed = .ok st' :=
  ensureCapacityGo_ok needed (maxMemoryBytes st.config) st.config.max_entries
    (st.entries.length + 1) st hpol (by omega)

/-- C10: with a recognised eviction policy (`lru` or `lfu`) every `store`
call succeeds — each pass of the capacity loop evicts exactly one entry,
so the `CacheFullError` branch is unreachable. -/
theorem C10_store_never_cache_full (ckey : List Int → String) (st : CacheManager)
    (now : Rat) (tokens : List Int) (kv : Option Unit) (memory_bytes : Int)
    (hpol : st.config.eviction_policy = "lru" ∨ st.config.eviction_policy = "lfu") :
    ∃ res, CacheManager.store ckey st now tokens kv memory_bytes = .ok res := by
  rw [CacheManager.store]
  by_cases hshort : (tokens.length : Int) < st.config.min_prefix_length
  · rw [if_pos hshort]
    exact ⟨_, rfl⟩
  · rw [if_neg hshort]
    dsimp only
    cases hfind : assocFind (ckey tokens) st.entries with
    | some entry => exact ⟨_, rfl⟩
    | none =>
      obtain ⟨st2, hok⟩ := ensureCapacity_ok st _ hpol
      rw [hok]
      exact ⟨_, rfl⟩

/-- C10 witness at a concrete store call. -/
theorem C10_store_never_cache_full_witness :
    ∃ res, CacheManager.store tokKey (CacheManager.init {}) 0 [1, 2, 3, 4] none 0 = .ok res :=
  C10_store_never_cache_full tokKey (CacheManager.init {}) 0 [1, 2, 3, 4] none 0
    (Or.inl rfl)

/-- C5: every lookup bumps `total_lookups` by one and
`total_tokens_requested` by the query length; it yields the bare miss
result (and bumps `cache_misses`) exactly under the four miss conditions
(no key, match below `min_prefix_length`, key absent from the map,
entry expired), and otherwise yields the full hit payload. -/
theorem C5_lookup_behavior (st : CacheManager) (now : Rat) (ts : List Int) :
    (st.lookup now ts).1.stats.total_lookups = st.stats.total_lookups + 1 ∧
    (st.lookup now ts).1.stats.total_tokens_requested
      = st.stats.total_tokens_requested + ts.length ∧
    (((st.trie.findLongest ts).2 = none ∨
      ((st.trie.findLongest ts).1 : Int) < st.config.min_prefix_length ∨
      (∃ ck, (st.trie.findLongest ts).2 = some ck ∧ assocFind ck st.entries = none) ∨
      (∃ ck e, (st.trie.findLongest ts).2 = some ck ∧ assocFind ck st.entries = some e ∧
        st.isExpired now e = true)) →
      ((st.lookup now ts).2 = { total_length := ts.length } ∧
       (st.lookup now ts).1.stats.cache_misses = st.stats.cache_misses + 1)) ∧
    (∀ ck e, (st.trie.findLongest ts).2 = some ck →
      ¬ ((st.trie.findLongest ts).1 : Int) < st.config.min_prefix_length →
      assocFind ck st.entries = some e →
      st.isExpired now e = false →
      ((st.lookup now ts).2 =
        { matched_tokens := ts.take (st.trie.findLongest ts).1,
          matched_length := (st.trie.findLongest ts).1,
          total_length := ts.length,
          cache_key := ck,
          remaining_tokens := ts.drop (st.trie.findLongest ts).1,
          hit := true } ∧
       (st.lookup now ts).1.stats.cache_hits = st.stats.cache_hits + 1 ∧
       (st.lookup now ts).1.entries =
         assocErase ck st.entries ++
           [(ck,
             { e with
                 last_accessed := now,
                 access_count := e.access_count + 1 })])) := by
  rcases hfl : st.trie.findLongest ts with ⟨ml, ko⟩
  rw [CacheManager.lookup, hfl]
  dsimp only
  cases ko with
  | none =>
    refine ⟨rfl, rfl, fun _ => ⟨rfl, rfl⟩, ?_⟩
    intro ck e hck
    cases hck
  | some ck =>
    dsimp only
    by_cases hml : (ml : Int) < st.config.min_prefix_length
    · rw [if_pos hml]
      refine ⟨rfl, rfl, fun _ => ⟨rfl, rfl⟩, ?_⟩
      intro ck' e' hck' hnml
      injection hck' with hck'
      subst hck'
      exact absurd hml hnml
    · rw [if_neg hml]
      cases hfe : assocFind ck st.entries with
      | none =>
        dsimp only
        refine ⟨rfl, rfl, fun _ => ⟨rfl, rfl⟩, ?_⟩
        intro ck' e' hck' hnml hfe'
        injection hck' with hck'
        subst hck'
        rw [hfe] at hfe'
        cases hfe'
      | some e =>
        dsimp only
        by_cases hexp : st.isExpired now e = true
        · split
          · rw [CacheManager.evictEntry]
            dsimp only
            rw [hfe]
            dsimp only
            refine ⟨rfl, rfl, fun _ => ⟨rfl, rfl⟩, ?_⟩
            intro ck' e' hck' hnml hfe' hexp'
            injection hck' with hck'
            subst hck'
            rw [hfe] at hfe'
            injection hfe' with hfe'
            subst hfe'
            rw [hexp] at hexp'
            cases hexp'
          · next hcond =>
              exact absurd hexp hcond
        · have hexp0 : st.isExpired now e = false := by
            cases h : st.isExpired now e with
            | false => rfl
            | true => exact absurd h hexp
          split
          · next hcond =>
              have : st.isExpired now e = true := hcond
              rw [hexp0] at this
              cases this
          · refine ⟨rfl, rfl, ?_, ?_⟩
            · intro hM
              rcases hM with h | h | ⟨ck', h1, h2⟩ | ⟨ck', e', h1, h2, h3⟩
              · cases h
              · exact absurd h hml
              · injection h1 with h1
                subst h1
                rw [hfe] at h2
                cases h2
              · injection h1 with h1
                subst h1
                rw [hfe] at h2
                injection h2 with h2
                subst h2
                rw [hexp0] at h3
                cases h3
            · intro ck' e' hck' hnml hfe' hexp'
              injection hck' with hck'
              subst hck'
              rw [hfe] at hfe'
              injection hfe' with hfe'
              subst hfe'
              exact ⟨rfl, rfl, rfl⟩

/-- C5 witness: a concrete hit. -/
theorem C5_lookup_behavior_witness :
    (wSt.lookup 2 [1, 2]).2 =
      { matched_tokens := [1, 2], matched_length := 2, total_length := 2,
        cache_key := "K", remaining_tokens := [], hit := true } ∧
    (wSt.lookup 2 [1, 2]).1.stats.cache_hits = 1 ∧
    (wSt.lookup 2 [1, 2]).1.stats.total_lookups = 1 := by
  have hexp : wSt.isExpired 2 wEntry = false := by
    rw [CacheManager.isExpired]
    rw [if_neg (by norm_num [wSt])]
    simp only [decide_eq_false_iff_not]
    norm_num [wSt, wEntry]
  have h := C5_lookup_behavior wSt 2 [1, 2]
  have hhit := h.2.2.2 "K" wEntry (by rw [wSt_find]) (by rw [wSt_find]; decide)
    (by decide) hexp
  refine ⟨?_, ?_, ?_⟩
  · rw [hhit.1, wSt_find]
    decide
  · rw [hhit.2.1]
    decide
  · rw [h.1]
    decide

theorem assocFind_append {α β : Type} [DecidableEq α] (k : α) (l1 l2 : List (α × β)) :
    assocFind k (l1 ++ l2) =
      match assocFind k l1 with
      | some v => some v
      | none => assocFind k l2 := by
  induction l1 with
  | nil => rfl
  | cons p rest ih =>
    obtain ⟨a, b⟩ := p
    by_cases h : a = k
    · simp [assocFind, h]
    · simp only [List.cons_append, assocFind, if_neg h]
      exact ih

theorem mmAdd_mem (q q' : List Int) (i i' : Nat) (mm : List (List Int × List Nat)) :
    i' ∈ (assocFind q' (mmAdd q i mm)).getD [] ↔
      (i' ∈ (assocFind q' mm).getD [] ∨ (q' = q ∧ i' = i)) := by
  rw [mmAdd]
  cases hf : assocFind q mm with
  | none =>
    rw [assocFind_append]
    by_cases hq : q' = q
    · subst hq
      rw [hf]
      simp [assocFind]
    · have hqq : ¬ q = q' := fun hh => hq hh.symm
      have h2 : assocFind q' ([(q, [i])] : List (List Int × List Nat)) = none := by
        simp [assocFind, hqq]
      cases h3 : assocFind q' mm with
      | none => simp [h2, hq]
      | some v => simp [hq]
  | some l =>
    by_cases hq : q' = q
    · subst hq
      rw [assocFind_assocSet_self, hf]
      simp [List.mem_append]
    · rw [assocFind_assocSet_ne _ mm hq]
      simp [hq]

theorem foldl_mmAdd_mem (s : List Int) (idx : Nat) :
    ∀ (ls : List Nat) (mm : List (List Int × List Nat)) (q : List Int) (i' : Nat),
      i' ∈ (assocFind q (ls.foldl (fun acc l => mmAdd (List.take l s) idx acc) mm)).getD [] ↔
        (i' ∈ (assocFind q mm).getD [] ∨ (i' = idx ∧ ∃ l, l ∈ ls ∧ q = s.take l)) := by
  intro ls
  induction ls with
  | nil =>
    intro mm q i'
    simp
  | cons l ls ih =>
    intro mm q i'
    rw [List.foldl_cons, ih (mmAdd (s.take l) idx mm) q i', mmAdd_mem]
    constructor
    · rintro ((h | ⟨hq, hi⟩) | ⟨hi, l', hl', hq⟩)
      · exact Or.inl h
      · exact Or.inr ⟨hi, l, List.mem_cons_self l ls, hq⟩
      · exact Or.inr ⟨hi, l', List.mem_cons_of_mem l hl', hq⟩
    · rintro (h | ⟨hi, l', hl', hq⟩)
      · exact Or.inl (Or.inl h)
      · rcases List.mem_cons.mp hl' with h0 | h0
        · subst h0
          exact Or.inl (Or.inr ⟨hq, hi⟩)
        · exact Or.inr ⟨hi, l', h0, hq⟩

theorem descLengths_mem (hi lo l : Nat) : l ∈ descLengths hi lo ↔ lo ≤ l ∧ l ≤ hi := by
  rw [descLengths, List.mem_reverse, List.mem_range'_1]
  omega

theorem mmAddSeq_mem (L idx : Nat) (s : List Int) (mm : List (List Int × List Nat))
    (q : List Int) (i' : Nat) :
    i' ∈ (assocFind q (mmAddSeq L idx s mm)).getD [] ↔
      (i' ∈ (assocFind q mm).getD [] ∨
        (i' = idx ∧ L ≤ q.length ∧ q.length ≤ s.length ∧ q = s.take q.length)) := by
  rw [mmAddSeq, foldl_mmAdd_mem]
  apply or_congr Iff.rfl
  apply and_congr Iff.rfl
  constructor
  · rintro ⟨l, hl, hq⟩
    rw [descLengths_mem] at hl
    have hlen : q.length = l := by
      rw [hq, List.length_take]
      omega
    refine ⟨by omega, by omega, by rw [hlen]; exact hq⟩
  · rintro ⟨h1, h2, h3⟩
    exact ⟨q.length, by rw [descLengths_mem]; exact ⟨h1, h2⟩, h3⟩

theorem buildMMGo_mem (L : Nat) :
    ∀ (ss : List (List Int)) (idx : Nat) (mm : List (List Int × List Nat))
      (q : List Int) (i' : Nat),
      i' ∈ (assocFind q (buildMMGo L idx ss mm)).getD [] ↔
        (i' ∈ (assocFind q mm).getD [] ∨
          ∃ j, j < ss.length ∧ i' = idx + j ∧ L ≤ q.length ∧
            q.length ≤ (ss.getD j []).length ∧ q = (ss.getD j []).take q.length) := by
  intro ss
  induction ss with
  | nil =>
    intro idx mm q i'
    rw [buildMMGo]
    simp
  | cons s ss ih =>
    intro idx mm q i'
    rw [buildMMGo, ih, mmAddSeq_mem]
    constructor
    · rintro ((h | ⟨hi, h1, h2, h3⟩) | ⟨j, hj, hi, h1, h2, h3⟩)
      · exact Or.inl h
      · exact Or.inr ⟨0, by simp, by omega, h1, by simpa using h2, by simpa using h3⟩
      · refine Or.inr ⟨j + 1, by simp; omega, by omega, h1, ?_, ?_⟩
        · simpa using h2
        · simpa using h3
    · rintro (h | ⟨j, hj, hi, h1, h2, h3⟩)
      · exact Or.inl (Or.inl h)
      · cases j with
        | zero =>
          refine Or.inl (Or.inr ⟨by omega, h1, ?_, ?_⟩)
          · simpa using h2
          · simpa using h3
        | succ j =>
          refine Or.inr ⟨j, by simp at hj; omega, by omega, h1, ?_, ?_⟩
          · simpa using h2
          · simpa using h3

theorem mmAdd_vals (q : List Int) (i : Nat) (mm : List (List Int × List Nat))
    (h : ∀ kv ∈ mm, kv.2 ≠ ([] : List Nat)) :
    ∀ kv ∈ mmAdd q i mm, kv.2 ≠ [] := by
  intro kv hkv
  rw [mmAdd] at hkv
  cases hf : assocFind q mm with
  | none =>
    rw [hf] at hkv
    rcases List.mem_append.mp hkv with h1 | h1
    · exact h kv h1
    · simp at h1
      rw [h1]
      simp
  | some l =>
    rw [hf] at hkv
    rcases mem_assocSet hkv with h1 | h1
    · rw [h1]
      simp
    · exact h kv h1

theorem foldl_mmAdd_vals (s : List Int) (idx : Nat) :
    ∀ (ls : List Nat) (mm : List (List Int × List Nat)),
      (∀ kv ∈ mm, kv.2 ≠ ([] : List Nat)) →
      ∀ kv ∈ ls.foldl (fun acc l => mmAdd (List.take l s) idx acc) mm, kv.2 ≠ [] := by
  intro ls
  induction ls with
  | nil =>
    intro mm h
    exact h
  | cons l ls ih =>
    intro mm h
    rw [List.foldl_cons]
    exact ih _ (mmAdd_vals _ _ _ h)

theorem buildMMGo_vals (L : Nat) :
    ∀ (ss : List (List Int)) (idx : Nat) (mm : List (List Int × List Nat)),
      (∀ kv ∈ mm, kv.2 ≠ ([] : List Nat)) →
      ∀ kv ∈ buildMMGo L idx ss mm, kv.2 ≠ [] := by
  intro ss
  induction ss with
  | nil =>
    intro idx mm h
    rw [buildMMGo]
    exact h
  | cons s ss ih =>
    intro idx mm h
    rw [buildMMGo]
    exact ih _ _ (foldl_mmAdd_vals s idx _ mm h)

theorem mm_keys_nonempty (mm : List (List Int × List Nat))
    (hvals : ∀ kv ∈ mm, kv.2 ≠ ([] : List Nat)) (q : List Int)
    (hq : q ∈ mm.map Prod.fst) : ∃ i, i ∈ (assocFind q mm).getD [] := by
  have hs := assocFind_isSome_of_mem hq
  cases hf : assocFind q mm with
  | none =>
    rw [hf] at hs
    cases hs
  | some v =>
    have hv : (q, v) ∈ mm := assocFind_mem hf
    have hne : v ≠ [] := hvals (q, v) hv
    cases v with
    | nil => exact absurd rfl hne
    | cons a as =>
      exact ⟨a, by simp⟩

theorem insertByLenDesc_mem (p a : List Int) :
    ∀ l, a ∈ insertByLenDesc p l ↔ (a = p ∨ a ∈ l) := by
  intro l
  induction l with
  | nil => simp [insertByLenDesc]
  | cons q qs ih =>
    rw [insertByLenDesc]
    by_cases h : q.length > p.length
    · rw [if_pos h]
      simp only [List.mem_cons, ih]
      tauto
    · rw [if_neg h]
      simp only [List.mem_cons]

theorem sortByLenDesc_mem (a : List Int) :
    ∀ l, a ∈ sortByLenDesc l ↔ a ∈ l := by
  intro l
  induction l with
  | nil => simp [sortByLenDesc]
  | cons p ps ih =>
    rw [sortByLenDesc, insertByLenDesc_mem]
    simp [ih]

theorem insertByLenDesc_pairwise (p : List Int) :
    ∀ l, l.Pairwise (fun a b => b.length ≤ a.length) →
      (insertByLenDesc p l).Pairwise (fun a b => b.length ≤ a.length) := by
  intro l
  induction l with
  | nil =>
    intro _
    simp [insertByLenDesc]
  | cons q qs ih =>
    intro h
    rw [List.pairwise_cons] at h
    obtain ⟨hq, hqs⟩ := h
    rw [insertByLenDesc]
    by_cases hlen : q.length > p.length
    · rw [if_pos hlen]
      rw [List.pairwise_cons]
      constructor
      · intro b hb
        rw [insertByLenDesc_mem] at hb
        rcases hb with hb | hb
        · rw [hb]
          omega
        · exact hq b hb
      · exact ih hqs
    · rw [if_neg hlen]
      rw [List.pairwise_cons]
      constructor
      · intro b hb
        rcases List.mem_cons.mp hb with hb | hb
        · rw [hb]
          omega
        · have := hq b hb
          omega
      · exact List.pairwise_cons.mpr ⟨hq, hqs⟩

theorem sortByLenDesc_pairwise :
    ∀ l, (sortByLenDesc l).Pairwise (fun a b => b.length ≤ a.length) := by
  intro l
  induction l with
  | nil => simp [sortByLenDesc]
  | cons p ps ih =>
    rw [sortByLenDesc]
    exact insertByLenDesc_pairwise p _ ih

theorem foldl_assocSet_find (v : Nat) :
    ∀ (u : List Nat) (asg : List (Nat × Nat)) (i : Nat),
      assocFind i (u.foldl (fun a j => assocSet j v a) asg) =
        if i ∈ u then some v else assocFind i asg := by
  intro u
  induction u with
  | nil =>
    intro asg i
    simp
  | cons j u ih =>
    intro asg i
    rw [List.foldl_cons, ih]
    by_cases hmem : i ∈ u
    · rw [if_pos hmem, if_pos (List.mem_cons.mpr (Or.inr hmem))]
    · rw [if_neg hmem]
      by_cases hij : i = j
      · subst hij
        rw [if_pos (List.mem_cons.mpr (Or.inl rfl)), assocFind_assocSet_self]
      · rw [assocFind_assocSet_ne _ _ hij, if_neg (by simp [hij, hmem])]

theorem passGo_inv (ckey : List Int → String) (mm : List (List Int × List Nat))
    (Q : List Int → Prop) :
    ∀ (ps : List (List Int)) (gs : List (String × List Nat)) (asg : List (Nat × Nat)),
      (∀ p ∈ ps, Q p) →
      (∀ g ∈ gs, 2 ≤ g.2.length ∧ ∃ p, Q p ∧ g.1 = (ckey p).take 8 ∧
        ∀ i ∈ g.2, i ∈ (assocFind p mm).getD [] ∧ assocFind i asg = some p.length) →
      ∀ g ∈ (passGo ckey mm ps gs asg).1, 2 ≤ g.2.length ∧ ∃ p, Q p ∧
        g.1 = (ckey p).take 8 ∧
        ∀ i ∈ g.2, i ∈ (assocFind p mm).getD [] ∧
          assocFind i (passGo ckey mm ps gs asg).2 = some p.length := by
  intro ps
  induction ps with
  | nil =>
    intro gs asg _ hinv
    rw [passGo]
    exact hinv
  | cons p rest ih =>
    intro gs asg hQ hinv
    rw [passGo]
    dsimp only
    by_cases h1 : ((assocFind p mm).getD []).length < 2
    · rw [if_pos h1]
      exact ih gs asg (fun p' hp' => hQ p' (List.mem_cons_of_mem _ hp')) hinv
    · rw [if_neg h1]
      by_cases h2 : (((assocFind p mm).getD []).filter
          (fun i => (assocFind i asg).isNone)).length < 2
      · rw [if_pos h2]
        exact ih gs asg (fun p' hp' => hQ p' (List.mem_cons_of_mem _ hp')) hinv
      · rw [if_neg h2]
        apply ih _ _ (fun p' hp' => hQ p' (List.mem_cons_of_mem _ hp'))
        intro g hg
        rcases mem_assocSet hg with hgeq | hgold
        · refine ⟨?_, p, hQ p (List.mem_cons_self p rest), ?_, ?_⟩
          · rw [hgeq]
            dsimp only
            omega
          · rw [hgeq]
          · intro i hi
            rw [hgeq] at hi
            dsimp only at hi
            refine ⟨List.mem_of_mem_filter hi, ?_⟩
            rw [foldl_assocSet_find, if_pos hi]
        · obtain ⟨hlen, p', hQp', hkey, hmem⟩ := hinv g hgold
          refine ⟨hlen, p', hQp', hkey, ?_⟩
          intro i hi
          obtain ⟨hiq, hia⟩ := hmem i hi
          refine ⟨hiq, ?_⟩
          rw [foldl_assocSet_find]
          rw [if_neg ?_]
          · exact hia
          · intro hiu
            have hnone : (assocFind i asg).isNone = true := by
              have := List.mem_filter.mp hiu
              exact this.2
            rw [hia] at hnone
            cases hnone

theorem savings_foldl (asg : List (Nat × Nat)) :
    ∀ (gs : List (String × List Nat)) (s0 : Int),
      gs.foldl (fun s g => if g.2.isEmpty then s
        else s - (g.2.map (fun i => (asgGet asg i : Int))).foldl max 0) s0 =
      s0 - (gs.map (fun g => if g.2.isEmpty then (0 : Int)
        else (g.2.map (fun i => (asgGet asg i : Int))).foldl max 0)).sum := by
  intro gs
  induction gs with
  | nil =>
    intro s0
    simp
  | cons g gs ih =>
    intro s0
    rw [List.foldl_cons, ih, List.map_cons, List.sum_cons]
    by_cases h : g.2.isEmpty
    · rw [if_pos h, if_pos h]
      omega
    · rw [if_neg h, if_neg h]
      omega

theorem analyzeBatchPure_cons (ckey : List Int → String) (L : Nat) (s : List Int)
    (ss : List (List Int)) :
    analyzeBatchPure ckey L (s :: ss) =
      { batch_size := (s :: ss).length,
        unique_prefixes := (passGo ckey (buildMMGo L 0 (s :: ss) [])
          (sortByLenDesc ((buildMMGo L 0 (s :: ss) []).map Prod.fst)) [] []).1.length,
        shared_prefix_groups := (passGo ckey (buildMMGo L 0 (s :: ss) [])
          (sortByLenDesc ((buildMMGo L 0 (s :: ss) []).map Prod.fst)) [] []).1,
        potential_savings_tokens := max 0
          ((passGo ckey (buildMMGo L 0 (s :: ss) [])
              (sortByLenDesc ((buildMMGo L 0 (s :: ss) []).map Prod.fst)) [] []).1.foldl
            (fun sv g => if g.2.isEmpty then sv
              else sv - (g.2.map (fun i =>
                (asgGet (passGo ckey (buildMMGo L 0 (s :: ss) [])
                  (sortByLenDesc ((buildMMGo L 0 (s :: ss) []).map Prod.fst)) [] []).2 i :
                  Int))).foldl max 0)
            (((List.range (s :: ss).length).map (fun i =>
              (asgGet (passGo ckey (buildMMGo L 0 (s :: ss) [])
                (sortByLenDesc ((buildMMGo L 0 (s :: ss) []).map Prod.fst)) [] []).2 i :
                Int))).sum)),
        total_tokens := ((s :: ss).map List.length).sum } := rfl

/-- C9: `analyze_batch` leaves the store untouched and is a pure function
of the batch and `min_prefix_length`; the multimap records exactly the
candidate prefixes (length between `min_prefix_length` and the sequence
length) of each batch index; candidates are processed in decreasing
length order; every reported group has at least two members, is keyed by
the first 8 characters of the content address of a candidate prefix, and
assigns that prefix's length to each member; `potential_savings_tokens`
is the clamped sum of assigned lengths minus each group's maximum. -/
theorem C9_analyze_batch (ckey : List Int → String) :
    (∀ (st : CacheManager) (seqs : List (List Int)),
      (CacheManager.analyzeBatch ckey st seqs).1 = st) ∧
    (∀ (st st' : CacheManager) (seqs : List (List Int)),
      st.config.min_prefix_length = st'.config.min_prefix_length →
      (CacheManager.analyzeBatch ckey st seqs).2
        = (CacheManager.analyzeBatch ckey st' seqs).2) ∧
    (∀ (L : Nat) (seqs : List (List Int)),
      (analyzeBatchPure ckey L seqs).batch_size = seqs.length ∧
      (analyzeBatchPure ckey L seqs).total_tokens = (seqs.map List.length).sum ∧
      (analyzeBatchPure ckey L seqs).unique_prefixes
        = (analyzeBatchPure ckey L seqs).shared_prefix_groups.length) ∧
    (∀ (L : Nat) (seqs : List (List Int)) (mm : List (List Int × List Nat))
       (sorted : List (List Int)) (gs : List (String × List Nat)) (asg : List (Nat × Nat)),
      seqs ≠ [] →
      mm = buildMMGo L 0 seqs [] →
      sorted = sortByLenDesc (mm.map Prod.fst) →
      (gs, asg) = passGo ckey mm sorted [] [] →
      ((∀ (q : List Int) (i : Nat), i ∈ (assocFind q mm).getD [] ↔
          (i < seqs.length ∧ L ≤ q.length ∧ q.length ≤ (seqs.getD i []).length ∧
            q = (seqs.getD i []).take q.length)) ∧
       (sorted.Pairwise (fun a b => b.length ≤ a.length) ∧
         ∀ p, p ∈ sorted ↔ p ∈ mm.map Prod.fst) ∧
       (analyzeBatchPure ckey L seqs).shared_prefix_groups = gs ∧
       (∀ g ∈ gs, 2 ≤ g.2.length ∧ ∃ p, p ∈ mm.map Prod.fst ∧ L ≤ p.length ∧
         g.1 = (ckey p).take 8 ∧
         ∀ i ∈ g.2, i ∈ (assocFind p mm).getD [] ∧ asgGet asg i = p.length) ∧
       (analyzeBatchPure ckey L seqs).potential_savings_tokens =
         max 0 ((((List.range seqs.length).map (fun i => (asgGet asg i : Int))).sum) -
           (gs.map (fun g =>
             (g.2.map (fun i => (asgGet asg i : Int))).foldl max 0)).sum))) := by
  refine ⟨fun st seqs => rfl, ?_, ?_, ?_⟩
  · intro st st' seqs h
    show analyzeBatchPure ckey st.config.min_prefix_length.toNat seqs
      = analyzeBatchPure ckey st'.config.min_prefix_length.toNat seqs
    rw [h]
  · intro L seqs
    cases seqs with
    | nil => exact ⟨rfl, rfl, rfl⟩
    | cons s ss => exact ⟨rfl, rfl, rfl⟩
  · intro L seqs mm sorted gs asg hne hmm hsorted hpass
    have hgs : gs = (passGo ckey mm sorted [] []).1 := by rw [← hpass]
    have hasg : asg = (passGo ckey mm sorted [] []).2 := by rw [← hpass]
    have hvals : ∀ kv ∈ mm, kv.2 ≠ ([] : List Nat) := by
      rw [hmm]
      exact buildMMGo_vals L seqs 0 [] (by simp)
    have hmem : ∀ (q : List Int) (i : Nat), i ∈ (assocFind q mm).getD [] ↔
        (i < seqs.length ∧ L ≤ q.length ∧ q.length ≤ (seqs.getD i []).length ∧
          q = (seqs.getD i []).take q.length) := by
      intro q i
      rw [hmm, buildMMGo_mem]
      simp only [assocFind, Option.getD_none, List.not_mem_nil, false_or, zero_add]
      constructor
      · rintro ⟨j, hj, hij, h1, h2, h3⟩
        subst hij
        exact ⟨hj, h1, h2, h3⟩
      · rintro ⟨hi, h1, h2, h3⟩
        exact ⟨i, hi, rfl, h1, h2, h3⟩
    have hQ : ∀ p ∈ sorted, p ∈ mm.map Prod.fst ∧ L ≤ p.length := by
      intro p hp
      rw [hsorted, sortByLenDesc_mem] at hp
      refine ⟨hp, ?_⟩
      obtain ⟨i, hi⟩ := mm_keys_nonempty mm hvals p hp
      exact ((hmem p i).mp hi).2.1
    have hinv := passGo_inv ckey mm (fun p => p ∈ mm.map Prod.fst ∧ L ≤ p.length)
      sorted [] [] hQ (by intro g hg; exact absurd hg (List.not_mem_nil g))
    have hsound : ∀ g ∈ gs, 2 ≤ g.2.length ∧ ∃ p, p ∈ mm.map Prod.fst ∧ L ≤ p.length ∧
        g.1 = (ckey p).take 8 ∧
        ∀ i ∈ g.2, i ∈ (assocFind p mm).getD [] ∧ asgGet asg i = p.length := by
      intro g hg
      rw [hgs] at hg
      obtain ⟨hlen, p, ⟨hpmm, hpL⟩, hkey, hmems⟩ := hinv g hg
      refine ⟨hlen, p, hpmm, hpL, hkey, ?_⟩
      intro i hi
      refine ⟨(hmems i hi).1, ?_⟩
      rw [asgGet, hasg, (hmems i hi).2]
      rfl
    refine ⟨hmem, ⟨by rw [hsorted]; exact sortByLenDesc_pairwise _,
      fun p => by rw [hsorted, sortByLenDesc_mem]⟩, ?_, hsound, ?_⟩
    · cases seqs with
      | nil => exact absurd rfl hne
      | cons s ss =>
        rw [analyzeBatchPure_cons]
        rw [hgs, hmm, hsorted, hmm]
    · cases seqs with
      | nil => exact absurd rfl hne
      | cons s ss =>
        rw [analyzeBatchPure_cons]
        have hrw : (passGo ckey (buildMMGo L 0 (s :: ss) [])
            (sortByLenDesc ((buildMMGo L 0 (s :: ss) []).map Prod.fst)) [] [])
            = passGo ckey mm sorted [] [] := by
          rw [hmm, hsorted, hmm]
        rw [hrw, ← hpass]
        rw [savings_foldl]
        have hmapeq : gs.map (fun g => if g.2.isEmpty then (0 : Int)
            else (g.2.map (fun i => (asgGet asg i : Int))).foldl max 0) =
            gs.map (fun g => (g.2.map (fun i => (asgGet asg i : Int))).foldl max 0) := by
          apply List.map_congr_left
          intro g hg
          have h2 := (hsound g hg).1
          have hne' : g.2 ≠ [] := by
            intro h0
            rw [h0] at h2
            simp at h2
          rw [if_neg (by simp [List.isEmpty_iff, hne'])]
        rw [hmapeq]

/-- C9 witness at a concrete batch. -/
theorem C9_analyze_batch_witness :
    (CacheManager.analyzeBatch (fun _ => "k") (CacheManager.init {}) [[1], [2]]).1
      = CacheManager.init {} ∧
    (analyzeBatchPure (fun _ => "k") 2 [[1, 2, 3], [1, 2, 4]]).potential_savings_tokens = 2 := by
  constructor
  · exact (C9_analyze_batch (fun _ => "k")).1 (CacheManager.init {}) [[1], [2]]
  · have h := (C9_analyze_batch (fun _ => "k")).2.2.2 2 [[1, 2, 3], [1, 2, 4]]
      (buildMMGo 2 0 [[1, 2, 3], [1, 2, 4]] [])
      (sortByLenDesc ((buildMMGo 2 0 [[1, 2, 3], [1, 2, 4]] []).map Prod.fst))
      (passGo (fun _ => "k") (buildMMGo 2 0 [[1, 2, 3], [1, 2, 4]] [])
        (sortByLenDesc ((buildMMGo 2 0 [[1, 2, 3], [1, 2, 4]] []).map Prod.fst)) [] []).1
      (passGo (fun _ => "k") (buildMMGo 2 0 [[1, 2, 3], [1, 2, 4]] [])
        (sortByLenDesc ((buildMMGo 2 0 [[1, 2, 3], [1, 2, 4]] []).map Prod.fst)) [] []).2
      (by decide) rfl rfl rfl
    rw [h.2.2.2.2]
    decide

/-- Sum of `memory_bytes` over the metadata map. -/
def entriesBytes (l : List (String × CacheEntry)) : Int :=
  (l.map (fun p => p.2.memory_bytes)).sum

theorem entriesBytes_append (l1 l2 : List (String × CacheEntry)) :
    entriesBytes (l1 ++ l2) = entriesBytes l1 + entriesBytes l2 := by
  rw [entriesBytes, entriesBytes, entriesBytes, List.map_append, List.sum_append]

theorem entriesBytes_cons (p : String × CacheEntry) (l : List (String × CacheEntry)) :
    entriesBytes (p :: l) = p.2.memory_bytes + entriesBytes l := by
  rw [entriesBytes, entriesBytes, List.map_cons, List.sum_cons]

/-- The store/index synchrony invariant: a well-formed index, exact byte
accounting, map size = terminal-marker count, distinct keys, and a
bijective correspondence between map entries and terminal markers. -/
def Inv (ckey : List Int → String) (st : CacheManager) : Prop :=
  trieWF st.trie = true ∧
  st.total_memory_bytes = entriesBytes st.entries ∧
  st.entries.length = countTerminals st.trie.root ∧
  (st.entries.map Prod.fst).Nodup ∧
  (∀ p ∈ st.entries, p.2.tokens ≠ [] ∧ p.1 = ckey p.2.tokens ∧
    exactMarker st.trie.root p.2.tokens = some p.1) ∧
  (∀ q k, exactMarker st.trie.root q = some k →
    ∃ e, assocFind k st.entries = some e ∧ e.tokens = q)

theorem assocErase_keys_ne {ck : String} {e : CacheEntry}
    {l : List (String × CacheEntry)} (hnodup : (l.map Prod.fst).Nodup)
    (hfind : assocFind ck l = some e) :
    ∀ p ∈ assocErase ck l, p.1 ≠ ck := by
  obtain ⟨l1, l2, hdec, herase, hl1⟩ := assocErase_decomp hfind
  subst hdec
  rw [herase]
  intro p hp
  rcases List.mem_append.mp hp with h | h
  · exact hl1 p h
  · intro hpk
    have hmem : ck ∈ l2.map Prod.fst := by
      rw [← hpk]
      exact List.mem_map_of_mem Prod.fst h
    rw [List.map_append, List.map_cons] at hnodup
    have h2 : (ck :: l2.map Prod.fst).Nodup :=
      hnodup.sublist (List.sublist_append_right _ _)
    exact (List.nodup_cons.mp h2).1 hmem

theorem assocFind_none_sublist {α β : Type} [DecidableEq α] {k : α}
    {l1 l2 : List (α × β)} (hsub : l1.Sublist l2) (h : assocFind k l2 = none) :
    assocFind k l1 = none := by
  rw [assocFind_eq_none_iff] at h ⊢
  intro hmem
  exact h ((hsub.map Prod.fst).subset hmem)

theorem Inv_evictEntry (ckey : List Int → String) (st : CacheManager) (ck : String)
    (hInv : Inv ckey st) :
    Inv ckey (st.evictEntry ck).1 ∧ (st.evictEntry ck).1.config = st.config ∧
    (st.evictEntry ck).1.entries.Sublist st.entries ∧
    ((∀ p ∈ st.entries, 0 ≤ p.2.memory_bytes) →
      (st.evictEntry ck).1.total_memory_bytes ≤ st.total_memory_bytes) := by
  obtain ⟨hwf, hbytes, hcount, hnodup, hfwd, hbwd⟩ := hInv
  cases hfe : assocFind ck st.entries with
  | none =>
    simp only [CacheManager.evictEntry, hfe]
    exact ⟨⟨hwf, hbytes, hcount, hnodup, hfwd, hbwd⟩, trivial, List.Sublist.refl _,
      fun _ => le_refl _⟩
  | some e =>
    obtain ⟨htne, hkey, hmark⟩ := hfwd (ck, e) (assocFind_mem hfe)
    have hrm : removeGo st.trie.root e.tokens ≠ none := by
      intro h0
      rw [removeGo_none_iff] at h0
      rw [hmark] at h0
      cases h0
    obtain ⟨root', hroot'⟩ : ∃ n', removeGo st.trie.root e.tokens = some n' := by
      cases h : removeGo st.trie.root e.tokens with
      | none => exact absurd h hrm
      | some n' => exact ⟨n', rfl⟩
    have hremove : st.trie.remove e.tokens = (⟨root', st.trie.size - 1⟩, true) := by
      cases het : e.tokens with
      | nil => exact absurd het htne
      | cons a as =>
        rw [het] at hroot'
        rw [RadixTrie.remove, hroot']
    simp only [CacheManager.evictEntry, hfe]
    refine ⟨⟨?_, ?_, ?_, ?_, ?_, ?_⟩, trivial, ?_, ?_⟩
    · show trieWF (st.trie.remove e.tokens).1 = true
      rw [hremove]
      exact nodeWF_removeGo _ _ root' hroot' hwf
    · show st.total_memory_bytes - e.memory_bytes = entriesBytes (assocErase ck st.entries)
      obtain ⟨l1, l2, hdec, her, hl1⟩ := assocErase_decomp hfe
      rw [her, hbytes, hdec, entriesBytes_append, entriesBytes_append, entriesBytes_cons]
      ring
    · show (assocErase ck st.entries).length = countTerminals (st.trie.remove e.tokens).1.root
      rw [hremove]
      show (assocErase ck st.entries).length = countTerminals root'
      have h1 := assocErase_length hfe
      have h2 := removeGo_count _ _ root' hroot'
      omega
    · show ((assocErase ck st.entries).map Prod.fst).Nodup
      exact hnodup.sublist ((assocErase_sublist ck st.entries).map Prod.fst)
    · intro p hp
      have hporig : p ∈ st.entries := (assocErase_sublist ck st.entries).subset hp
      obtain ⟨ht, hk, hm⟩ := hfwd p hporig
      refine ⟨ht, hk, ?_⟩
      show exactMarker (st.trie.remove e.tokens).1.root p.2.tokens = some p.1
      rw [hremove]
      show exactMarker root' p.2.tokens = some p.1
      by_cases hte : p.2.tokens = e.tokens
      · exfalso
        rw [hte, hmark] at hm
        injection hm with hm
        exact (assocErase_keys_ne hnodup hfe p hp) hm.symm
      · rw [removeGo_exactMarker_ne _ _ root' hroot' _ hte]
        exact hm
    · intro q k hq
      have hq' : exactMarker root' q = some k := by
        have hq2 : exactMarker (st.trie.remove e.tokens).1.root q = some k := hq
        rw [hremove] at hq2
        exact hq2
      by_cases hqe : q = e.tokens
      · exfalso
        rw [hqe, removeGo_exactMarker_self _ _ root' hroot'] at hq'
        cases hq'
      · rw [removeGo_exactMarker_ne _ _ root' hroot' _ hqe] at hq'
        obtain ⟨e', hfind', htok'⟩ := hbwd q k hq'
        refine ⟨e', ?_, htok'⟩
        show assocFind k (assocErase ck st.entries) = some e'
        have hkck : k ≠ ck := by
          intro h0
          subst h0
          rw [hfe] at hfind'
          injection hfind' with hfind'
          rw [← hfind'] at htok'
          exact hqe htok'.symm
        rw [assocFind_assocErase_ne _ hkck]
        exact hfind'
    · show (assocErase ck st.entries).Sublist st.entries
      exact assocErase_sublist ck st.entries
    · intro hnn
      show st.total_memory_bytes - e.memory_bytes ≤ st.total_memory_bytes
      have h0 : 0 ≤ e.memory_bytes := hnn (ck, e) (assocFind_mem hfe)
      omega

theorem Inv_clear (ckey : List Int → String) (st : CacheManager) :
    Inv ckey st.clear ∧ st.clear.config = st.config := by
  refine ⟨⟨?_, ?_, ?_, ?_, ?_, ?_⟩, rfl⟩
  · rfl
  · rfl
  · rfl
  · show (([] : List (String × CacheEntry)).map Prod.fst).Nodup
    simp
  · intro p hp
    exact absurd hp (List.not_mem_nil p)
  · intro q k hq
    have hq' : exactMarker RadixTrie.empty.root q = some k := hq
    rw [exactMarker_emptyRoot] at hq'
    cases hq'

theorem Inv_init (ckey : List Int → String) (cfg : CacheConfig) :
    Inv ckey (CacheManager.init cfg) := by
  refine ⟨?_, ?_, ?_, ?_, ?_, ?_⟩
  · rfl
  · rfl
  · rfl
  · show (([] : List (String × CacheEntry)).map Prod.fst).Nodup
    simp
  · intro p hp
    exact absurd hp (List.not_mem_nil p)
  · intro q k hq
    have hq' : exactMarker RadixTrie.empty.root q = some k := hq
    rw [exactMarker_emptyRoot] at hq'
    cases hq'

theorem Inv_evictOne (ckey : List Int → String) (st : CacheManager)
    (hInv : Inv ckey st) :
    Inv ckey st.evictOne ∧ st.evictOne.config = st.config ∧
    st.evictOne.entries.Sublist st.entries ∧
    ((∀ p ∈ st.entries, 0 ≤ p.2.memory_bytes) →
      st.evictOne.total_memory_bytes ≤ st.total_memory_bytes) := by
  cases hent : st.entries with
  | nil =>
    rw [CacheManager.evictOne, hent]
    exact ⟨hInv, rfl, by rw [hent], fun _ => le_refl _⟩
  | cons p rest =>
    obtain ⟨k0, e0⟩ := p
    rw [CacheManager.evictOne, hent]
    dsimp only
    by_cases hp1 : st.config.eviction_policy = "lru"
    · rw [if_pos hp1]
      have h := Inv_evictEntry ckey st k0 hInv
      refine ⟨h.1, h.2.1, ?_, ?_⟩
      · rw [← hent]
        exact h.2.2.1
      · rw [← hent]
        exact h.2.2.2
    · rw [if_neg hp1]
      by_cases hp2 : st.config.eviction_policy = "lfu"
      · rw [if_pos hp2]
        have h := Inv_evictEntry ckey st (lfuMinKey k0 e0.access_count rest) hInv
        refine ⟨h.1, h.2.1, ?_, ?_⟩
        · rw [← hent]
          exact h.2.2.1
        · rw [← hent]
          exact h.2.2.2
      · rw [if_neg hp2]
        refine ⟨hInv, rfl, ?_, ?_⟩
        · rw [← hent]
        · rw [← hent]
          exact fun _ => le_refl _

theorem capCond_false (needed maxBytes maxEntries : Int) (st : CacheManager)
    (h : ((decide ((st.entries.length : Int) ≥ maxEntries) ||
        decide (st.total_memory_bytes + needed > maxBytes)) && !st.entries.isEmpty) = false) :
    (((st.entries.length : Int) < maxEntries ∧
      st.total_memory_bytes + needed ≤ maxBytes) ∨ st.entries = []) := by
  rcases Bool.and_eq_false_iff.mp h with h1 | h1
  · rcases Bool.or_eq_false_iff.mp h1 with ⟨h2, h3⟩
    rw [decide_eq_false_iff_not] at h2 h3
    left
    exact ⟨by omega, by omega⟩
  · right
    have h2 : st.entries.isEmpty = true := by
      cases he : st.entries.isEmpty with
      | true => rfl
      | false => rw [he] at h1; cases h1
    exact List.isEmpty_iff.mp h2

theorem Inv_ensureCapacityGo (ckey : List Int → String) (needed maxBytes maxEntries : Int) :
    ∀ (remaining : Nat) (st : CacheManager), Inv ckey st →
      ∀ st', ensureCapacityGo needed maxBytes maxEntries remaining st = .ok st' →
        Inv ckey st' ∧ st'.config = st.config ∧
        st'.entries.Sublist st.entries ∧
        ((∀ p ∈ st.entries, 0 ≤ p.2.memory_bytes) →
          st'.total_memory_bytes ≤ st.total_memory_bytes) ∧
        ((((st'.entries.length : Int) < maxEntries ∧
          st'.total_memory_bytes + needed ≤ maxBytes) ∨ st'.entries = [])) := by
  intro remaining
  induction remaining with
  | zero =>
    intro st hInv st' hok
    rw [ensureCapacityGo] at hok
    cases hcond : ((decide ((st.entries.length : Int) ≥ maxEntries) ||
        decide (st.total_memory_bytes + needed > maxBytes)) && !st.entries.isEmpty) with
    | true =>
      rw [if_pos hcond] at hok
      cases hok
    | false =>
      rw [if_neg (by rw [hcond]; decide)] at hok
      injection hok with hok
      subst hok
      exact ⟨hInv, rfl, List.Sublist.refl _, fun _ => le_refl _,
        capCond_false needed maxBytes maxEntries st hcond⟩
  | succ r ih =>
    intro st hInv st' hok
    rw [ensureCapacityGo] at hok
    cases hcond : ((decide ((st.entries.length : Int) ≥ maxEntries) ||
        decide (st.total_memory_bytes + needed > maxBytes)) && !st.entries.isEmpty) with
    | true =>
      rw [if_pos hcond] at hok
      obtain ⟨hI1, hc1, hs1, ht1⟩ := Inv_evictOne ckey st hInv
      obtain ⟨hI2, hc2, hs2, ht2, hexit⟩ := ih st.evictOne hI1 st' hok
      refine ⟨hI2, by rw [hc2, hc1], hs2.trans hs1, ?_, hexit⟩
      intro hnn
      have hnn1 : ∀ p ∈ st.evictOne.entries, 0 ≤ p.2.memory_bytes :=
        fun p hp => hnn p (hs1.subset hp)
      exact le_trans (ht2 hnn1) (ht1 hnn)
    | false =>
      rw [if_neg (by rw [hcond]; decide)] at hok
      injection hok with hok
      subst hok
      exact ⟨hInv, rfl, List.Sublist.refl _, fun _ => le_refl _,
        capCond_false needed maxBytes maxEntries st hcond⟩

theorem Inv_entries_touch (ckey : List Int → String) (st st' : CacheManager)
    (ck : String) (entry entry' : CacheEntry)
    (hfe : assocFind ck st.entries = some entry)
    (htok : entry'.tokens = entry.tokens)
    (hmb : entry'.memory_bytes = entry.memory_bytes)
    (h1 : st'.trie = st.trie)
    (h2 : st'.entries = assocErase ck st.entries ++ [(ck, entry')])
    (h3 : st'.total_memory_bytes = st.total_memory_bytes)
    (hInv : Inv ckey st) : Inv ckey st' := by
  obtain ⟨hwf, hbytes, hcount, hnodup, hfwd, hbwd⟩ := hInv
  obtain ⟨htne, hkey, hmark⟩ := hfwd (ck, entry) (assocFind_mem hfe)
  have hkeysne := assocErase_keys_ne hnodup hfe
  obtain ⟨l1, l2, hdec, her, hl1⟩ := assocErase_decomp hfe
  refine ⟨?_, ?_, ?_, ?_, ?_, ?_⟩
  · rw [h1]
    exact hwf
  · rw [h3, h2, her, hbytes, hdec]
    rw [entriesBytes_append, entriesBytes_append, entriesBytes_append,
      entriesBytes_cons, entriesBytes_cons]
    dsimp only
    rw [hmb]
    rw [show entriesBytes [] = 0 from rfl]
    ring
  · rw [h2, h1, List.length_append, List.length_singleton]
    have hel := assocErase_length hfe
    omega
  · rw [h2, List.map_append, List.map_cons, List.map_nil]
    apply List.Nodup.append
    · exact hnodup.sublist ((assocErase_sublist ck st.entries).map Prod.fst)
    · simp
    · intro a ha hb
      simp at hb
      subst hb
      obtain ⟨p, hp, hp1⟩ := List.mem_map.mp ha
      exact hkeysne p hp hp1
  · intro p hp
    rw [h2] at hp
    rcases List.mem_append.mp hp with hp' | hp'
    · have hporig : p ∈ st.entries := (assocErase_sublist ck st.entries).subset hp'
      obtain ⟨ht, hk, hm⟩ := hfwd p hporig
      rw [h1]
      exact ⟨ht, hk, hm⟩
    · simp at hp'
      subst hp'
      have htne' : entry.tokens ≠ [] := htne
      have hkey' : ck = ckey entry.tokens := hkey
      have hmark' : exactMarker st.trie.root entry.tokens = some ck := hmark
      dsimp only
      rw [htok, h1]
      exact ⟨htne', hkey', hmark'⟩
  · intro q k hq
    rw [h1] at hq
    obtain ⟨e', hfind', htok'⟩ := hbwd q k hq
    rw [h2]
    by_cases hck : k = ck
    · subst hck
      rw [hfe] at hfind'
      injection hfind' with hfind'
      subst hfind'
      refine ⟨entry', ?_, by rw [htok]; exact htok'⟩
      rw [assocFind_append, assocFind_eq_none (fun p hp => hkeysne p hp)]
      simp [assocFind]
    · refine ⟨e', ?_, htok'⟩
      rw [assocFind_append, assocFind_assocErase_ne _ hck, hfind']

/-- The effective byte footprint a `store` call assigns a new entry. -/
def effBytes (tokens : List Int) (mb : Int) : Int :=
  if mb = 0 then (tokens.length : Int) * BYTES_PER_TOKEN_DEFAULT else mb

theorem store_entry_bytes (tokens : List Int) (kv : Option Unit) (mb : Int)
    (now : Rat) (ck : String) (hne : tokens ≠ []) :
    (CacheEntry.postInit
      { cache_key := ck, tokens := tokens, kv_data := kv,
        memory_bytes :=
          if mb = 0 then (tokens.length : Int) * BYTES_PER_TOKEN_DEFAULT
          else mb } now).memory_bytes = effBytes tokens mb := by
  rw [postInit_memory_bytes, effBytes]
  dsimp only
  by_cases h0 : mb = 0
  · rw [if_pos h0]
    have hlen : 1 ≤ tokens.length := by
      cases tokens with
      | nil => exact absurd rfl hne
      | cons a as => simp
    have hpos : (0 : Int) < (tokens.length : Int) * BYTES_PER_TOKEN_DEFAULT := by
      rw [BYTES_PER_TOKEN_DEFAULT]
      have h1 : (1 : Int) ≤ (tokens.length : Int) := by exact_mod_cast hlen
      nlinarith
    have hne0 : ¬((tokens.length : Int) * BYTES_PER_TOKEN_DEFAULT = 0) := by
      intro h
      rw [h] at hpos
      exact lt_irrefl 0 hpos
    rw [if_neg hne0]
  · rw [if_neg h0]
    rw [if_neg h0]

theorem insert_root_of_ne (tr : RadixTrie) (ts : List Int) (k : String) (h : ts ≠ []) :
    (tr.insert ts k).root = (insertGo k ts.length tr.root ts).1 := by
  cases ts with
  | nil => exact absurd rfl h
  | cons a as => rfl

theorem Inv_store (ckey : List Int → String) (st : CacheManager) (now : Rat)
    (tokens : List Int) (kv : Option Unit) (mb : Int)
    (hmin : 1 ≤ st.config.min_prefix_length) (hInv : Inv ckey st) :
    ∀ r, CacheManager.store ckey st now tokens kv mb = .ok r →
      Inv ckey r.1 ∧ r.1.config = st.config ∧
      (((∀ p ∈ st.entries, 0 ≤ p.2.memory_bytes) ∧ 0 ≤ effBytes tokens mb) →
        ∀ p ∈ r.1.entries, 0 ≤ p.2.memory_bytes) ∧
      ((1 ≤ st.config.max_entries ∧
        (st.entries.length : Int) ≤ st.config.max_entries ∧
        st.total_memory_bytes ≤ maxMemoryBytes st.config ∧
        (∀ p ∈ st.entries, 0 ≤ p.2.memory_bytes) ∧
        0 ≤ effBytes tokens mb ∧ effBytes tokens mb ≤ maxMemoryBytes st.config) →
        ((r.1.entries.length : Int) ≤ st.config.max_entries ∧
          r.1.total_memory_bytes ≤ maxMemoryBytes st.config)) := by
  intro r hok
  rw [CacheManager.store] at hok
  by_cases hshort : (tokens.length : Int) < st.config.min_prefix_length
  · rw [if_pos hshort] at hok
    injection hok with hok
    subst hok
    exact ⟨hInv, rfl, fun h => h.1, fun h => ⟨h.2.1, h.2.2.1⟩⟩
  · rw [if_neg hshort] at hok
    dsimp only at hok
    have htoknil : tokens ≠ [] := by
      intro h0
      rw [h0] at hshort
      apply hshort
      simp only [List.length_nil, Nat.cast_zero]
      omega
    cases hfe : assocFind (ckey tokens) st.entries with
    | some entry =>
      rw [hfe] at hok
      injection hok with hok
      subst hok
      refine ⟨?_, rfl, ?_, ?_⟩
      · exact Inv_entries_touch ckey st _ (ckey tokens) entry
          { entry with
              last_accessed := now,
              access_count := entry.access_count + 1 }
          hfe rfl rfl rfl rfl rfl hInv
      · intro hh p hp
        have hp' : p ∈ assocErase (ckey tokens) st.entries ++
            [(ckey tokens,
              { entry with
                  last_accessed := now,
                  access_count := entry.access_count + 1 })] := hp
        rcases List.mem_append.mp hp' with h | h
        · exact hh.1 p ((assocErase_sublist _ _).subset h)
        · simp only [List.mem_singleton] at h
          subst h
          exact hh.1 (ckey tokens, entry) (assocFind_mem hfe)
      · intro hh
        have hel := assocErase_length hfe
        constructor
        · show ((assocErase (ckey tokens) st.entries ++
            [(ckey tokens,
              { entry with
                  last_accessed := now,
                  access_count := entry.access_count + 1 })]).length : Int) ≤
            st.config.max_entries
          rw [List.length_append, List.length_singleton]
          have hh21 := hh.2.1
          push_cast
          push_cast at hh21 hel
          omega
        · exact hh.2.2.1
    | none =>
      rw [hfe] at hok
      cases hcap : st.ensureCapacity (CacheEntry.postInit
          { cache_key := ckey tokens, tokens := tokens, kv_data := kv,
            memory_bytes :=
              if mb = 0 then (tokens.length : Int) * BYTES_PER_TOKEN_DEFAULT
              else mb } now).memory_bytes with
      | error ec =>
        rw [hcap] at hok
        cases hok
      | ok st2 =>
        rw [hcap] at hok
        injection hok with hok
        subst hok
        rw [CacheManager.ensureCapacity] at hcap
        obtain ⟨hInv2, hcfg2, hsub2, htot2, hexit⟩ :=
          Inv_ensureCapacityGo ckey _ (maxMemoryBytes st.config) st.config.max_entries
            (st.entries.length + 1) st hInv st2 hcap
        have hfe2 : assocFind (ckey tokens) st2.entries = none :=
          assocFind_none_sublist hsub2 hfe
        have hbytesE := store_entry_bytes tokens kv mb now (ckey tokens) htoknil
        obtain ⟨hwf2, hbytes2, hcount2, hnodup2, hfwd2, hbwd2⟩ := hInv2
        have hmark2 : exactMarker st2.trie.root tokens = none := by
          cases hm : exactMarker st2.trie.root tokens with
          | none => rfl
          | some k' =>
            exfalso
            obtain ⟨e', hfind', htok'⟩ := hbwd2 tokens k' hm
            obtain ⟨_, hk', _⟩ := hfwd2 (k', e') (assocFind_mem hfind')
            have hk'' : k' = ckey e'.tokens := hk'
            rw [htok'] at hk''
            rw [hk'', hfe2] at hfind'
            cases hfind'
        have hroot : (st2.trie.insert tokens (ckey tokens)).root
            = (insertGo (ckey tokens) tokens.length st2.trie.root tokens).1 :=
          insert_root_of_ne _ _ _ htoknil
        have hflag : (insertGo (ckey tokens) tokens.length st2.trie.root tokens).2 = true := by
          rw [insertGo_flag, hmark2]
          rfl
        have hetok : (CacheEntry.postInit
            { cache_key := ckey tokens, tokens := tokens, kv_data := kv,
              memory_bytes :=
                if mb = 0 then (tokens.length : Int) * BYTES_PER_TOKEN_DEFAULT
                else mb } now).tokens = tokens := rfl
        have heck : (CacheEntry.postInit
            { cache_key := ckey tokens, tokens := tokens, kv_data := kv,
              memory_bytes :=
                if mb = 0 then (tokens.length : Int) * BYTES_PER_TOKEN_DEFAULT
                else mb } now).cache_key = ckey tokens := rfl
        refine ⟨⟨?_, ?_, ?_, ?_, ?_, ?_⟩, hcfg2.trans rfl, ?_, ?_⟩
        · show trieWF (st2.trie.insert tokens (ckey tokens)) = true
          show nodeWF (st2.trie.insert tokens (ckey tokens)).root = true
          rw [hroot]
          exact nodeWF_insertGo _ _ _ _ hwf2
        · show st2.total_memory_bytes + _ = entriesBytes (st2.entries ++ [_])
          rw [entriesBytes_append, entriesBytes_cons,
            show entriesBytes [] = 0 from rfl, hbytes2]
          dsimp only
          ring
        · show (st2.entries ++ [_]).length
            = countTerminals (st2.trie.insert tokens (ckey tokens)).root
          rw [List.length_append, List.length_singleton, hroot,
            countTerminals_insertGo, hflag]
          simp only [if_true]
          omega
        · show ((st2.entries ++ [_]).map Prod.fst).Nodup
          rw [List.map_append, List.map_cons, List.map_nil]
          apply List.Nodup.append hnodup2 (by simp)
          intro a ha hb
          simp only [List.mem_singleton] at hb
          subst hb
          exact (assocFind_eq_none_iff.mp hfe2) ha
        · intro p hp
          rcases List.mem_append.mp hp with hp' | hp'
          · obtain ⟨ht, hk, hm⟩ := hfwd2 p hp'
            refine ⟨ht, hk, ?_⟩
            show exactMarker (st2.trie.insert tokens (ckey tokens)).root p.2.tokens = some p.1
            rw [hroot]
            by_cases hte : p.2.tokens = tokens
            · exfalso
              rw [hte, hmark2] at hm
              cases hm
            · rw [exactMarker_insertGo_ne _ _ _ _ _ hte]
              exact hm
          · simp only [List.mem_singleton] at hp'
            subst hp'
            refine ⟨?_, ?_, ?_⟩
            · show (CacheEntry.postInit _ now).tokens ≠ []
              rw [hetok]
              exact htoknil
            · show ckey tokens = ckey (CacheEntry.postInit _ now).tokens
              rw [hetok]
            · show exactMarker (st2.trie.insert tokens (ckey tokens)).root
                (CacheEntry.postInit _ now).tokens = some (ckey tokens)
              rw [hetok, hroot]
              exact exactMarker_insertGo_self _ _ _ _
        · intro q k hq
          have hq' : exactMarker (insertGo (ckey tokens) tokens.length
              st2.trie.root tokens).1 q = some k := by
            rw [← hroot]
            exact hq
          by_cases hqe : q = tokens
          · subst hqe
            rw [exactMarker_insertGo_self] at hq'
            injection hq' with hq'
            subst hq'
            refine ⟨CacheEntry.postInit
              { cache_key := ckey q, tokens := q, kv_data := kv,
                memory_bytes :=
                  if mb = 0 then (q.length : Int) * BYTES_PER_TOKEN_DEFAULT
                  else mb } now, ?_, rfl⟩
            rw [assocFind_append, hfe2]
            simp [assocFind]
          · rw [exactMarker_insertGo_ne _ _ _ _ _ hqe] at hq'
            obtain ⟨e', hfind', htok'⟩ := hbwd2 q k hq'
            have hkck : k ≠ ckey tokens := by
              intro h0
              rw [h0, hfe2] at hfind'
              cases hfind'
            refine ⟨e', ?_, htok'⟩
            rw [assocFind_append, hfind']
        · intro hh p hp
          rcases List.mem_append.mp hp with hp' | hp'
          · exact hh.1 p (hsub2.subset hp')
          · simp only [List.mem_singleton] at hp'
            subst hp'
            show 0 ≤ (CacheEntry.postInit _ now).memory_bytes
            rw [hbytesE]
            exact hh.2
        · intro hh
          obtain ⟨hmaxE, hlenS, htotS, hnnS, hf0, hfM⟩ := hh
          constructor
          · show ((st2.entries ++ [_]).length : Int) ≤ st.config.max_entries
            rw [List.length_append, List.length_singleton]
            rcases hexit with ⟨hlt, _⟩ | hemp
            · push_cast
              push_cast at hlt
              omega
            · rw [hemp]
              simp only [List.length_nil]
              push_cast
              omega
          · show st2.total_memory_bytes + (CacheEntry.postInit _ now).memory_bytes
              ≤ maxMemoryBytes st.config
            rcases hexit with ⟨_, hle⟩ | hemp
            · exact hle
            · have h0 : st2.total_memory_bytes = 0 := by
                rw [hbytes2, hemp]
                rfl
              rw [h0, hbytesE]
              simpa using hfM

theorem Inv_fields (ckey : List Int → String) (st st' : CacheManager)
    (h1 : st'.trie = st.trie) (h2 : st'.entries = st.entries)
    (h3 : st'.total_memory_bytes = st.total_memory_bytes)
    (hInv : Inv ckey st) : Inv ckey st' := by
  obtain ⟨a, b, c, d, e, f⟩ := hInv
  refine ⟨?_, ?_, ?_, ?_, ?_, ?_⟩
  · rw [h1]
    exact a
  · rw [h3, h2]
    exact b
  · rw [h2, h1]
    exact c
  · rw [h2]
    exact d
  · rw [h2, h1]
    exact e
  · rw [h1, h2]
    exact f

theorem entriesBytes_nonneg (l : List (String × CacheEntry))
    (h : ∀ p ∈ l, 0 ≤ p.2.memory_bytes) : 0 ≤ entriesBytes l := by
  rw [entriesBytes]
  apply List.sum_nonneg
  intro x hx
  obtain ⟨p, hp, hpx⟩ := List.mem_map.mp hx
  rw [← hpx]
  exact h p hp

/-- The documented capacity bounds plus per-entry footprint positivity
(needed for the bounds to be stable under eviction). -/
def Caps (st : CacheManager) : Prop :=
  (∀ p ∈ st.entries, 0 ≤ p.2.memory_bytes) ∧
  ((st.entries.length : Int) ≤ st.config.max_entries) ∧
  st.total_memory_bytes ≤ maxMemoryBytes st.config

theorem Inv_lookup (ckey : List Int → String) (st : CacheManager) (now : Rat)
    (ts : List Int) (hInv : Inv ckey st) :
    Inv ckey (st.lookup now ts).1 ∧ (st.lookup now ts).1.config = st.config ∧
    (st.lookup now ts).1.entries.length ≤ st.entries.length ∧
    ((∀ p ∈ st.entries, 0 ≤ p.2.memory_bytes) →
      ((∀ p ∈ (st.lookup now ts).1.entries, 0 ≤ p.2.memory_bytes) ∧
       (st.lookup now ts).1.total_memory_bytes ≤ st.total_memory_bytes)) := by
  rcases hfl : st.trie.findLongest ts with ⟨ml, ko⟩
  rw [CacheManager.lookup, hfl]
  dsimp only
  cases ko with
  | none =>
    exact ⟨Inv_fields ckey st _ rfl rfl rfl hInv, rfl, le_refl _, fun h => ⟨h, le_refl _⟩⟩
  | some ck =>
    dsimp only
    by_cases hml : (ml : Int) < st.config.min_prefix_length
    · rw [if_pos hml]
      exact ⟨Inv_fields ckey st _ rfl rfl rfl hInv, rfl, le_refl _, fun h => ⟨h, le_refl _⟩⟩
    · rw [if_neg hml]
      cases hfe : assocFind ck st.entries with
      | none =>
        dsimp only
        exact ⟨Inv_fields ckey st _ rfl rfl rfl hInv, rfl, le_refl _, fun h => ⟨h, le_refl _⟩⟩
      | some e =>
        dsimp only
        have he_mem : (ck, e) ∈ st.entries := assocFind_mem hfe
        split
        · rw [CacheManager.evictEntry]
          dsimp only
          rw [hfe]
          dsimp only
          have hEv := Inv_evictEntry ckey st ck hInv
          have hev1 : (st.evictEntry ck).1.trie = (st.trie.remove e.tokens).1 := by
            simp only [CacheManager.evictEntry, hfe]
          have hev2 : (st.evictEntry ck).1.entries = assocErase ck st.entries := by
            simp only [CacheManager.evictEntry, hfe]
          have hev3 : (st.evictEntry ck).1.total_memory_bytes
              = st.total_memory_bytes - e.memory_bytes := by
            simp only [CacheManager.evictEntry, hfe]
          refine ⟨Inv_fields ckey (st.evictEntry ck).1 _ (by rw [hev1]) (by rw [hev2])
            (by rw [hev3]) hEv.1, rfl, ?_, ?_⟩
          · show (assocErase ck st.entries).length ≤ st.entries.length
            exact (assocErase_sublist ck st.entries).length_le
          · intro hnn
            constructor
            · intro p hp
              exact hnn p ((assocErase_sublist ck st.entries).subset hp)
            · show st.total_memory_bytes - e.memory_bytes ≤ st.total_memory_bytes
              have h0 : 0 ≤ e.memory_bytes := hnn (ck, e) he_mem
              omega
        · refine ⟨Inv_entries_touch ckey st _ ck e
            { e with
                last_accessed := now,
                access_count := e.access_count + 1 }
            hfe rfl rfl rfl rfl rfl hInv, rfl, ?_, ?_⟩
          · show (assocErase ck st.entries ++ [_]).length ≤ st.entries.length
            rw [List.length_append, List.length_singleton]
            have h1 := assocErase_length hfe
            omega
          · intro hnn
            constructor
            · intro p hp
              have hp' : p ∈ assocErase ck st.entries ++
                  [(ck,
                    { e with
                        last_accessed := now,
                        access_count := e.access_count + 1 })] := hp
              rcases List.mem_append.mp hp' with h | h
              · exact hnn p ((assocErase_sublist ck st.entries).subset h)
              · simp only [List.mem_singleton] at h
                subst h
                exact hnn (ck, e) he_mem
            · exact le_refl _

theorem Inv_step (ckey : List Int → String) (st : CacheManager) (op : Op)
    (hmin : 1 ≤ st.config.min_prefix_length) (hmaxE : 1 ≤ st.config.max_entries)
    (hInv : Inv ckey st) :
    Inv ckey (st.step ckey op) ∧ (st.step ckey op).config = st.config ∧
    (Caps st → (∀ ts kv mb now, op = Op.store ts kv mb now →
        0 ≤ effBytes ts mb ∧ effBytes ts mb ≤ maxMemoryBytes st.config) →
      Caps (st.step ckey op)) := by
  cases op with
  | store ts kv mb now =>
    rw [CacheManager.step]
    cases hs : CacheManager.store ckey st now ts kv mb with
    | error ec =>
      exact ⟨hInv, rfl, fun hC _ => hC⟩
    | ok r =>
      obtain ⟨hI, hc, hnn, hcap⟩ := Inv_store ckey st now ts kv mb hmin hInv r hs
      refine ⟨hI, hc, ?_⟩
      intro hC hfit
      obtain ⟨hCn, hCl, hCt⟩ := hC
      obtain ⟨hf0, hfM⟩ := hfit ts kv mb now rfl
      obtain ⟨hl', ht'⟩ := hcap ⟨hmaxE, hCl, hCt, hCn, hf0, hfM⟩
      refine ⟨hnn ⟨hCn, hf0⟩, ?_, ?_⟩
      · rw [hc]
        exact hl'
      · rw [hc]
        exact ht'
  | lookup ts now =>
    rw [CacheManager.step]
    obtain ⟨hI, hc, hlen, hrest⟩ := Inv_lookup ckey st now ts hInv
    refine ⟨hI, hc, ?_⟩
    intro ⟨hCn, hCl, hCt⟩ _
    obtain ⟨hnn', ht'⟩ := hrest hCn
    refine ⟨hnn', ?_, ?_⟩
    · rw [hc]
      have : ((st.lookup now ts).1.entries.length : Int) ≤ (st.entries.length : Int) := by
        exact_mod_cast hlen
      omega
    · rw [hc]
      omega
  | evict ck =>
    rw [CacheManager.step]
    obtain ⟨hI, hc, hsub, ht⟩ := Inv_evictEntry ckey st ck hInv
    refine ⟨hI, hc, ?_⟩
    intro ⟨hCn, hCl, hCt⟩ _
    refine ⟨fun p hp => hCn p (hsub.subset hp), ?_, ?_⟩
    · rw [hc]
      have h1 := hsub.length_le
      have : ((st.evictEntry ck).1.entries.length : Int) ≤ (st.entries.length : Int) := by
        exact_mod_cast h1
      omega
    · rw [hc]
      have := ht hCn
      omega
  | clear =>
    rw [CacheManager.step]
    obtain ⟨hI, hc⟩ := Inv_clear ckey st
    refine ⟨hI, hc, ?_⟩
    intro ⟨hCn, hCl, hCt⟩ _
    have h0 : 0 ≤ st.total_memory_bytes := by
      rw [hInv.2.1]
      exact entriesBytes_nonneg _ hCn
    refine ⟨?_, ?_, ?_⟩
    · intro p hp
      exact absurd hp (List.not_mem_nil p)
    · rw [hc]
      show ((List.length ([] : List (String × CacheEntry))) : Int) ≤ st.config.max_entries
      simp only [List.length_nil, Nat.cast_zero]
      omega
    · rw [hc]
      show (0 : Int) ≤ maxMemoryBytes st.config
      omega

theorem Inv_run (ckey : List Int → String) (cfg : CacheConfig)
    (hmin : 1 ≤ cfg.min_prefix_length) (hmaxE : 1 ≤ cfg.max_entries) :
    ∀ (ops : List Op) (st : CacheManager), st.config = cfg → Inv ckey st →
      (Inv ckey (st.run ckey ops) ∧ (st.run ckey ops).config = cfg) ∧
      (Caps st → (∀ ts kv mb now, Op.store ts kv mb now ∈ ops →
          0 ≤ effBytes ts mb ∧ effBytes ts mb ≤ maxMemoryBytes cfg) →
        Caps (st.run ckey ops)) := by
  intro ops
  induction ops with
  | nil =>
    intro st hcfg hInv
    exact ⟨⟨hInv, hcfg⟩, fun hC _ => hC⟩
  | cons op ops ih =>
    intro st hcfg hInv
    have hmin' : 1 ≤ st.config.min_prefix_length := by
      rw [hcfg]
      exact hmin
    have hmaxE' : 1 ≤ st.config.max_entries := by
      rw [hcfg]
      exact hmaxE
    obtain ⟨hI, hc, hcap⟩ := Inv_step ckey st op hmin' hmaxE' hInv
    have hrec := ih (st.step ckey op) (hc.trans hcfg) hI
    refine ⟨hrec.1, ?_⟩
    intro hC hfit
    apply hrec.2
    · apply hcap hC
      intro ts kv mb now heq
      subst heq
      rw [hcfg]
      exact hfit ts kv mb now (List.mem_cons_self _ _)
    · intro ts kv mb now hmem
      exact hfit ts kv mb now (List.mem_cons_of_mem _ hmem)

theorem valid_facts (cfg : CacheConfig) (hv : cfg.valid = true) :
    1 ≤ cfg.max_entries ∧ 0 < cfg.max_memory_mb ∧
    (cfg.eviction_policy = "lru" ∨ cfg.eviction_policy = "lfu") ∧
    1 ≤ cfg.min_prefix_length := by
  rw [CacheConfig.valid] at hv
  simp only [Bool.and_eq_true, Bool.or_eq_true, decide_eq_true_eq, beq_iff_eq] at hv
  tauto

theorem maxMemoryBytes_nonneg (cfg : CacheConfig) (h : 0 < cfg.max_memory_mb) :
    0 ≤ maxMemoryBytes cfg := by
  rw [maxMemoryBytes, pyInt]
  apply Int.tdiv_nonneg
  · have hq : 0 < cfg.max_memory_mb * (1024 * 1024) := by positivity
    exact le_of_lt (Rat.num_pos.mpr hq)
  · exact Int.ofNat_nonneg _

/-- C4: after any sequence of public operations from a fresh store with a
valid configuration, the map size equals the number of terminal markers in
the index and equals `stats.entries_count`, and `memory_used_mb × 2²⁰`
equals the byte total, which equals the sum of entry footprints. -/
theorem C4_synchrony (ckey : List Int → String) (cfg : CacheConfig) (ops : List Op)
    (hv : cfg.valid = true) :
    ((CacheManager.init cfg).run ckey ops).entries.length
      = countTerminals ((CacheManager.init cfg).run ckey ops).trie.root ∧
    ((CacheManager.init cfg).run ckey ops).statsOf.entries_count
      = ((CacheManager.init cfg).run ckey ops).entries.length ∧
    ((CacheManager.init cfg).run ckey ops).statsOf.memory_used_mb * (1024 * 1024)
      = (((CacheManager.init cfg).run ckey ops).total_memory_bytes : Rat) ∧
    ((CacheManager.init cfg).run ckey ops).total_memory_bytes
      = entriesBytes ((CacheManager.init cfg).run ckey ops).entries := by
  obtain ⟨hmaxE, hmm, hpol, hmin⟩ := valid_facts cfg hv
  obtain ⟨⟨hI, hc⟩, _⟩ := Inv_run ckey cfg hmin hmaxE ops (CacheManager.init cfg) rfl
    (Inv_init ckey cfg)
  refine ⟨hI.2.2.1, rfl, ?_, hI.2.1⟩
  show (((CacheManager.init cfg).run ckey ops).total_memory_bytes : Rat) / (1024 * 1024)
      * (1024 * 1024) = _
  rw [div_mul_cancel₀]
  norm_num

/-- C4 witness at a concrete operation sequence. -/
theorem C4_synchrony_witness :
    ((CacheManager.init {}).run tokKey
        [Op.store [1, 2, 3, 4] none 0 0, Op.lookup [1, 2, 3, 4] 1]).entries.length
      = countTerminals ((CacheManager.init {}).run tokKey
        [Op.store [1, 2, 3, 4] none 0 0, Op.lookup [1, 2, 3, 4] 1]).trie.root ∧
    ((CacheManager.init {}).run tokKey
        [Op.store [1, 2, 3, 4] none 0 0, Op.lookup [1, 2, 3, 4] 1]).statsOf.memory_used_mb
        * (1024 * 1024)
      = ((((CacheManager.init {}).run tokKey
        [Op.store [1, 2, 3, 4] none 0 0, Op.lookup [1, 2, 3, 4] 1]).total_memory_bytes : Int) :
          Rat) := by
  have h := C4_synchrony tokKey {} [Op.store [1, 2, 3, 4] none 0 0, Op.lookup [1, 2, 3, 4] 1]
    (by decide)
  exact ⟨h.1, h.2.2.1⟩

/-- C1 (amended): the capacity bounds hold after any operation sequence
from a fresh valid store, provided every store call's effective byte
footprint is nonnegative and fits within the memory budget on its own.
Without that proviso the bound fails: when eviction empties the map the
new entry is admitted regardless of its size (see the counterexample). -/
theorem C1_capacity_amended (ckey : List Int → String) (cfg : CacheConfig)
    (ops : List Op) (hv : cfg.valid = true)
    (hfits : ∀ ts kv mb now, Op.store ts kv mb now ∈ ops →
      0 ≤ effBytes ts mb ∧ effBytes ts mb ≤ maxMemoryBytes cfg) :
    (((CacheManager.init cfg).run ckey ops).entries.length : Int) ≤ cfg.max_entries ∧
    ((CacheManager.init cfg).run ckey ops).total_memory_bytes ≤ maxMemoryBytes cfg := by
  obtain ⟨hmaxE, hmm, hpol, hmin⟩ := valid_facts cfg hv
  obtain ⟨⟨hI, hc⟩, hCaps⟩ := Inv_run ckey cfg hmin hmaxE ops (CacheManager.init cfg) rfl
    (Inv_init ckey cfg)
  have hC0 : Caps (CacheManager.init cfg) := by
    refine ⟨?_, ?_, ?_⟩
    · intro p hp
      exact absurd hp (List.not_mem_nil p)
    · show ((List.length ([] : List (String × CacheEntry))) : Int) ≤ cfg.max_entries
      simp only [List.length_nil, Nat.cast_zero]
      omega
    · show (0 : Int) ≤ maxMemoryBytes cfg
      exact maxMemoryBytes_nonneg cfg hmm
  obtain ⟨_, hl, ht⟩ := hCaps hC0 hfits
  rw [hc] at hl ht
  exact ⟨hl, ht⟩

/-- C1 counterexample: with the valid configuration `max_memory_mb = 1`,
`min_prefix_length = 1`, storing a single token with a claimed footprint
of 2 MiB is admitted into the empty store and leaves the byte total at
2097152 > 1048576 = `max_memory_mb × 2²⁰` — the unamended capacity claim
is false. -/
theorem C1_counterexample :
    CacheConfig.valid { max_memory_mb := 1, min_prefix_length := 1 } = true ∧
    (CacheManager.store tokKey
        (CacheManager.init { max_memory_mb := 1, min_prefix_length := 1 })
        0 [1] none 2097152).toOption.map
      (fun r => r.1.total_memory_bytes) = some 2097152 ∧
    maxMemoryBytes { max_memory_mb := 1, min_prefix_length := 1 } = 1048576 := by
  refine ⟨by decide, ?_, ?_⟩
  · simp only [CacheManager.store, CacheManager.init, CacheManager.ensureCapacity,
      ensureCapacityGo, CacheEntry.postInit, BYTES_PER_TOKEN_DEFAULT, assocFind,
      List.isEmpty_nil, Bool.not_true, Bool.and_false, List.length_nil, Except.toOption]
    norm_num
  · rw [maxMemoryBytes, pyInt]
    norm_num

/-- C1 witness for the amended theorem at a concrete run. -/
theorem C1_capacity_amended_witness :
    (((CacheManager.init {}).run tokKey
        [Op.store [1, 2, 3, 4] none 1024 0]).entries.length : Int)
      ≤ ({} : CacheConfig).max_entries ∧
    ((CacheManager.init {}).run tokKey
        [Op.store [1, 2, 3, 4] none 1024 0]).total_memory_bytes
      ≤ maxMemoryBytes {} := by
  have hM : maxMemoryBytes ({} : CacheConfig) = 1073741824 := by
    rw [maxMemoryBytes, pyInt]
    norm_num
  apply C1_capacity_amended tokKey {} [Op.store [1, 2, 3, 4] none 1024 0] (by decide)
  intro ts kv mb now hmem
  have heq := List.mem_singleton.mp hmem
  injection heq with h1 h2 h3 h4
  subst h1
  subst h3
  rw [hM]
  constructor
  · rw [effBytes]
    decide
  · rw [effBytes]
    decide
